import Mathlib

/-!
# A shallow embedding of the `jtd` crate (JSON Typedef, RFC 8927)

This file embeds the core of the `jtd` Rust crate:

* `src/schema.rs` — the strict `Schema` model, `Schema::from_serde_schema`,
  `Schema::into_serde_schema`, `Schema::validate`;
* `src/serde_schema.rs` — the loose wire representation `SerdeSchema`;
* `src/validate.rs` — the instance validator (`validate`, the `Vm` struct and
  its helper methods).

Modelling conventions:

* `serde_json::Value` is modelled by `Jtd.Json`; a `serde_json::Number` is a
  nonnegative integer (Rust `u64`), a negative integer (Rust `i64`) or a
  finite double.  The double is modelled as an exact rational: every finite
  f64 value is a rational, and the only operations the validator performs on
  doubles — ordering comparisons against small integer bounds and the
  `f64::fract() != 0.0` test — are exact on those rationals, so the model
  agrees with f64 arithmetic on every operation the code performs.
* `BTreeMap` and `BTreeSet` are modelled as association lists / lists,
  ordered by key; the `BTreeMap::insert` performed by `from_serde_schema` is
  modelled by ordered insertion (`sortedInsert`), which keeps the list sorted
  and replaces an existing key, exactly like `BTreeMap`.
* The Rust validator recurses through `ref` nodes and can genuinely loop
  (documented in `validate.rs`), so every recursive function takes a fuel
  argument; running out of fuel is a distinguished outcome (`VmOut.nofuel`,
  `none`, …) that no real execution of the Rust code exhibits.  All other
  outcomes agree with the Rust code step for step.
* `chrono::DateTime::parse_from_rfc3339` is an external dependency of the
  crate (not part of this repository), so the timestamp predicate is a
  parameter `ts : String → Bool` of the validator; no claim depends on it.
* The indexing `self.root.definitions()[ref_]` in the `Schema::Ref` arm of
  `Vm::validate` panics in Rust when the key is missing; that panic is
  modelled by the distinguished outcome `VmOut.panicked`.
* The `VmState.hw` field is pure instrumentation (a high-water mark of the
  `schema_tokens` stack length at `Ref` pushes); it is never read by the
  validator and exists only to state the max-depth property.
-/

set_option maxHeartbeats 1000000

namespace Jtd

/-- Model of `serde_json::Number`: `PosInt` (u64), `NegInt` (i64, negative) or
`Float` (finite f64, modelled as an exact rational, see the file comment). -/
inductive JsonNum where
  | posInt (n : Nat)
  | negInt (n : Int)
  | float (q : ℚ)

/-- Model of `serde_json::Value`.  Objects are `BTreeMap<String, Value>`
(`serde_json` with the default features), modelled as association lists with
distinct keys in ascending order; key iteration order is the list order. -/
inductive Json where
  | null
  | bool (b : Bool)
  | num (n : JsonNum)
  | str (s : String)
  | arr (elems : List Json)
  | obj (members : List (String × Json))

/-- First-match lookup in an association list (`BTreeMap::get`). -/
def lookupKey {α : Type} : List (String × α) → String → Option α
  | [], _ => none
  | (k, v) :: rest, key => if k = key then some v else lookupKey rest key

/-- `BTreeMap::contains_key`. -/
def hasKey {α : Type} (l : List (String × α)) (key : String) : Bool :=
  (lookupKey l key).isSome

/-- `serde_json::Number::is_i64`: true for `NegInt`, and for `PosInt` values
that fit in an `i64`. -/
def JsonNum.isI64 : JsonNum → Bool
  | .posInt n => n ≤ 9223372036854775807
  | .negInt _ => true
  | .float _ => false

/-- `serde_json::Number::is_f64`: true only for the `Float` representation. -/
def JsonNum.isF64 : JsonNum → Bool
  | .float _ => true
  | _ => false

/-- `serde_json::Number::as_f64`, modelled exactly: the `u64 as f64` /
`i64 as f64` conversions round only for magnitudes above 2^53, far outside
every bound the validator compares against, so exact conversion yields the
same comparison results as the Rust code. -/
def JsonNum.asF64 : JsonNum → ℚ
  | .posInt n => (n : ℚ)
  | .negInt n => (n : ℚ)
  | .float q => q

def Json.isNull : Json → Bool
  | .null => true
  | _ => false

def Json.isBoolean : Json → Bool
  | .bool _ => true
  | _ => false

def Json.isString : Json → Bool
  | .str _ => true
  | _ => false

def Json.isF64 : Json → Bool
  | .num n => n.isF64
  | _ => false

def Json.isI64 : Json → Bool
  | .num n => n.isI64
  | _ => false

def Json.asF64 : Json → Option ℚ
  | .num n => some n.asF64
  | _ => none

def Json.asStr : Json → Option String
  | .str s => some s
  | _ => none

def Json.asArray : Json → Option (List Json)
  | .arr xs => some xs
  | _ => none

def Json.asObject : Json → Option (List (String × Json))
  | .obj kvs => some kvs
  | _ => none

/-- `f64::fract(v) != 0.0` is false exactly when the value is an integer;
on the exact rational model that is `q.den = 1`. -/
def f64FractIsZero (q : ℚ) : Bool := q.den = 1

/-- The values `Schema::Type::type_` may take on (`Type` in `schema.rs`). -/
inductive Ty where
  | boolean
  | int8
  | uint8
  | int16
  | uint16
  | int32
  | uint32
  | float32
  | float64
  | string
  | timestamp
deriving DecidableEq

/-- The strict schema model (`Schema` in `schema.rs`).  `definitions` and
`metadata` are `BTreeMap`s, modelled as sorted association lists; `metadata`
is opaque to validation and carried as-is. -/
inductive Schema where
  | empty (definitions : List (String × Schema)) (metadata : List (String × Json))
  | ref (definitions : List (String × Schema)) (metadata : List (String × Json))
      (nullable : Bool) (ref_ : String)
  | type (definitions : List (String × Schema)) (metadata : List (String × Json))
      (nullable : Bool) (type_ : Ty)
  | enum (definitions : List (String × Schema)) (metadata : List (String × Json))
      (nullable : Bool) (enum_ : List String)
  | elements (definitions : List (String × Schema)) (metadata : List (String × Json))
      (nullable : Bool) (elements : Schema)
  | properties (definitions : List (String × Schema)) (metadata : List (String × Json))
      (nullable : Bool) (props : List (String × Schema))
      (optionalProps : List (String × Schema))
      (propertiesIsPresent : Bool) (additionalProperties : Bool)
  | values (definitions : List (String × Schema)) (metadata : List (String × Json))
      (nullable : Bool) (values : Schema)
  | discriminator (definitions : List (String × Schema)) (metadata : List (String × Json))
      (nullable : Bool) (discriminator : String) (mapping : List (String × Schema))

/-- `Schema::definitions()`. -/
def Schema.definitionsL : Schema → List (String × Schema)
  | .empty d _ => d
  | .ref d _ _ _ => d
  | .type d _ _ _ => d
  | .enum d _ _ _ => d
  | .elements d _ _ _ => d
  | .properties d _ _ _ _ _ _ => d
  | .values d _ _ _ => d
  | .discriminator d _ _ _ _ => d

/-- `Schema::nullable()`: `Empty` is always nullable, the other forms carry
the flag. -/
def Schema.nullable : Schema → Bool
  | .empty _ _ => true
  | .ref _ _ n _ => n
  | .type _ _ n _ => n
  | .enum _ _ n _ => n
  | .elements _ _ n _ => n
  | .properties _ _ n _ _ _ _ => n
  | .values _ _ n _ => n
  | .discriminator _ _ n _ _ => n

/-! ## The instance validator (`src/validate.rs`) -/

/-- `ValidateOptions`. -/
structure ValidateOptions where
  maxDepth : Nat
  maxErrors : Nat
deriving DecidableEq

/-- `ValidateOptions::new()` / `Default::default()`. -/
def ValidateOptions.default : ValidateOptions := ⟨0, 0⟩

/-- `ValidationErrorIndicator`. -/
structure VErr where
  instancePath : List String
  schemaPath : List String
deriving DecidableEq

/-- `ValidateError` (the hard error of `validate()`). -/
inductive ValidateError where
  | maxDepthExceeded
deriving DecidableEq

/-- `VmValidateError`. -/
inductive VmError where
  | maxErrorsReached
  | maxDepthExceeded
deriving DecidableEq

/-- The mutable state of `Vm`.  `schemaTokens` is the stack of stacks: its
*head* is the current (innermost) stack, corresponding to `last()` of the Rust
`Vec`; within an inner stack tokens are in root-to-leaf order, as in the Rust
`Vec`, so pushing appends at the end.  `hw` is instrumentation only (see the
file comment): the maximum `schemaTokens` length produced by a `Ref` push. -/
structure VmState where
  instanceTokens : List String
  schemaTokens : List (List String)
  errors : List VErr
  hw : Nat
deriving DecidableEq

/-- Outcome of one `Vm::validate` call: normal return, early `Err(_)` return,
the (unreachable) panic at the definitions lookup, or fuel exhaustion (a model
artifact, see the file comment). -/
inductive VmOut where
  | ok (st : VmState)
  | fail (e : VmError) (st : VmState)
  | panicked (st : VmState)
  | nofuel (st : VmState)
deriving DecidableEq

/-- The state carried by any outcome. -/
def VmOut.stateOf : VmOut → VmState
  | .ok st => st
  | .fail _ st => st
  | .panicked st => st
  | .nofuel st => st

/-- Sequencing with the `?` operator: a non-`ok` outcome returns early. -/
def VmOut.andThen : VmOut → (VmState → VmOut) → VmOut
  | .ok st, f => f st
  | r, _ => r

/-- Push a token onto the current (head) inner stack.  The Rust code unwraps
`last_mut()`; the stack is never empty in any real execution (it starts as
`vec![vec![]]` and inner pushes never remove stacks), so the empty case is
modelled as a no-op. -/
def pushTok (t : String) : List (List String) → List (List String)
  | s :: rest => (s ++ [t]) :: rest
  | [] => []

/-- Pop a token from the current (head) inner stack. -/
def popTok : List (List String) → List (List String)
  | s :: rest => s.dropLast :: rest
  | [] => []

/-- `Vm::push_schema_token`. -/
def pushSchemaToken (t : String) (st : VmState) : VmState :=
  { st with schemaTokens := pushTok t st.schemaTokens }

/-- `Vm::pop_schema_token`. -/
def popSchemaToken (st : VmState) : VmState :=
  { st with schemaTokens := popTok st.schemaTokens }

/-- `Vm::push_instance_token` (also used for the owned index tokens pushed by
the `Elements` arm). -/
def pushInstanceToken (t : String) (st : VmState) : VmState :=
  { st with instanceTokens := st.instanceTokens ++ [t] }

/-- `Vm::pop_instance_token`. -/
def popInstanceToken (st : VmState) : VmState :=
  { st with instanceTokens := st.instanceTokens.dropLast }

/-- `Vm::push_error`: record an indicator built from the current paths, then
fail with `MaxErrorsReached` when the count reaches `max_errors`. -/
def pushError (opts : ValidateOptions) (st : VmState) : VmOut :=
  let st' : VmState :=
    { st with errors := st.errors ++ [⟨st.instanceTokens, st.schemaTokens.headD []⟩] }
  if opts.maxErrors = st'.errors.length then .fail .maxErrorsReached st' else .ok st'

/-- `Vm::validate_int`. -/
def validateInt (opts : ValidateOptions) (inst : Json) (lo hi : ℚ) (st : VmState) : VmOut :=
  match inst.asF64 with
  | some v => if ¬f64FractIsZero v ∨ v < lo ∨ v > hi then pushError opts st else .ok st
  | none => pushError opts st

/-- The `Schema::Type` arm's per-primitive dispatch.  `ts` models
`chrono::DateTime::parse_from_rfc3339(_).is_ok()` (an external dependency). -/
def validateType (ts : String → Bool) (opts : ValidateOptions) (t : Ty) (inst : Json)
    (st : VmState) : VmOut :=
  match t with
  | .boolean => if inst.isBoolean then .ok st else pushError opts st
  | .float32 => if ¬inst.isF64 ∧ ¬inst.isI64 then pushError opts st else .ok st
  | .float64 => if ¬inst.isF64 ∧ ¬inst.isI64 then pushError opts st else .ok st
  | .int8 => validateInt opts inst (-128) 127 st
  | .uint8 => validateInt opts inst 0 255 st
  | .int16 => validateInt opts inst (-32768) 32767 st
  | .uint16 => validateInt opts inst 0 65535 st
  | .int32 => validateInt opts inst (-2147483648) 2147483647 st
  | .uint32 => validateInt opts inst 0 4294967295 st
  | .string => if inst.isString then .ok st else pushError opts st
  | .timestamp =>
      match inst.asStr with
      | some s => if ts s then .ok st else pushError opts st
      | none => pushError opts st

/-- The `Schema::Elements` arm's loop, parameterized by the recursive call
`f` (which is `Vm::validate` on the element schema). -/
def elementsLoop (f : Json → VmState → VmOut) : Nat → List Json → VmState → VmOut
  | _, [], st => .ok st
  | i, x :: xs, st =>
      (f x (pushInstanceToken (Nat.repr i) st)).andThen fun st' =>
        elementsLoop f (i + 1) xs (popInstanceToken st')

/-- The `properties` loop of the `Schema::Properties` arm. -/
def requiredLoop (f : Schema → Json → VmState → VmOut) (opts : ValidateOptions)
    (obj : List (String × Json)) : List (String × Schema) → VmState → VmOut
  | [], st => .ok st
  | (name, sub) :: rest, st =>
      let st1 := pushSchemaToken name st
      (match lookupKey obj name with
       | some subInst =>
           (f sub subInst (pushInstanceToken name st1)).andThen fun st' =>
             .ok (popInstanceToken st')
       | none => pushError opts st1).andThen fun st2 =>
        requiredLoop f opts obj rest (popSchemaToken st2)

/-- The `optionalProperties` loop of the `Schema::Properties` arm. -/
def optionalLoop (f : Schema → Json → VmState → VmOut) (obj : List (String × Json)) :
    List (String × Schema) → VmState → VmOut
  | [], st => .ok st
  | (name, sub) :: rest, st =>
      let st1 := pushSchemaToken name st
      (match lookupKey obj name with
       | some subInst =>
           (f sub subInst (pushInstanceToken name st1)).andThen fun st' =>
             .ok (popInstanceToken st')
       | none => .ok st1).andThen fun st2 =>
        optionalLoop f obj rest (popSchemaToken st2)

/-- The additional-properties loop of the `Schema::Properties` arm: one error
per object key that is not the parent tag, not required and not optional. -/
def additionalLoop (opts : ValidateOptions) (parentTag : Option String)
    (props optionalProps : List (String × Schema)) :
    List String → VmState → VmOut
  | [], st => .ok st
  | name :: rest, st =>
      if parentTag ≠ some name ∧ ¬hasKey props name ∧ ¬hasKey optionalProps name then
        (pushError opts (pushInstanceToken name st)).andThen fun st' =>
          additionalLoop opts parentTag props optionalProps rest (popInstanceToken st')
      else
        additionalLoop opts parentTag props optionalProps rest st

/-- The `Schema::Values` arm's loop. -/
def valuesLoop (f : Json → VmState → VmOut) : List (String × Json) → VmState → VmOut
  | [], st => .ok st
  | (name, subInst) :: rest, st =>
      (f subInst (pushInstanceToken name st)).andThen fun st' =>
        valuesLoop f rest (popInstanceToken st')

/-- `Vm::validate`, fuelled.  One unit of fuel is consumed per recursion
level; the Rust function has no fuel and can loop forever, which the model
renders as `VmOut.nofuel`.  Everything else mirrors `src/validate.rs` line by
line (see the arm comments). -/
def vmValidate (ts : String → Bool) (root : Schema) (opts : ValidateOptions) :
    Nat → Schema → Option String → Json → VmState → VmOut
  | 0, _, _, _, st => .nofuel st
  | fuel + 1, schema, parentTag, inst, st =>
    -- universal nullability short-circuit
    if inst.isNull ∧ schema.nullable then .ok st
    else
      match schema with
      | .empty _ _ => .ok st
      | .ref _ _ _ r =>
          -- push `["definitions", ref]` as a fresh inner stack, then check the
          -- max-depth guard, then index the root's definitions (a Rust panic
          -- when absent), recurse, and pop the inner stack.
          let st1 : VmState :=
            { st with
                schemaTokens := ["definitions", r] :: st.schemaTokens,
                hw := max st.hw (st.schemaTokens.length + 1) }
          if st1.schemaTokens.length = opts.maxDepth then .fail .maxDepthExceeded st1
          else
            match lookupKey root.definitionsL r with
            | none => .panicked st1
            | some defSchema =>
                (vmValidate ts root opts fuel defSchema none inst st1).andThen fun st' =>
                  .ok { st' with schemaTokens := st'.schemaTokens.tail }
      | .type _ _ _ t =>
          (validateType ts opts t inst (pushSchemaToken "type" st)).andThen fun st' =>
            .ok (popSchemaToken st')
      | .enum _ _ _ es =>
          let st1 := pushSchemaToken "enum" st
          (match inst.asStr with
           | some s => if ¬es.contains s then pushError opts st1 else .ok st1
           | none => pushError opts st1).andThen fun st' =>
            .ok (popSchemaToken st')
      | .elements _ _ _ elemSchema =>
          let st1 := pushSchemaToken "elements" st
          (match inst.asArray with
           | some xs => elementsLoop (vmValidate ts root opts fuel elemSchema none) 0 xs st1
           | none => pushError opts st1).andThen fun st' =>
            .ok (popSchemaToken st')
      | .properties _ _ _ props optionalProps propsPresent additional =>
          (match inst.asObject with
           | some obj =>
               (requiredLoop (fun sub => vmValidate ts root opts fuel sub none) opts obj props
                   (pushSchemaToken "properties" st)).andThen fun st1 =>
                 (optionalLoop (fun sub => vmValidate ts root opts fuel sub none) obj optionalProps
                     (pushSchemaToken "optionalProperties" (popSchemaToken st1))).andThen
                   fun st2 =>
                   let st3 := popSchemaToken st2
                   if ¬additional then
                     additionalLoop opts parentTag props optionalProps
                       (obj.map Prod.fst) st3
                   else .ok st3
           | none =>
               let st1 :=
                 pushSchemaToken (if propsPresent then "properties" else "optionalProperties") st
               (pushError opts st1).andThen fun st' => .ok (popSchemaToken st'))
      | .values _ _ _ valSchema =>
          let st1 := pushSchemaToken "values" st
          (match inst.asObject with
           | some obj => valuesLoop (vmValidate ts root opts fuel valSchema none) obj st1
           | none => pushError opts st1).andThen fun st' =>
            .ok (popSchemaToken st')
      | .discriminator _ _ _ disc mapping =>
          match inst.asObject with
          | some obj =>
              match lookupKey obj disc with
              | some tagVal =>
                  match tagVal.asStr with
                  | some tag =>
                      match lookupKey mapping tag with
                      | some sub =>
                          (vmValidate ts root opts fuel sub (some disc) inst
                              (pushSchemaToken tag (pushSchemaToken "mapping" st))).andThen
                            fun st' => .ok (popSchemaToken (popSchemaToken st'))
                      | none =>
                          (pushError opts
                              (pushInstanceToken disc (pushSchemaToken "mapping" st))).andThen
                            fun st' => .ok (popSchemaToken (popInstanceToken st'))
                  | none =>
                      (pushError opts
                          (pushInstanceToken disc
                            (pushSchemaToken "discriminator" st))).andThen
                        fun st' => .ok (popSchemaToken (popInstanceToken st'))
              | none =>
                  (pushError opts (pushSchemaToken "discriminator" st)).andThen fun st' =>
                    .ok (popSchemaToken st')
          | none =>
              (pushError opts (pushSchemaToken "discriminator" st)).andThen fun st' =>
                .ok (popSchemaToken st')

/-- The initial `Vm` state (`Vm::new`): no instance tokens, a single empty
inner schema stack, no errors.  The instrumentation mark starts at the initial
stack length. -/
def initState : VmState := ⟨[], [[]], [], 1⟩

/-- A whole run of `Vm::validate` from the top. -/
def vmRun (ts : String → Bool) (schema : Schema) (inst : Json) (opts : ValidateOptions)
    (fuel : Nat) : VmOut :=
  vmValidate ts schema opts fuel schema none inst initState

/-- The public `validate()` function: `Ok(errors)` on normal return and on the
`MaxErrorsReached` unwind, `Err(MaxDepthExceeded)` otherwise.  `none` is the
model artifact for fuel exhaustion (and for the unreachable lookup panic,
which never returns in Rust either). -/
def jtdValidate (ts : String → Bool) (fuel : Nat) (schema : Schema) (inst : Json)
    (opts : ValidateOptions) : Option (Except ValidateError (List VErr)) :=
  match vmRun ts schema inst opts fuel with
  | .ok st => some (.ok st.errors)
  | .fail .maxErrorsReached st => some (.ok st.errors)
  | .fail .maxDepthExceeded _ => some (.error .maxDepthExceeded)
  | .panicked _ => none
  | .nofuel _ => none

end Jtd

namespace Jtd

deriving instance DecidableEq for Except

/-! ## Helper characterizations of the small validator arms -/

/-- Whether a JSON value is a number that the integer validator accepts for
bounds `[lo, hi]`: zero fractional part and in range (the complement of the
`validate_int` error condition). -/
def intInRange (lo hi : ℚ) : Json → Bool
  | .num n => f64FractIsZero n.asF64 && decide (lo ≤ n.asF64) && decide (n.asF64 ≤ hi)
  | _ => false

/-- The `[min, max]` pair `Vm::validate` passes to `validate_int` for each
integer primitive (`None` for the non-integer primitives). -/
def intBounds : Ty → Option (ℚ × ℚ)
  | .int8 => some (-128, 127)
  | .uint8 => some (0, 255)
  | .int16 => some (-32768, 32767)
  | .uint16 => some (0, 65535)
  | .int32 => some (-2147483648, 2147483647)
  | .uint32 => some (0, 4294967295)
  | _ => none

theorem pushError_maxErrorsZero (opts : ValidateOptions) (h : opts.maxErrors = 0)
    (st : VmState) :
    pushError opts st =
      .ok { st with errors := st.errors ++ [⟨st.instanceTokens, st.schemaTokens.headD []⟩] } := by
  simp [pushError, h]

theorem validateInt_characterization (inst : Json) (lo hi : ℚ) (st : VmState) :
    validateInt .default inst lo hi st =
      if intInRange lo hi inst then .ok st
      else .ok { st with errors := st.errors ++ [⟨st.instanceTokens, st.schemaTokens.headD []⟩] } := by
  cases inst <;>
    simp [validateInt, intInRange, Json.asF64,
      pushError_maxErrorsZero ValidateOptions.default rfl]
  case num n =>
    by_cases hf : f64FractIsZero n.asF64 <;> by_cases h1 : lo ≤ n.asF64 <;>
      by_cases h2 : n.asF64 ≤ hi <;>
      simp [hf, h1, h2, not_le, le_of_lt]

end Jtd

namespace Jtd

/-! ## Claims C1–C4 -/

/-- C1: for every schema that is nullable (`Schema::nullable()` returns true,
with the Empty form always counted as nullable), validating the JSON instance
`null` with default options returns `Ok` of an empty error list; the
nullability short-circuit fires before any form-specific handling, so one
recursion level of fuel suffices for every form. -/
theorem c1_nullable_null_ok (ts : String → Bool) (fuel : Nat) (schema : Schema)
    (h : schema.nullable = true) :
    jtdValidate ts (fuel + 1) schema .null .default = some (.ok []) := by
  simp [jtdValidate, vmRun, vmValidate, Json.isNull, h, initState]

/-- Witness for C1 at a concrete nullable schema. -/
theorem c1_nullable_null_ok_witness :
    (Schema.ref [] [] true "x").nullable = true ∧
      jtdValidate (fun _ => false) 1 (Schema.ref [] [] true "x") .null .default
        = some (.ok []) :=
  ⟨rfl, c1_nullable_null_ok (fun _ => false) 0 (Schema.ref [] [] true "x") rfl⟩

/-- C2: for an Enum-form schema with `nullable = false` and default options,
validation returns the empty list iff the instance is a JSON string in the
enum set, and otherwise returns exactly one error indicator, whose schema path
is `["enum"]` (in particular it ends in the token `"enum"`). -/
theorem c2_enum_membership (ts : String → Bool) (fuel : Nat)
    (defs : List (String × Schema)) (meta : List (String × Json))
    (es : List String) (inst : Json) :
    (jtdValidate ts (fuel + 1) (.enum defs meta false es) inst .default = some (.ok []) ↔
      ∃ s, inst = .str s ∧ s ∈ es) ∧
    ((¬∃ s, inst = .str s ∧ s ∈ es) →
      jtdValidate ts (fuel + 1) (.enum defs meta false es) inst .default
        = some (.ok [⟨[], ["enum"]⟩])) := by
  have hrun : jtdValidate ts (fuel + 1) (.enum defs meta false es) inst .default
      = some (.ok (match inst with
        | .str s => if s ∈ es then [] else [⟨[], ["enum"]⟩]
        | _ => [⟨[], ["enum"]⟩])) := by
    cases inst <;>
      simp only [jtdValidate, vmRun, vmValidate, Json.isNull, Schema.nullable,
        Bool.false_eq_true, and_false, if_false, Json.asStr, initState,
        pushSchemaToken, pushTok, pushError_maxErrorsZero ValidateOptions.default rfl,
        VmOut.andThen, popSchemaToken, popTok] <;> try rfl
    case str s =>
      by_cases hc : s ∈ es <;>
        simp [hc, VmOut.andThen, popSchemaToken, popTok, jtdValidate]
  rw [hrun]
  refine ⟨⟨fun h => ?_, fun h => ?_⟩, fun h => ?_⟩
  · cases inst with
    | str s =>
        by_cases hc : s ∈ es
        · exact ⟨s, rfl, hc⟩
        · simp [hc] at h
    | null => simp at h
    | bool b => simp at h
    | num n => simp at h
    | arr xs => simp at h
    | obj kvs => simp at h
  · obtain ⟨s, rfl, hc⟩ := h
    simp [hc]
  · cases inst with
    | str s =>
        by_cases hc : s ∈ es
        · exact absurd ⟨s, rfl, hc⟩ h
        · simp [hc]
    | null => rfl
    | bool b => rfl
    | num n => rfl
    | arr xs => rfl
    | obj kvs => rfl

/-- Witness for C2: a concrete enum schema, member and non-member instances. -/
theorem c2_enum_membership_witness :
    jtdValidate (fun _ => false) 1 (.enum [] [] false ["bar", "foo"]) (.str "foo")
        .default = some (.ok []) ∧
      jtdValidate (fun _ => false) 1 (.enum [] [] false ["bar", "foo"]) (.str "baz")
        .default = some (.ok [⟨[], ["enum"]⟩]) :=
  ⟨(c2_enum_membership (fun _ => false) 0 [] [] ["bar", "foo"] (.str "foo")).1.mpr
      ⟨"foo", rfl, by decide⟩,
    (c2_enum_membership (fun _ => false) 0 [] [] ["bar", "foo"] (.str "baz")).2
      (by rintro ⟨s, hs, hmem⟩; cases hs; revert hmem; decide)⟩

end Jtd

namespace Jtd

/-- C3: for a Type-form schema with an integer primitive and
`nullable = false`, validation with default options accepts exactly the JSON
numbers with zero fractional part inside the primitive's range (`intBounds`
lists the `[min, max]` pairs the code passes to `validate_int`), emitting one
error at `instance_path = []`, `schema_path = ["type"]` otherwise; in
particular `{"type":"uint8"}` against `256` yields exactly that error. -/
theorem c3_integer_ranges (ts : String → Bool) (fuel : Nat)
    (defs : List (String × Schema)) (meta : List (String × Json))
    (t : Ty) (lo hi : ℚ) (inst : Json) (h : intBounds t = some (lo, hi)) :
    (jtdValidate ts (fuel + 1) (.type defs meta false t) inst .default =
      some (.ok (if intInRange lo hi inst then [] else [⟨[], ["type"]⟩]))) ∧
    (jtdValidate ts (fuel + 1) (.type defs meta false t) inst .default = some (.ok []) ↔
      ∃ n, inst = .num n ∧ f64FractIsZero n.asF64 = true ∧ lo ≤ n.asF64 ∧ n.asF64 ≤ hi) ∧
    jtdValidate ts 1 (.type [] [] false .uint8) (.num (.posInt 256)) .default
      = some (.ok [⟨[], ["type"]⟩]) := by
  have hrun : jtdValidate ts (fuel + 1) (.type defs meta false t) inst .default =
      some (.ok (if intInRange lo hi inst then [] else [⟨[], ["type"]⟩])) := by
    have harm : ∀ st, validateType ts ValidateOptions.default t inst st
        = validateInt ValidateOptions.default inst lo hi st := by
      intro st; cases t <;> simp_all [intBounds, validateType]
    simp only [jtdValidate, vmRun, vmValidate, Json.isNull, Schema.nullable,
      Bool.false_eq_true, and_false, if_false, harm,
      validateInt_characterization, initState, pushSchemaToken, pushTok]
    by_cases hc : intInRange lo hi inst <;>
      simp [hc, VmOut.andThen, popSchemaToken, popTok]
  refine ⟨hrun, ?_, rfl⟩
  rw [hrun]
  constructor
  · intro hres
    by_cases hc : intInRange lo hi inst
    · cases inst with
      | num n =>
          refine ⟨n, rfl, ?_, ?_, ?_⟩ <;>
            simp only [intInRange, Bool.and_eq_true, decide_eq_true_eq] at hc <;>
            tauto
      | null => simp [intInRange] at hc
      | bool b => simp [intInRange] at hc
      | str s => simp [intInRange] at hc
      | arr xs => simp [intInRange] at hc
      | obj kvs => simp [intInRange] at hc
    · simp [hc] at hres
  · rintro ⟨n, rfl, h1, h2, h3⟩
    have : intInRange lo hi (.num n) = true := by
      simp [intInRange, h1, h2, h3]
    simp [this]

/-- Witness for C3 at the `uint8` bounds: `255` accepted, `256` rejected. -/
theorem c3_integer_ranges_witness :
    jtdValidate (fun _ => false) 1 (.type [] [] false .uint8) (.num (.posInt 255))
        .default = some (.ok []) ∧
      jtdValidate (fun _ => false) 1 (.type [] [] false .uint8) (.num (.posInt 256))
        .default = some (.ok [⟨[], ["type"]⟩]) :=
  ⟨(c3_integer_ranges (fun _ => false) 0 [] [] .uint8 0 255 (.num (.posInt 255)) rfl).2.1.mpr
      ⟨.posInt 255, rfl, by decide, by decide, by decide⟩,
    (c3_integer_ranges (fun _ => false) 0 [] [] .uint8 0 255 (.num (.posInt 256)) rfl).2.2⟩

/-- C4 (code bug): the claim — and the crate's own documentation of
`Type::Float64` ("A JSON number") together with RFC 8927 §3.3.3 — say every
JSON number is accepted by a `float64` schema, but `Vm::validate` tests
`instance.is_f64() || instance.is_i64()`, which is false for a `u64` number
above `i64::MAX`.  This theorem evaluates the embedded code at the failing
input `9223372036854775808` (= 2^63, a perfectly valid JSON number, parsed by
`serde_json` as a `u64`): one error is emitted even though the claim demands
none, while the neighbouring representations (`f64`, `i64`-ranged) are
accepted. -/
theorem c4_float64_rejects_large_u64 :
    jtdValidate (fun _ => false) 1 (.type [] [] false .float64)
        (.num (.posInt 9223372036854775808)) .default
      = some (.ok [⟨[], ["type"]⟩]) ∧
    jtdValidate (fun _ => false) 1 (.type [] [] false .float32)
        (.num (.posInt 9223372036854775808)) .default
      = some (.ok [⟨[], ["type"]⟩]) ∧
    jtdValidate (fun _ => false) 1 (.type [] [] false .float64)
        (.num (.posInt 9223372036854775807)) .default = some (.ok []) ∧
    jtdValidate (fun _ => false) 1 (.type [] [] false .float64)
        (.num (.float (3 / 2))) .default = some (.ok []) := by
  refine ⟨by decide, by decide, by decide, ?_⟩
  rfl

end Jtd

namespace Jtd

/-! ## The wire representation and schema construction (`src/serde_schema.rs`,
`src/schema.rs`) -/

/-- `SerdeSchema`: the loose wire representation in which every keyword is
independently optional.  Field order matches the Rust struct. -/
inductive SerdeSchema where
  | mk (metadata : Option (List (String × Json)))
      (definitions : Option (List (String × SerdeSchema)))
      (nullable : Option Bool)
      (ref_ : Option String)
      (type_ : Option String)
      (enum_ : Option (List String))
      (elements : Option SerdeSchema)
      (properties : Option (List (String × SerdeSchema)))
      (optionalProperties : Option (List (String × SerdeSchema)))
      (additionalProperties : Option Bool)
      (values : Option SerdeSchema)
      (discriminator : Option String)
      (mapping : Option (List (String × SerdeSchema)))

def SerdeSchema.definitions : SerdeSchema → Option (List (String × SerdeSchema))
  | .mk _ d _ _ _ _ _ _ _ _ _ _ _ => d

def SerdeSchema.ref_ : SerdeSchema → Option String
  | .mk _ _ _ r _ _ _ _ _ _ _ _ _ => r

def SerdeSchema.type_ : SerdeSchema → Option String
  | .mk _ _ _ _ t _ _ _ _ _ _ _ _ => t

def SerdeSchema.enum_ : SerdeSchema → Option (List String)
  | .mk _ _ _ _ _ e _ _ _ _ _ _ _ => e

def SerdeSchema.elements : SerdeSchema → Option SerdeSchema
  | .mk _ _ _ _ _ _ e _ _ _ _ _ _ => e

def SerdeSchema.properties : SerdeSchema → Option (List (String × SerdeSchema))
  | .mk _ _ _ _ _ _ _ p _ _ _ _ _ => p

def SerdeSchema.optionalProperties : SerdeSchema → Option (List (String × SerdeSchema))
  | .mk _ _ _ _ _ _ _ _ o _ _ _ _ => o

def SerdeSchema.additionalProperties : SerdeSchema → Option Bool
  | .mk _ _ _ _ _ _ _ _ _ a _ _ _ => a

def SerdeSchema.valuesF : SerdeSchema → Option SerdeSchema
  | .mk _ _ _ _ _ _ _ _ _ _ v _ _ => v

def SerdeSchema.discriminator : SerdeSchema → Option String
  | .mk _ _ _ _ _ _ _ _ _ _ _ d _ => d

def SerdeSchema.mapping : SerdeSchema → Option (List (String × SerdeSchema))
  | .mk _ _ _ _ _ _ _ _ _ _ _ _ m => m

/-- `FromSerdeSchemaError`. -/
inductive FromSerdeSchemaError where
  | invalidForm
  | invalidType (t : String)
  | duplicatedEnumValue (v : String)
deriving DecidableEq

/-- `SchemaValidateError`. -/
inductive SchemaValidateError where
  | noSuchDefinition (name : String)
  | nonRootDefinitions
  | emptyEnum
  | repeatedProperty (name : String)
  | nullableMapping
  | nonPropertiesMapping
  | repeatedDiscriminator (name : String)
deriving DecidableEq

/-- The 10-bit keyword-presence vector of a wire schema, in the order used by
`from_serde_schema`: ref, type, enum, elements, properties,
optionalProperties, additionalProperties, values, discriminator, mapping. -/
def formSignature (s : SerdeSchema) : List Bool :=
  [s.ref_.isSome, s.type_.isSome, s.enum_.isSome, s.elements.isSome,
    s.properties.isSome, s.optionalProperties.isSome, s.additionalProperties.isSome,
    s.valuesF.isSome, s.discriminator.isSome, s.mapping.isSome]

/-- `VALID_FORM_SIGNATURES`: the 13 legal presence vectors, in source order. -/
def validFormSignatures : List (List Bool) :=
  [[false, false, false, false, false, false, false, false, false, false],
   [true, false, false, false, false, false, false, false, false, false],
   [false, true, false, false, false, false, false, false, false, false],
   [false, false, true, false, false, false, false, false, false, false],
   [false, false, false, true, false, false, false, false, false, false],
   [false, false, false, false, true, false, false, false, false, false],
   [false, false, false, false, false, true, false, false, false, false],
   [false, false, false, false, true, true, false, false, false, false],
   [false, false, false, false, true, false, true, false, false, false],
   [false, false, false, false, false, true, true, false, false, false],
   [false, false, false, false, true, true, true, false, false, false],
   [false, false, false, false, false, false, false, true, false, false],
   [false, false, false, false, false, false, false, false, true, true]]

/-- `BTreeMap::insert` on the sorted-association-list model: keeps the list
sorted by key and replaces the value of an existing key. -/
def sortedInsert {α : Type} (k : String) (v : α) : List (String × α) → List (String × α)
  | [] => [(k, v)]
  | (k', v') :: rest =>
      if k < k' then (k, v) :: (k', v') :: rest
      else if k = k' then (k, v) :: rest
      else (k', v') :: sortedInsert k v rest

/-- `BTreeSet::insert` on the sorted-list model (an existing value stays). -/
def sortedInsertStr (v : String) : List String → List String
  | [] => [v]
  | x :: rest =>
      if v < x then v :: x :: rest
      else if v = x then x :: rest
      else x :: sortedInsertStr v rest

/-- The `type` string decoding of `from_serde_schema`. -/
def tyFromString : String → Option Ty
  | "boolean" => some .boolean
  | "int8" => some .int8
  | "uint8" => some .uint8
  | "int16" => some .int16
  | "uint16" => some .uint16
  | "int32" => some .int32
  | "uint32" => some .uint32
  | "float32" => some .float32
  | "float64" => some .float64
  | "string" => some .string
  | "timestamp" => some .timestamp
  | _ => none

/-- The inverse mapping used by `into_serde_schema`. -/
def tyToString : Ty → String
  | .boolean => "boolean"
  | .int8 => "int8"
  | .uint8 => "uint8"
  | .int16 => "int16"
  | .uint16 => "uint16"
  | .int32 => "int32"
  | .uint32 => "uint32"
  | .float32 => "float32"
  | .float64 => "float64"
  | .string => "string"
  | .timestamp => "timestamp"

/-- The enum loop of `from_serde_schema`: build the `BTreeSet`, failing on a
value already present. -/
def buildEnum : List String → List String → Except FromSerdeSchemaError (List String)
  | [], acc => .ok acc
  | v :: rest, acc =>
      if acc.contains v then .error (.duplicatedEnumValue v)
      else buildEnum rest (sortedInsertStr v acc)

/-- The map-building loops of `from_serde_schema` (`definitions`,
`properties`, `optionalProperties`, `mapping`): convert each entry with `f`
(the recursive call at one less fuel) and `BTreeMap::insert` it.  `none`
propagates fuel exhaustion. -/
def buildEntries (f : SerdeSchema → Option (Except FromSerdeSchemaError Schema)) :
    List (String × SerdeSchema) → List (String × Schema) →
      Option (Except FromSerdeSchemaError (List (String × Schema)))
  | [], acc => some (.ok acc)
  | (k, v) :: rest, acc =>
      match f v with
      | none => none
      | some (.error e) => some (.error e)
      | some (.ok sv) => buildEntries f rest (sortedInsert k sv acc)

/-- `Schema::from_serde_schema`, fuelled (outer `none` = fuel exhaustion):
convert `definitions`, check the form-signature vector, then build the form
determined by keyword presence, in the source's order of branches. -/
def fromSerdeSchemaF : Nat → SerdeSchema → Option (Except FromSerdeSchemaError Schema)
  | 0, _ => none
  | fuel + 1, .mk meta defs nullb ref? ty? en? el? pr? op? ad? va? di? ma? =>
      match buildEntries (fromSerdeSchemaF fuel) (defs.getD []) [] with
      | none => none
      | some (.error e) => some (.error e)
      | some (.ok definitions) =>
          let metadata := meta.getD []
          let nullable := nullb.getD false
          let sig : List Bool :=
            [ref?.isSome, ty?.isSome, en?.isSome, el?.isSome, pr?.isSome, op?.isSome,
              ad?.isSome, va?.isSome, di?.isSome, ma?.isSome]
          if ¬validFormSignatures.contains sig then some (.error .invalidForm)
          else
            match ref? with
            | some r => some (.ok (.ref definitions metadata nullable r))
            | none =>
            match ty? with
            | some tstr =>
                match tyFromString tstr with
                | some t => some (.ok (.type definitions metadata nullable t))
                | none => some (.error (.invalidType tstr))
            | none =>
            match en? with
            | some es =>
                match buildEnum es [] with
                | .error e => some (.error e)
                | .ok vs => some (.ok (.enum definitions metadata nullable vs))
            | none =>
            match el? with
            | some sub =>
                match fromSerdeSchemaF fuel sub with
                | none => none
                | some (.error e) => some (.error e)
                | some (.ok subS) => some (.ok (.elements definitions metadata nullable subS))
            | none =>
            if pr?.isSome ∨ op?.isSome then
              match buildEntries (fromSerdeSchemaF fuel) (pr?.getD []) [] with
              | none => none
              | some (.error e) => some (.error e)
              | some (.ok props) =>
                  match buildEntries (fromSerdeSchemaF fuel) (op?.getD []) [] with
                  | none => none
                  | some (.error e) => some (.error e)
                  | some (.ok optProps) =>
                      some (.ok (.properties definitions metadata nullable props optProps
                        pr?.isSome (ad?.getD false)))
            else
              match va? with
              | some sub =>
                  match fromSerdeSchemaF fuel sub with
                  | none => none
                  | some (.error e) => some (.error e)
                  | some (.ok subS) => some (.ok (.values definitions metadata nullable subS))
              | none =>
              match di? with
              | some disc =>
                  -- the signature check guarantees `mapping` is present here;
                  -- the Rust code unwraps it (the `none` branch is unreachable).
                  match ma? with
                  | some mp =>
                      match buildEntries (fromSerdeSchemaF fuel) mp [] with
                      | none => none
                      | some (.error e) => some (.error e)
                      | some (.ok mapped) =>
                          some (.ok (.discriminator definitions metadata nullable disc mapped))
                  | none => some (.error .invalidForm)
              | none => some (.ok (.empty definitions metadata))

end Jtd

namespace Jtd

/-- Map a fuelled conversion over the values of a `BTreeMap` (iterating a
`BTreeMap` and `collect`ing preserves keys and order). -/
def intoEntries (f : Schema → Option SerdeSchema) :
    List (String × Schema) → Option (List (String × SerdeSchema))
  | [] => some []
  | (k, v) :: rest =>
      match f v, intoEntries f rest with
      | some w, some ws => some ((k, w) :: ws)
      | _, _ => none

/-- `Schema::definitions_into_serde_schema`: `None` when empty. -/
def defsIntoSerde (f : Schema → Option SerdeSchema) (defs : List (String × Schema)) :
    Option (Option (List (String × SerdeSchema))) :=
  if defs.isEmpty then some none
  else
    match intoEntries f defs with
    | some ds => some (some ds)
    | none => none

/-- `Schema::metadata_into_serde_schema`: `None` when empty. -/
def metaIntoSerde (meta : List (String × Json)) : Option (List (String × Json)) :=
  if meta.isEmpty then none else some meta

/-- `Schema::nullable_into_serde_schema`: `Some(true)` only when true. -/
def nullableIntoSerde (b : Bool) : Option Bool :=
  if b then some true else none

/-- `Schema::into_serde_schema`, fuelled (`none` = fuel exhaustion, a model
artifact only).  Each arm mirrors the corresponding `match` arm of the Rust
function; fields not assigned there stay `None` (`Default::default()`). -/
def intoSerdeSchemaF : Nat → Schema → Option SerdeSchema
  | 0, _ => none
  | fuel + 1, s =>
      match s with
      | .empty defs meta =>
          match defsIntoSerde (intoSerdeSchemaF fuel) defs with
          | none => none
          | some ds =>
              some (.mk (metaIntoSerde meta) ds none none none none none none none none
                none none none)
      | .ref defs meta nullb r =>
          match defsIntoSerde (intoSerdeSchemaF fuel) defs with
          | none => none
          | some ds =>
              some (.mk (metaIntoSerde meta) ds (nullableIntoSerde nullb) (some r) none none
                none none none none none none none)
      | .type defs meta nullb t =>
          match defsIntoSerde (intoSerdeSchemaF fuel) defs with
          | none => none
          | some ds =>
              some (.mk (metaIntoSerde meta) ds (nullableIntoSerde nullb) none
                (some (tyToString t)) none none none none none none none none)
      | .enum defs meta nullb es =>
          match defsIntoSerde (intoSerdeSchemaF fuel) defs with
          | none => none
          | some ds =>
              some (.mk (metaIntoSerde meta) ds (nullableIntoSerde nullb) none none (some es)
                none none none none none none none)
      | .elements defs meta nullb sub =>
          match defsIntoSerde (intoSerdeSchemaF fuel) defs, intoSerdeSchemaF fuel sub with
          | some ds, some w =>
              some (.mk (metaIntoSerde meta) ds (nullableIntoSerde nullb) none none none
                (some w) none none none none none none)
          | _, _ => none
      | .properties defs meta nullb props optProps propsPresent additional =>
          match defsIntoSerde (intoSerdeSchemaF fuel) defs,
              intoEntries (intoSerdeSchemaF fuel) props,
              intoEntries (intoSerdeSchemaF fuel) optProps with
          | some ds, some ps, some os =>
              some (.mk (metaIntoSerde meta) ds (nullableIntoSerde nullb) none none none none
                (if propsPresent then some ps else none)
                (if optProps.isEmpty then none else some os)
                (if additional then some additional else none)
                none none none)
          | _, _, _ => none
      | .values defs meta nullb sub =>
          match defsIntoSerde (intoSerdeSchemaF fuel) defs, intoSerdeSchemaF fuel sub with
          | some ds, some w =>
              some (.mk (metaIntoSerde meta) ds (nullableIntoSerde nullb) none none none none
                none none none (some w) none none)
          | _, _ => none
      | .discriminator defs meta nullb disc mapping =>
          match defsIntoSerde (intoSerdeSchemaF fuel) defs,
              intoEntries (intoSerdeSchemaF fuel) mapping with
          | some ds, some ms =>
              some (.mk (metaIntoSerde meta) ds (nullableIntoSerde nullb) none none none none
                none none none none (some disc) (some ms))
          | _, _ => none

/-- The `properties`/`optional_properties` disjointness scan of
`Schema::_validate`: the first `properties` key that also appears in
`optional_properties`. -/
def firstRepeatedKey : List (String × Schema) → List (String × Schema) → Option String
  | [], _ => none
  | (k, _) :: rest, optProps =>
      if hasKey optProps k then some k else firstRepeatedKey rest optProps

/-- Run a fuelled check over the values of a map, propagating the first
error (`?` in the Rust loops). -/
def checkEntries (f : Schema → Option (Except SchemaValidateError Unit)) :
    List (String × Schema) → Option (Except SchemaValidateError Unit)
  | [] => some (.ok ())
  | (_, v) :: rest =>
      match f v with
      | none => none
      | some (.error e) => some (.error e)
      | some (.ok _) => checkEntries f rest

/-- The mapping loop of the `Discriminator` arm of `Schema::_validate`. -/
def checkMapping (f : Schema → Option (Except SchemaValidateError Unit)) (disc : String) :
    List (String × Schema) → Option (Except SchemaValidateError Unit)
  | [] => some (.ok ())
  | (_, sub) :: rest =>
      match sub with
      | .properties _ _ nullb props optProps _ _ =>
          if nullb then some (.error .nullableMapping)
          else if hasKey props disc ∨ hasKey optProps disc then
            some (.error (.repeatedDiscriminator disc))
          else
            match f sub with
            | none => none
            | some (.error e) => some (.error e)
            | some (.ok _) => checkMapping f disc rest
      | _ => some (.error .nonPropertiesMapping)

/-- `Schema::_validate`, fuelled: `root?` is `None` at the root (the Rust
`root: Option<&Self>`); `sub_root` is the root carried into sub-schemas. -/
def schemaValidateF : Nat → Option Schema → Schema → Option (Except SchemaValidateError Unit)
  | 0, _, _ => none
  | fuel + 1, root?, s =>
      let subRoot := root?.getD s
      if root?.isSome ∧ ¬s.definitionsL.isEmpty then some (.error .nonRootDefinitions)
      else
        match checkEntries (schemaValidateF fuel (some subRoot)) s.definitionsL with
        | none => none
        | some (.error e) => some (.error e)
        | some (.ok _) =>
            match s with
            | .empty _ _ => some (.ok ())
            | .ref _ _ _ r =>
                if ¬hasKey subRoot.definitionsL r then some (.error (.noSuchDefinition r))
                else some (.ok ())
            | .type _ _ _ _ => some (.ok ())
            | .enum _ _ _ es =>
                if es.isEmpty then some (.error .emptyEnum) else some (.ok ())
            | .elements _ _ _ sub => schemaValidateF fuel (some subRoot) sub
            | .properties _ _ _ props optProps _ _ =>
                (match firstRepeatedKey props optProps with
                 | some k => some (.error (.repeatedProperty k))
                 | none =>
                     match checkEntries (schemaValidateF fuel (some subRoot)) props with
                     | none => none
                     | some (.error e) => some (.error e)
                     | some (.ok _) =>
                         checkEntries (schemaValidateF fuel (some subRoot)) optProps)
            | .values _ _ _ sub => schemaValidateF fuel (some subRoot) sub
            | .discriminator _ _ _ disc mapping =>
                checkMapping (schemaValidateF fuel (some subRoot)) disc mapping

/-- `Schema::validate` (the public entry point). -/
def schemaValidate (fuel : Nat) (s : Schema) : Option (Except SchemaValidateError Unit) :=
  schemaValidateF fuel none s

/-- Every `Ref` syntactically contained in the schema (definitions included)
resolves in the definition map `d`.  Fuelled; used to connect
`Schema::validate` to the definitions lookup of the instance validator. -/
def allRefsResolveF : Nat → List (String × Schema) → Schema → Bool
  | 0, _, _ => false
  | fuel + 1, d, s =>
      s.definitionsL.all (fun kv => allRefsResolveF fuel d kv.2) &&
      match s with
      | .empty _ _ => true
      | .ref _ _ _ r => hasKey d r
      | .type _ _ _ _ => true
      | .enum _ _ _ _ => true
      | .elements _ _ _ sub => allRefsResolveF fuel d sub
      | .properties _ _ _ props optProps _ _ =>
          props.all (fun kv => allRefsResolveF fuel d kv.2) &&
            optProps.all (fun kv => allRefsResolveF fuel d kv.2)
      | .values _ _ _ sub => allRefsResolveF fuel d sub
      | .discriminator _ _ _ _ mapping =>
          mapping.all (fun kv => allRefsResolveF fuel d kv.2)

end Jtd

namespace Jtd

/-! ## Claim C8 -/

theorem buildEntries_ok (f : SerdeSchema → Option (Except FromSerdeSchemaError Schema)) :
    ∀ (l : List (String × SerdeSchema)),
      (∀ kv ∈ l, ∃ out, f kv.2 = some (.ok out)) →
      ∀ acc, ∃ m, buildEntries f l acc = some (.ok m)
  | [], _, acc => ⟨acc, rfl⟩
  | (k, v) :: rest, h, acc => by
      obtain ⟨out, hout⟩ := h (k, v) (by simp)
      rw [buildEntries, hout]
      exact buildEntries_ok f rest (fun kv hkv => h kv (List.mem_cons_of_mem _ hkv)) _

theorem buildEnum_error_shape :
    ∀ (l acc : List String) (e : FromSerdeSchemaError), buildEnum l acc = .error e →
      ∃ v, e = .duplicatedEnumValue v
  | [], _, _, h => by simp [buildEnum] at h
  | v :: rest, acc, e, h => by
      rw [buildEnum] at h
      by_cases hc : v ∈ acc
      · simp [hc] at h
        exact ⟨v, h.symm⟩
      · simp [hc] at h
        exact buildEnum_error_shape rest _ e h

/-- The C8 counterexample wire schema: `{"elements": {"type": "uint8",
"enum": []}}`.  Its own keyword combination is the legal elements-only
signature and it has no definitions, yet `from_serde_schema` fails with
`InvalidForm`, because the failure of the *nested* elements sub-schema
propagates. -/
def c8BadWire : SerdeSchema :=
  .mk none none none none none none
    (some (.mk none none none none (some "uint8") (some []) none none none none none none none))
    none none none none none none

/-- C8 counterexample: the claim's "if and only if" fails in the right-to-left
direction — `c8BadWire` has no definitions entries (so they all convert
vacuously), its 10-bit presence vector is one of the 13 legal signatures, and
still `from_serde_schema` fails with `InvalidForm`. -/
theorem c8_counterexample :
    fromSerdeSchemaF 2 c8BadWire = some (.error .invalidForm) ∧
      validFormSignatures.contains (formSignature c8BadWire) = true ∧
      c8BadWire.definitions = none :=
  ⟨rfl, rfl, rfl⟩

/-- C8 (amended): for every wire schema all of whose immediate sub-schemas
(definitions entries, elements, properties entries, optionalProperties
entries, values, mapping entries) convert successfully, `from_serde_schema`
fails with `InvalidForm` if and only if the 10-bit keyword-presence vector
matches none of the 13 legal signatures. -/
theorem c8_invalidForm_iff_signature (fuel : Nat) (w : SerdeSchema)
    (hdefs : ∀ kv ∈ w.definitions.getD [], ∃ out, fromSerdeSchemaF fuel kv.2 = some (.ok out))
    (helem : ∀ e, w.elements = some e → ∃ out, fromSerdeSchemaF fuel e = some (.ok out))
    (hprops : ∀ kv ∈ w.properties.getD [], ∃ out, fromSerdeSchemaF fuel kv.2 = some (.ok out))
    (hopt : ∀ kv ∈ w.optionalProperties.getD [],
      ∃ out, fromSerdeSchemaF fuel kv.2 = some (.ok out))
    (hvals : ∀ v, w.valuesF = some v → ∃ out, fromSerdeSchemaF fuel v = some (.ok out))
    (hmap : ∀ kv ∈ w.mapping.getD [], ∃ out, fromSerdeSchemaF fuel kv.2 = some (.ok out)) :
    fromSerdeSchemaF (fuel + 1) w = some (.error .invalidForm) ↔
      validFormSignatures.contains (formSignature w) = false := by
  obtain ⟨meta, defs, nullb, ref?, ty?, en?, el?, pr?, op?, ad?, va?, di?, ma?⟩ := w
  simp only [SerdeSchema.definitions, SerdeSchema.elements, SerdeSchema.properties,
    SerdeSchema.optionalProperties, SerdeSchema.valuesF, SerdeSchema.mapping,
    SerdeSchema.ref_, SerdeSchema.type_, SerdeSchema.enum_, SerdeSchema.discriminator,
    SerdeSchema.additionalProperties, formSignature] at *
  obtain ⟨definitions, hdefsEq⟩ := buildEntries_ok (fromSerdeSchemaF fuel) (defs.getD []) hdefs []
  rw [fromSerdeSchemaF, hdefsEq]
  dsimp only
  by_cases hsig : validFormSignatures.contains
      [ref?.isSome, ty?.isSome, en?.isSome, el?.isSome, pr?.isSome, op?.isSome,
        ad?.isSome, va?.isSome, di?.isSome, ma?.isSome] = true
  · constructor
    · intro h
      exfalso
      rw [if_neg (not_not_intro hsig)] at h
      revert h
      cases ref? with
      | some r => simp
      | none =>
      cases ty? with
      | some tstr =>
          cases hty : tyFromString tstr <;> simp [hty]
      | none =>
      cases en? with
      | some es =>
          cases henum : buildEnum es [] with
          | error e =>
              obtain ⟨v, rfl⟩ := buildEnum_error_shape es [] e henum
              simp [henum]
          | ok vs => simp [henum]
      | none =>
      cases el? with
      | some sub =>
          obtain ⟨out, hout⟩ := helem sub rfl
          simp [hout]
      | none =>
      by_cases hpo : pr?.isSome = true ∨ op?.isSome = true
      · obtain ⟨ps, hps⟩ := buildEntries_ok (fromSerdeSchemaF fuel) (pr?.getD []) hprops []
        obtain ⟨os, hos⟩ := buildEntries_ok (fromSerdeSchemaF fuel) (op?.getD []) hopt []
        simp [hpo, hps, hos]
      · cases va? with
        | some sub =>
            obtain ⟨out, hout⟩ := hvals sub rfl
            simp [hpo, hout]
        | none =>
        cases di? with
        | some disc =>
            have hma : ma?.isSome = true := by
              obtain ⟨hp, ho⟩ := not_or.mp hpo
              simp only [Bool.not_eq_true] at hp ho
              cases had : ad? <;> cases hma2 : ma? <;>
                simp_all [validFormSignatures, Option.isSome]
            cases ma? with
            | some mp =>
                obtain ⟨ms, hms⟩ := buildEntries_ok (fromSerdeSchemaF fuel) mp hmap []
                simp [hpo, hms]
            | none => simp at hma
        | none => simp [hpo]
    · intro h
      rw [h] at hsig
      simp at hsig
  · have hcond : ¬validFormSignatures.contains
        [ref?.isSome, ty?.isSome, en?.isSome, el?.isSome, pr?.isSome, op?.isSome,
          ad?.isSome, va?.isSome, di?.isSome, ma?.isSome] = true := by
      simp only [Bool.not_eq_true] at hsig ⊢
      exact hsig
    rw [if_pos hcond]
    exact ⟨fun _ => by simpa using hcond, fun _ => rfl⟩

/-- Witness for C8 (amended) at a concrete input with an illegal combination
(`type` together with `enum`, the example from the crate's documentation). -/
theorem c8_invalidForm_iff_signature_witness :
    fromSerdeSchemaF 1
        (.mk none none none none (some "uint8") (some []) none none none none none none none)
      = some (.error .invalidForm) :=
  (c8_invalidForm_iff_signature 0
      (.mk none none none none (some "uint8") (some []) none none none none none none none)
      nofun nofun nofun nofun nofun nofun).mpr rfl

end Jtd

namespace Jtd

/-! ## Claim C9: sortedness and rebuild lemmas for the `BTreeMap`/`BTreeSet`
model -/

/-- The keys of an association list are strictly ascending (the `BTreeMap`
iteration invariant). -/
def KeySorted {α : Type} (l : List (String × α)) : Prop :=
  l.Pairwise (fun a b => a.1 < b.1)

theorem mem_sortedInsert {α : Type} (k : String) (v : α) :
    ∀ (l : List (String × α)) (x : String × α),
      x ∈ sortedInsert k v l → x = (k, v) ∨ x ∈ l
  | [], x, hx => by
      simp [sortedInsert] at hx
      exact Or.inl hx
  | (k', v') :: rest, x, hx => by
      rw [sortedInsert] at hx
      by_cases h1 : k < k'
      · simp only [if_pos h1, List.mem_cons] at hx
        rcases hx with h | h | h
        · exact Or.inl h
        · exact Or.inr (by simp [h])
        · exact Or.inr (List.mem_cons_of_mem _ h)
      · by_cases h2 : k = k'
        · simp only [if_neg h1, if_pos h2, List.mem_cons] at hx
          rcases hx with h | h
          · exact Or.inl h
          · exact Or.inr (List.mem_cons_of_mem _ h)
        · simp only [if_neg h1, if_neg h2, List.mem_cons] at hx
          rcases hx with h | h
          · exact Or.inr (by simp [h])
          · rcases mem_sortedInsert k v rest x h with h' | h'
            · exact Or.inl h'
            · exact Or.inr (List.mem_cons_of_mem _ h')

theorem keySorted_sortedInsert {α : Type} (k : String) (v : α) :
    ∀ l : List (String × α), KeySorted l → KeySorted (sortedInsert k v l)
  | [], _ => by simp [sortedInsert, KeySorted]
  | (k', v') :: rest, h => by
      rw [KeySorted, List.pairwise_cons] at h
      obtain ⟨hk', hrest⟩ := h
      rw [sortedInsert]
      by_cases h1 : k < k'
      · rw [if_pos h1, KeySorted, List.pairwise_cons]
        refine ⟨?_, List.pairwise_cons.mpr ⟨hk', hrest⟩⟩
        intro a ha
        rcases List.mem_cons.mp ha with rfl | ha'
        · exact h1
        · exact lt_trans h1 (hk' a ha')
      · by_cases h2 : k = k'
        · rw [if_neg h1, if_pos h2, KeySorted, List.pairwise_cons]
          exact ⟨fun a ha => h2 ▸ hk' a ha, hrest⟩
        · rw [if_neg h1, if_neg h2, KeySorted, List.pairwise_cons]
          constructor
          · intro a ha
            rcases mem_sortedInsert k v rest a ha with rfl | ha'
            · exact lt_of_le_of_ne (not_lt.mp h1) (Ne.symm (by simpa using h2))
            · exact hk' a ha'
          · exact keySorted_sortedInsert k v rest hrest

theorem sortedInsert_append_of_lt {α : Type} (k : String) (v : α) :
    ∀ l : List (String × α), (∀ a ∈ l, a.1 < k) → sortedInsert k v l = l ++ [(k, v)]
  | [], _ => rfl
  | (k', v') :: rest, h => by
      have hk' : k' < k := h (k', v') (by simp)
      rw [sortedInsert, if_neg (asymm hk'), if_neg (Ne.symm (ne_of_lt hk')),
        sortedInsert_append_of_lt k v rest (fun a ha => h a (List.mem_cons_of_mem _ ha))]
      rfl

theorem buildEntries_keySorted (f : SerdeSchema → Option (Except FromSerdeSchemaError Schema)) :
    ∀ (l : List (String × SerdeSchema)) (acc m : List (String × Schema)),
      KeySorted acc → buildEntries f l acc = some (.ok m) → KeySorted m
  | [], acc, m, hacc, h => by
      simp only [buildEntries, Option.some.injEq, Except.ok.injEq] at h
      exact h ▸ hacc
  | (k, v) :: rest, acc, m, hacc, h => by
      rw [buildEntries] at h
      cases hf : f v with
      | none => rw [hf] at h; cases h
      | some r =>
          cases r with
          | error e => rw [hf] at h; cases h
          | ok sv =>
              rw [hf] at h
              exact buildEntries_keySorted f rest _ m (keySorted_sortedInsert k sv acc hacc) h

theorem buildEntries_mem_src (f : SerdeSchema → Option (Except FromSerdeSchemaError Schema)) :
    ∀ (l : List (String × SerdeSchema)) (acc m : List (String × Schema)),
      buildEntries f l acc = some (.ok m) →
      ∀ kv ∈ m, kv ∈ acc ∨ ∃ w, (kv.1, w) ∈ l ∧ f w = some (.ok kv.2)
  | [], acc, m, h, kv, hkv => by
      simp only [buildEntries, Option.some.injEq, Except.ok.injEq] at h
      exact Or.inl (h ▸ hkv)
  | (k, v) :: rest, acc, m, h, kv, hkv => by
      rw [buildEntries] at h
      cases hf : f v with
      | none => rw [hf] at h; cases h
      | some r =>
          cases r with
          | error e => rw [hf] at h; cases h
          | ok sv =>
              rw [hf] at h
              rcases buildEntries_mem_src f rest _ m h kv hkv with hin | ⟨w, hw, hfw⟩
              · rcases mem_sortedInsert k sv acc kv hin with rfl | hin'
                · exact Or.inr ⟨v, by simp, by simp [hf]⟩
                · exact Or.inl hin'
              · exact Or.inr ⟨w, List.mem_cons_of_mem _ hw, hfw⟩

theorem intoEntries_spec (f : Schema → Option SerdeSchema)
    (g : SerdeSchema → Option (Except FromSerdeSchemaError Schema)) :
    ∀ m : List (String × Schema),
      (∀ kv ∈ m, ∃ w', f kv.2 = some w' ∧ g w' = some (.ok kv.2)) →
      ∃ ws, intoEntries f m = some ws ∧
        List.Forall₂ (fun (wkv : String × SerdeSchema) (skv : String × Schema) =>
          wkv.1 = skv.1 ∧ g wkv.2 = some (.ok skv.2)) ws m
  | [], _ => ⟨[], rfl, List.Forall₂.nil⟩
  | (k, v) :: rest, h => by
      obtain ⟨w', hf, hg⟩ := h (k, v) (by simp)
      obtain ⟨ws, hws, hrel⟩ :=
        intoEntries_spec f g rest (fun kv hkv => h kv (List.mem_cons_of_mem _ hkv))
      exact ⟨(k, w') :: ws, by rw [intoEntries, hf, hws], List.Forall₂.cons ⟨rfl, hg⟩ hrel⟩

theorem buildEntries_of_forall2 (g : SerdeSchema → Option (Except FromSerdeSchemaError Schema)) :
    ∀ (ws : List (String × SerdeSchema)) (m acc : List (String × Schema)),
      List.Forall₂ (fun (wkv : String × SerdeSchema) (skv : String × Schema) =>
        wkv.1 = skv.1 ∧ g wkv.2 = some (.ok skv.2)) ws m →
      KeySorted (acc ++ m) → buildEntries g ws acc = some (.ok (acc ++ m)) := by
  intro ws m
  induction ws generalizing m with
  | nil =>
      intro acc hrel _
      cases hrel
      simp [buildEntries]
  | cons wkv ws' ih =>
      intro acc hrel hsorted
      cases hrel with
      | cons hr hrel' =>
          rename_i skv m'
          obtain ⟨wk, ww⟩ := wkv
          obtain ⟨k, v⟩ := skv
          obtain ⟨hk, hg⟩ := hr
          cases hk
          rw [buildEntries, hg]
          dsimp only
          have hlt : ∀ a ∈ acc, a.1 < wk := by
            intro a ha
            have := (List.pairwise_append.mp hsorted).2.2 a ha (wk, v) (by simp)
            exact this
          rw [sortedInsert_append_of_lt wk v acc hlt]
          have hsorted' : KeySorted ((acc ++ [(wk, v)]) ++ m') := by
            rw [List.append_assoc]
            exact hsorted
          have := ih m' (acc ++ [(wk, v)]) hrel' hsorted'
          rw [this, List.append_assoc]
          rfl

end Jtd

namespace Jtd

theorem mem_sortedInsertStr (v : String) :
    ∀ (l : List String) (x : String), x ∈ sortedInsertStr v l → x = v ∨ x ∈ l
  | [], x, hx => by
      simp [sortedInsertStr] at hx
      exact Or.inl hx
  | y :: rest, x, hx => by
      rw [sortedInsertStr] at hx
      by_cases h1 : v < y
      · simp only [if_pos h1, List.mem_cons] at hx
        rcases hx with h | h | h
        · exact Or.inl h
        · exact Or.inr (by simp [h])
        · exact Or.inr (List.mem_cons_of_mem _ h)
      · by_cases h2 : v = y
        · simp only [if_neg h1, if_pos h2, List.mem_cons] at hx
          rcases hx with h | h
          · exact Or.inr (by simp [h])
          · exact Or.inr (List.mem_cons_of_mem _ h)
        · simp only [if_neg h1, if_neg h2, List.mem_cons] at hx
          rcases hx with h | h
          · exact Or.inr (by simp [h])
          · rcases mem_sortedInsertStr v rest x h with h' | h'
            · exact Or.inl h'
            · exact Or.inr (List.mem_cons_of_mem _ h')

theorem sorted_sortedInsertStr (v : String) :
    ∀ l : List String, l.Pairwise (· < ·) → (sortedInsertStr v l).Pairwise (· < ·)
  | [], _ => by simp [sortedInsertStr]
  | y :: rest, h => by
      rw [List.pairwise_cons] at h
      obtain ⟨hy, hrest⟩ := h
      rw [sortedInsertStr]
      by_cases h1 : v < y
      · rw [if_pos h1, List.pairwise_cons]
        refine ⟨?_, List.pairwise_cons.mpr ⟨hy, hrest⟩⟩
        intro a ha
        rcases List.mem_cons.mp ha with rfl | ha'
        · exact h1
        · exact lt_trans h1 (hy a ha')
      · by_cases h2 : v = y
        · rw [if_neg h1, if_pos h2, List.pairwise_cons]
          exact ⟨hy, hrest⟩
        · rw [if_neg h1, if_neg h2, List.pairwise_cons]
          constructor
          · intro a ha
            rcases mem_sortedInsertStr v rest a ha with rfl | ha'
            · exact lt_of_le_of_ne (not_lt.mp h1) (Ne.symm h2)
            · exact hy a ha'
          · exact sorted_sortedInsertStr v rest hrest

theorem sortedInsertStr_append_of_lt (v : String) :
    ∀ l : List String, (∀ a ∈ l, a < v) → sortedInsertStr v l = l ++ [v]
  | [], _ => rfl
  | y :: rest, h => by
      have hy : y < v := h y (by simp)
      rw [sortedInsertStr, if_neg (asymm hy), if_neg (Ne.symm (ne_of_lt hy)),
        sortedInsertStr_append_of_lt v rest (fun a ha => h a (List.mem_cons_of_mem _ ha))]
      rfl

theorem buildEnum_sorted :
    ∀ (l acc vs : List String), acc.Pairwise (· < ·) → buildEnum l acc = .ok vs →
      vs.Pairwise (· < ·)
  | [], acc, vs, hacc, h => by
      simp only [buildEnum, Except.ok.injEq] at h
      exact h ▸ hacc
  | v :: rest, acc, vs, hacc, h => by
      rw [buildEnum] at h
      by_cases hc : v ∈ acc
      · simp [hc] at h
      · rw [if_neg (by simp [hc])] at h
        exact buildEnum_sorted rest _ vs (sorted_sortedInsertStr v acc hacc) h

theorem buildEnum_rebuild :
    ∀ (vs acc : List String), (acc ++ vs).Pairwise (· < ·) →
      buildEnum vs acc = .ok (acc ++ vs)
  | [], acc, _ => by simp [buildEnum]
  | v :: rest, acc, h => by
      have hlt : ∀ a ∈ acc, a < v :=
        fun a ha => (List.pairwise_append.mp h).2.2 a ha v (by simp)
      have hnotmem : v ∉ acc := fun hmem => lt_irrefl v (hlt v hmem)
      rw [buildEnum, if_neg (by simp [hnotmem]), sortedInsertStr_append_of_lt v acc hlt]
      have h' : ((acc ++ [v]) ++ rest).Pairwise (· < ·) := by
        rw [List.append_assoc]
        exact h
      rw [buildEnum_rebuild rest (acc ++ [v]) h', List.append_assoc]
      rfl

end Jtd

namespace Jtd

/-- The proviso of the amended C9: every Properties-form sub-schema (including
those inside definitions) either has the `properties` keyword present or a
non-empty `optional_properties` map.  Without it, `into_serde_schema` elides
both keywords and the round trip collapses the Properties form into the Empty
form (or fails).  Fuelled like the conversions. -/
def propsNonDegenerateF : Nat → Schema → Bool
  | 0, _ => false
  | fuel + 1, s =>
      s.definitionsL.all (fun kv => propsNonDegenerateF fuel kv.2) &&
      match s with
      | .empty _ _ => true
      | .ref _ _ _ _ => true
      | .type _ _ _ _ => true
      | .enum _ _ _ _ => true
      | .elements _ _ _ sub => propsNonDegenerateF fuel sub
      | .properties _ _ _ props optProps present _ =>
          (present || ¬optProps.isEmpty) &&
            props.all (fun kv => propsNonDegenerateF fuel kv.2) &&
            optProps.all (fun kv => propsNonDegenerateF fuel kv.2)
      | .values _ _ _ sub => propsNonDegenerateF fuel sub
      | .discriminator _ _ _ _ mapping =>
          mapping.all (fun kv => propsNonDegenerateF fuel kv.2)

theorem tyFromString_tyToString (t : Ty) : tyFromString (tyToString t) = some t := by
  cases t <;> rfl

/-- One map field's round trip: if a map was built by `from_serde_schema` and
every member's value round-trips, then `into_serde_schema`'s entry conversion
succeeds and `from_serde_schema`'s fold rebuilds exactly the same map. -/
theorem entries_roundtrip (n : Nat)
    (input : List (String × SerdeSchema)) (m : List (String × Schema))
    (hbuild : buildEntries (fromSerdeSchemaF n) input [] = some (.ok m))
    (hrt : ∀ kv ∈ m, ∃ w', intoSerdeSchemaF n kv.2 = some w' ∧
      fromSerdeSchemaF n w' = some (.ok kv.2)) :
    ∃ ws, intoEntries (intoSerdeSchemaF n) m = some ws ∧
      buildEntries (fromSerdeSchemaF n) ws [] = some (.ok m) := by
  obtain ⟨ws, hws, hrel⟩ := intoEntries_spec (intoSerdeSchemaF n) (fromSerdeSchemaF n) m hrt
  refine ⟨ws, hws, ?_⟩
  have hsorted : KeySorted m :=
    buildEntries_keySorted (fromSerdeSchemaF n) input [] m (by simp [KeySorted]) hbuild
  exact buildEntries_of_forall2 (fromSerdeSchemaF n) ws m [] hrel hsorted

end Jtd

namespace Jtd

theorem metaIntoSerde_getD (m : List (String × Json)) : (metaIntoSerde m).getD [] = m := by
  rw [metaIntoSerde]
  cases m <;> simp

theorem nullableIntoSerde_getD (b : Bool) : (nullableIntoSerde b).getD false = b := by
  cases b <;> rfl

theorem defs_roundtrip (n : Nat) (D : List (String × Schema))
    (hd : ∃ ws, intoEntries (intoSerdeSchemaF n) D = some ws ∧
      buildEntries (fromSerdeSchemaF n) ws [] = some (.ok D)) :
    ∃ dsOpt, defsIntoSerde (intoSerdeSchemaF n) D = some dsOpt ∧
      buildEntries (fromSerdeSchemaF n) (dsOpt.getD []) [] = some (.ok D) := by
  obtain ⟨ws, hws, hreb⟩ := hd
  rw [defsIntoSerde]
  cases D with
  | nil => exact ⟨none, by simp, rfl⟩
  | cons kv rest =>
      rw [if_neg (by simp)]
      exact ⟨some ws, by rw [hws], hreb⟩

theorem members_roundtrip (n : Nat)
    (ih : ∀ (w : SerdeSchema) (s : Schema), fromSerdeSchemaF n w = some (.ok s) →
      propsNonDegenerateF n s = true →
      ∃ w', intoSerdeSchemaF n s = some w' ∧ fromSerdeSchemaF n w' = some (.ok s))
    (input : List (String × SerdeSchema)) (m : List (String × Schema))
    (hbuild : buildEntries (fromSerdeSchemaF n) input [] = some (.ok m))
    (hgoodall : ∀ kv ∈ m, propsNonDegenerateF n kv.2 = true) :
    ∃ ws, intoEntries (intoSerdeSchemaF n) m = some ws ∧
      buildEntries (fromSerdeSchemaF n) ws [] = some (.ok m) := by
  apply entries_roundtrip n input m hbuild
  intro kv hkv
  rcases buildEntries_mem_src (fromSerdeSchemaF n) input [] m hbuild kv hkv with hin | ⟨w0, _, hw0⟩
  · cases hin
  · exact ih w0 kv.2 hw0 (hgoodall kv hkv)

end Jtd

namespace Jtd

set_option maxHeartbeats 2000000

/-- Core of claim C9: a schema produced by `from_serde_schema` in which every
Properties form has the `properties` keyword present or a non-empty
`optionalProperties` map survives the `into_serde_schema` /
`from_serde_schema` round trip unchanged. -/
theorem roundtrip_main : ∀ (fuel : Nat) (w : SerdeSchema) (s : Schema),
    fromSerdeSchemaF fuel w = some (.ok s) → propsNonDegenerateF fuel s = true →
    ∃ w', intoSerdeSchemaF fuel s = some w' ∧ fromSerdeSchemaF fuel w' = some (.ok s) := by
  intro fuel
  induction fuel with
  | zero => intro w s h _; cases h
  | succ n ih =>
      intro w s hfrom hgood
      obtain ⟨meta, defs, nullb, ref?, ty?, en?, el?, pr?, op?, ad?, va?, di?, ma?⟩ := w
      rw [fromSerdeSchemaF] at hfrom
      cases hdefs : buildEntries (fromSerdeSchemaF n) (defs.getD []) [] with
      | none => rw [hdefs] at hfrom; cases hfrom
      | some r =>
        cases r with
        | error e => rw [hdefs] at hfrom; simp at hfrom
        | ok D =>
          rw [hdefs] at hfrom
          dsimp only at hfrom
          by_cases hsig : validFormSignatures.contains
              [ref?.isSome, ty?.isSome, en?.isSome, el?.isSome, pr?.isSome, op?.isSome,
                ad?.isSome, va?.isSome, di?.isSome, ma?.isSome] = true
          case neg =>
            rw [if_pos (by simpa using hsig)] at hfrom
            simp at hfrom
          case pos =>
          rw [if_neg (not_not_intro hsig)] at hfrom
          cases ref? with
          | some r =>
              simp only [Option.some.injEq, Except.ok.injEq] at hfrom
              subst hfrom
              rw [propsNonDegenerateF] at hgood
              simp only [Schema.definitionsL, Bool.and_eq_true, List.all_eq_true] at hgood
              obtain ⟨dsOpt, hdInto, hdReb⟩ :=
                defs_roundtrip n D (members_roundtrip n ih _ D hdefs hgood.1)
              refine ⟨.mk (metaIntoSerde (meta.getD [])) dsOpt
                (nullableIntoSerde (nullb.getD false)) (some r)
                none none none none none none none none none, ?_, ?_⟩
              · rw [intoSerdeSchemaF, hdInto]
              · rw [fromSerdeSchemaF, hdReb]
                dsimp only [Option.isSome]
                rw [if_neg (by decide)]
                rw [metaIntoSerde_getD, nullableIntoSerde_getD]
          | none =>
          cases ty? with
          | some tstr =>
              dsimp only at hfrom
              cases hty : tyFromString tstr with
              | none => rw [hty] at hfrom; simp at hfrom
              | some t =>
                  rw [hty] at hfrom
                  simp only [Option.some.injEq, Except.ok.injEq] at hfrom
                  subst hfrom
                  rw [propsNonDegenerateF] at hgood
                  simp only [Schema.definitionsL, Bool.and_eq_true, List.all_eq_true] at hgood
                  obtain ⟨dsOpt, hdInto, hdReb⟩ :=
                    defs_roundtrip n D (members_roundtrip n ih _ D hdefs hgood.1)
                  refine ⟨.mk (metaIntoSerde (meta.getD [])) dsOpt
                    (nullableIntoSerde (nullb.getD false)) none (some (tyToString t))
                    none none none none none none none none, ?_, ?_⟩
                  · rw [intoSerdeSchemaF, hdInto]
                  · rw [fromSerdeSchemaF, hdReb]
                    dsimp only [Option.isSome]
                    rw [if_neg (by decide)]
                    rw [tyFromString_tyToString, metaIntoSerde_getD, nullableIntoSerde_getD]
          | none =>
          cases en? with
          | some es =>
              dsimp only at hfrom
              cases henum : buildEnum es [] with
              | error e => rw [henum] at hfrom; simp at hfrom
              | ok vs =>
                  rw [henum] at hfrom
                  simp only [Option.some.injEq, Except.ok.injEq] at hfrom
                  subst hfrom
                  rw [propsNonDegenerateF] at hgood
                  simp only [Schema.definitionsL, Bool.and_eq_true, List.all_eq_true] at hgood
                  obtain ⟨dsOpt, hdInto, hdReb⟩ :=
                    defs_roundtrip n D (members_roundtrip n ih _ D hdefs hgood.1)
                  have hvs : buildEnum vs [] = .ok vs := by
                    have hs := buildEnum_sorted es [] vs (by simp) henum
                    simpa using buildEnum_rebuild vs [] (by simpa using hs)
                  refine ⟨.mk (metaIntoSerde (meta.getD [])) dsOpt
                    (nullableIntoSerde (nullb.getD false)) none none (some vs)
                    none none none none none none none, ?_, ?_⟩
                  · rw [intoSerdeSchemaF, hdInto]
                  · rw [fromSerdeSchemaF, hdReb]
                    dsimp only [Option.isSome]
                    rw [if_neg (by decide)]
                    rw [hvs, metaIntoSerde_getD, nullableIntoSerde_getD]
          | none =>
          cases el? with
          | some sub =>
              dsimp only at hfrom
              cases hsub : fromSerdeSchemaF n sub with
              | none => rw [hsub] at hfrom; cases hfrom
              | some r =>
                cases r with
                | error e => rw [hsub] at hfrom; simp at hfrom
                | ok subS =>
                    rw [hsub] at hfrom
                    simp only [Option.some.injEq, Except.ok.injEq] at hfrom
                    subst hfrom
                    rw [propsNonDegenerateF] at hgood
                    simp only [Schema.definitionsL, Bool.and_eq_true, List.all_eq_true] at hgood
                    obtain ⟨dsOpt, hdInto, hdReb⟩ :=
                      defs_roundtrip n D (members_roundtrip n ih _ D hdefs hgood.1)
                    obtain ⟨w2, hInto2, hFrom2⟩ := ih sub subS hsub hgood.2
                    refine ⟨.mk (metaIntoSerde (meta.getD [])) dsOpt
                      (nullableIntoSerde (nullb.getD false)) none none none (some w2)
                      none none none none none none, ?_, ?_⟩
                    · rw [intoSerdeSchemaF, hdInto, hInto2]
                    · rw [fromSerdeSchemaF, hdReb]
                      dsimp only [Option.isSome]
                      rw [if_neg (by decide)]
                      rw [hFrom2, metaIntoSerde_getD, nullableIntoSerde_getD]
          | none =>
          dsimp only at hfrom
          by_cases hpo : pr?.isSome = true ∨ op?.isSome = true
          case pos =>
            rw [if_pos hpo] at hfrom
            cases hP : buildEntries (fromSerdeSchemaF n) (pr?.getD []) [] with
            | none => rw [hP] at hfrom; cases hfrom
            | some rP =>
              cases rP with
              | error e => rw [hP] at hfrom; simp at hfrom
              | ok P =>
                rw [hP] at hfrom
                dsimp only at hfrom
                cases hO : buildEntries (fromSerdeSchemaF n) (op?.getD []) [] with
                | none => rw [hO] at hfrom; cases hfrom
                | some rO =>
                  cases rO with
                  | error e => rw [hO] at hfrom; simp at hfrom
                  | ok O =>
                    rw [hO] at hfrom
                    simp only [Option.some.injEq, Except.ok.injEq] at hfrom
                    subst hfrom
                    rw [propsNonDegenerateF] at hgood
                    simp only [Schema.definitionsL, Bool.and_eq_true, List.all_eq_true,
                      Bool.or_eq_true, Bool.not_eq_true'] at hgood
                    obtain ⟨hDall, ⟨hpres, hPall⟩, hOall⟩ := hgood
                    obtain ⟨dsOpt, hdInto, hdReb⟩ :=
                      defs_roundtrip n D (members_roundtrip n ih _ D hdefs hDall)
                    obtain ⟨pws, hPInto, hPReb⟩ := members_roundtrip n ih _ P hP hPall
                    obtain ⟨ows, hOInto, hOReb⟩ := members_roundtrip n ih _ O hO hOall
                    cases pr? with
                    | some pl =>
                        cases O with
                        | nil =>
                            cases ad? with
                            | none =>
                                refine ⟨.mk (metaIntoSerde (meta.getD [])) dsOpt
                                  (nullableIntoSerde (nullb.getD false)) none none none none
                                  (some pws) none none none none none, ?_, ?_⟩
                                · rw [intoSerdeSchemaF, hdInto, hPInto, hOInto]
                                  rfl
                                · rw [fromSerdeSchemaF, hdReb]
                                  dsimp only [Option.isSome]
                                  rw [if_neg (by decide)]
                                  rw [if_pos (Or.inl rfl)]
                                  have hPReb2 : buildEntries (fromSerdeSchemaF n)
                                      (Option.getD (some pws) []) [] = some (Except.ok P) := hPReb
                                  rw [hPReb2]
                                  have hOReb2 : buildEntries (fromSerdeSchemaF n)
                                      (Option.getD (none : Option (List (String × SerdeSchema))) []) []
                                      = some (Except.ok ([] : List (String × Schema))) := rfl
                                  rw [hOReb2]
                                  rw [metaIntoSerde_getD, nullableIntoSerde_getD] <;> rfl
                            | some b =>
                                cases b with
                                | false =>
                                    refine ⟨.mk (metaIntoSerde (meta.getD [])) dsOpt
                                      (nullableIntoSerde (nullb.getD false)) none none none none
                                      (some pws) none none none none none, ?_, ?_⟩
                                    · rw [intoSerdeSchemaF, hdInto, hPInto, hOInto]
                                      rfl
                                    · rw [fromSerdeSchemaF, hdReb]
                                      dsimp only [Option.isSome]
                                      rw [if_neg (by decide)]
                                      rw [if_pos (Or.inl rfl)]
                                      have hPReb2 : buildEntries (fromSerdeSchemaF n)
                                          (Option.getD (some pws) []) [] = some (Except.ok P) := hPReb
                                      rw [hPReb2]
                                      have hOReb2 : buildEntries (fromSerdeSchemaF n)
                                          (Option.getD (none : Option (List (String × SerdeSchema))) []) []
                                          = some (Except.ok ([] : List (String × Schema))) := rfl
                                      rw [hOReb2]
                                      rw [metaIntoSerde_getD, nullableIntoSerde_getD] <;> rfl
                                | true =>
                                    refine ⟨.mk (metaIntoSerde (meta.getD [])) dsOpt
                                      (nullableIntoSerde (nullb.getD false)) none none none none
                                      (some pws) none (some true) none none none, ?_, ?_⟩
                                    · rw [intoSerdeSchemaF, hdInto, hPInto, hOInto]
                                      rfl
                                    · rw [fromSerdeSchemaF, hdReb]
                                      dsimp only [Option.isSome]
                                      rw [if_neg (by decide)]
                                      rw [if_pos (Or.inl rfl)]
                                      have hPReb2 : buildEntries (fromSerdeSchemaF n)
                                          (Option.getD (some pws) []) [] = some (Except.ok P) := hPReb
                                      rw [hPReb2]
                                      have hOReb2 : buildEntries (fromSerdeSchemaF n)
                                          (Option.getD (none : Option (List (String × SerdeSchema))) []) []
                                          = some (Except.ok ([] : List (String × Schema))) := rfl
                                      rw [hOReb2]
                                      rw [metaIntoSerde_getD, nullableIntoSerde_getD] <;> rfl
                        | cons okv orest =>
                            cases ad? with
                            | none =>
                                refine ⟨.mk (metaIntoSerde (meta.getD [])) dsOpt
                                  (nullableIntoSerde (nullb.getD false)) none none none none
                                  (some pws) (some ows) none none none none, ?_, ?_⟩
                                · rw [intoSerdeSchemaF, hdInto, hPInto, hOInto]
                                  rfl
                                · rw [fromSerdeSchemaF, hdReb]
                                  dsimp only [Option.isSome]
                                  rw [if_neg (by decide)]
                                  rw [if_pos (Or.inl rfl)]
                                  have hPReb2 : buildEntries (fromSerdeSchemaF n)
                                      (Option.getD (some pws) []) [] = some (Except.ok P) := hPReb
                                  rw [hPReb2]
                                  have hOReb2 : buildEntries (fromSerdeSchemaF n)
                                      (Option.getD (some ows) []) [] = some (Except.ok (okv :: orest)) := hOReb
                                  rw [hOReb2]
                                  rw [metaIntoSerde_getD, nullableIntoSerde_getD] <;> rfl
                            | some b =>
                                cases b with
                                | false =>
                                    refine ⟨.mk (metaIntoSerde (meta.getD [])) dsOpt
                                      (nullableIntoSerde (nullb.getD false)) none none none none
                                      (some pws) (some ows) none none none none, ?_, ?_⟩
                                    · rw [intoSerdeSchemaF, hdInto, hPInto, hOInto]
                                      rfl
                                    · rw [fromSerdeSchemaF, hdReb]
                                      dsimp only [Option.isSome]
                                      rw [if_neg (by decide)]
                                      rw [if_pos (Or.inl rfl)]
                                      have hPReb2 : buildEntries (fromSerdeSchemaF n)
                                          (Option.getD (some pws) []) [] = some (Except.ok P) := hPReb
                                      rw [hPReb2]
                                      have hOReb2 : buildEntries (fromSerdeSchemaF n)
                                          (Option.getD (some ows) []) [] = some (Except.ok (okv :: orest)) := hOReb
                                      rw [hOReb2]
                                      rw [metaIntoSerde_getD, nullableIntoSerde_getD] <;> rfl
                                | true =>
                                    refine ⟨.mk (metaIntoSerde (meta.getD [])) dsOpt
                                      (nullableIntoSerde (nullb.getD false)) none none none none
                                      (some pws) (some ows) (some true) none none none, ?_, ?_⟩
                                    · rw [intoSerdeSchemaF, hdInto, hPInto, hOInto]
                                      rfl
                                    · rw [fromSerdeSchemaF, hdReb]
                                      dsimp only [Option.isSome]
                                      rw [if_neg (by decide)]
                                      rw [if_pos (Or.inl rfl)]
                                      have hPReb2 : buildEntries (fromSerdeSchemaF n)
                                          (Option.getD (some pws) []) [] = some (Except.ok P) := hPReb
                                      rw [hPReb2]
                                      have hOReb2 : buildEntries (fromSerdeSchemaF n)
                                          (Option.getD (some ows) []) [] = some (Except.ok (okv :: orest)) := hOReb
                                      rw [hOReb2]
                                      rw [metaIntoSerde_getD, nullableIntoSerde_getD] <;> rfl
                    | none =>
                        simp only [Option.getD, buildEntries, Option.some.injEq,
                          Except.ok.injEq] at hP
                        subst hP
                        cases O with
                        | nil => simp at hpres
                        | cons okv orest =>
                            cases ad? with
                            | none =>
                                refine ⟨.mk (metaIntoSerde (meta.getD [])) dsOpt
                                  (nullableIntoSerde (nullb.getD false)) none none none none
                                  none (some ows) none none none none, ?_, ?_⟩
                                · rw [intoSerdeSchemaF, hdInto, hPInto, hOInto]
                                  rfl
                                · rw [fromSerdeSchemaF, hdReb]
                                  dsimp only [Option.isSome]
                                  rw [if_neg (by decide)]
                                  rw [if_pos (Or.inr rfl)]
                                  have hPReb2 : buildEntries (fromSerdeSchemaF n)
                                      (Option.getD (none : Option (List (String × SerdeSchema))) []) []
                                      = some (Except.ok ([] : List (String × Schema))) := rfl
                                  rw [hPReb2]
                                  have hOReb2 : buildEntries (fromSerdeSchemaF n)
                                      (Option.getD (some ows) []) [] = some (Except.ok (okv :: orest)) := hOReb
                                  rw [hOReb2]
                                  rw [metaIntoSerde_getD, nullableIntoSerde_getD] <;> rfl
                            | some b =>
                                cases b with
                                | false =>
                                    refine ⟨.mk (metaIntoSerde (meta.getD [])) dsOpt
                                      (nullableIntoSerde (nullb.getD false)) none none none none
                                      none (some ows) none none none none, ?_, ?_⟩
                                    · rw [intoSerdeSchemaF, hdInto, hPInto, hOInto]
                                      rfl
                                    · rw [fromSerdeSchemaF, hdReb]
                                      dsimp only [Option.isSome]
                                      rw [if_neg (by decide)]
                                      rw [if_pos (Or.inr rfl)]
                                      have hPReb2 : buildEntries (fromSerdeSchemaF n)
                                          (Option.getD (none : Option (List (String × SerdeSchema))) []) []
                                          = some (Except.ok ([] : List (String × Schema))) := rfl
                                      rw [hPReb2]
                                      have hOReb2 : buildEntries (fromSerdeSchemaF n)
                                          (Option.getD (some ows) []) [] = some (Except.ok (okv :: orest)) := hOReb
                                      rw [hOReb2]
                                      rw [metaIntoSerde_getD, nullableIntoSerde_getD] <;> rfl
                                | true =>
                                    refine ⟨.mk (metaIntoSerde (meta.getD [])) dsOpt
                                      (nullableIntoSerde (nullb.getD false)) none none none none
                                      none (some ows) (some true) none none none, ?_, ?_⟩
                                    · rw [intoSerdeSchemaF, hdInto, hPInto, hOInto]
                                      rfl
                                    · rw [fromSerdeSchemaF, hdReb]
                                      dsimp only [Option.isSome]
                                      rw [if_neg (by decide)]
                                      rw [if_pos (Or.inr rfl)]
                                      have hPReb2 : buildEntries (fromSerdeSchemaF n)
                                          (Option.getD (none : Option (List (String × SerdeSchema))) []) []
                                          = some (Except.ok ([] : List (String × Schema))) := rfl
                                      rw [hPReb2]
                                      have hOReb2 : buildEntries (fromSerdeSchemaF n)
                                          (Option.getD (some ows) []) [] = some (Except.ok (okv :: orest)) := hOReb
                                      rw [hOReb2]
                                      rw [metaIntoSerde_getD, nullableIntoSerde_getD] <;> rfl
          case neg =>
          rw [if_neg hpo] at hfrom
          cases va? with
          | some sub =>
              dsimp only at hfrom
              cases hsub : fromSerdeSchemaF n sub with
              | none => rw [hsub] at hfrom; cases hfrom
              | some r =>
                cases r with
                | error e => rw [hsub] at hfrom; simp at hfrom
                | ok subS =>
                    rw [hsub] at hfrom
                    simp only [Option.some.injEq, Except.ok.injEq] at hfrom
                    subst hfrom
                    rw [propsNonDegenerateF] at hgood
                    simp only [Schema.definitionsL, Bool.and_eq_true, List.all_eq_true] at hgood
                    obtain ⟨dsOpt, hdInto, hdReb⟩ :=
                      defs_roundtrip n D (members_roundtrip n ih _ D hdefs hgood.1)
                    obtain ⟨w2, hInto2, hFrom2⟩ := ih sub subS hsub hgood.2
                    refine ⟨.mk (metaIntoSerde (meta.getD [])) dsOpt
                      (nullableIntoSerde (nullb.getD false)) none none none none
                      none none none (some w2) none none, ?_, ?_⟩
                    · rw [intoSerdeSchemaF, hdInto, hInto2]
                    · rw [fromSerdeSchemaF, hdReb]
                      dsimp only [Option.isSome]
                      rw [if_neg (by decide)]
                      rw [hFrom2, metaIntoSerde_getD, nullableIntoSerde_getD]
                      rfl
          | none =>
          cases di? with
          | some disc =>
              dsimp only at hfrom
              cases ma? with
              | none => simp at hfrom
              | some mp =>
                  dsimp only at hfrom
                  cases hM : buildEntries (fromSerdeSchemaF n) mp [] with
                  | none => rw [hM] at hfrom; cases hfrom
                  | some r =>
                    cases r with
                    | error e => rw [hM] at hfrom; simp at hfrom
                    | ok M =>
                        rw [hM] at hfrom
                        simp only [Option.some.injEq, Except.ok.injEq] at hfrom
                        subst hfrom
                        rw [propsNonDegenerateF] at hgood
                        simp only [Schema.definitionsL, Bool.and_eq_true,
                          List.all_eq_true] at hgood
                        obtain ⟨dsOpt, hdInto, hdReb⟩ :=
                          defs_roundtrip n D (members_roundtrip n ih _ D hdefs hgood.1)
                        obtain ⟨mws, hMInto, hMReb⟩ :=
                          members_roundtrip n ih mp M hM hgood.2
                        refine ⟨.mk (metaIntoSerde (meta.getD [])) dsOpt
                          (nullableIntoSerde (nullb.getD false)) none none none none
                          none none none none (some disc) (some mws), ?_, ?_⟩
                        · rw [intoSerdeSchemaF, hdInto, hMInto]
                        · rw [fromSerdeSchemaF, hdReb]
                          dsimp only [Option.isSome]
                          rw [if_neg (by decide)]
                          rw [hMReb, metaIntoSerde_getD, nullableIntoSerde_getD]
                          rfl
          | none =>
              dsimp only at hfrom
              simp only [Option.some.injEq, Except.ok.injEq] at hfrom
              subst hfrom
              rw [propsNonDegenerateF] at hgood
              simp only [Schema.definitionsL, Bool.and_eq_true, List.all_eq_true] at hgood
              obtain ⟨dsOpt, hdInto, hdReb⟩ :=
                defs_roundtrip n D (members_roundtrip n ih _ D hdefs
                  (fun kv hkv => hgood.1 kv hkv))
              refine ⟨.mk (metaIntoSerde (meta.getD [])) dsOpt none none none
                none none none none none none none none, ?_, ?_⟩
              · rw [intoSerdeSchemaF, hdInto]
              · rw [fromSerdeSchemaF, hdReb]
                dsimp only [Option.isSome]
                rw [if_neg (by decide)]
                rw [metaIntoSerde_getD]
                rfl


/-- The C9 counterexample: the wire schema `{"optionalProperties": {}}`
produces a strict Properties-form schema that passes `Schema::validate`, yet
the round trip through `into_serde_schema` yields the empty wire schema,
which converts to the Empty form — and the two forms disagree on the
instance `5` (the Properties form rejects non-objects, the Empty form accepts
everything). -/
theorem c9_counterexample :
    fromSerdeSchemaF 2
        (.mk none none none none none none none none (some []) none none none none)
      = some (.ok (.properties [] [] false [] [] false false)) ∧
    schemaValidate 1 (.properties [] [] false [] [] false false) = some (.ok ()) ∧
    intoSerdeSchemaF 1 (.properties [] [] false [] [] false false)
      = some (.mk none none none none none none none none none none none none none) ∧
    fromSerdeSchemaF 1 (.mk none none none none none none none none none none none none none)
      = some (.ok (.empty [] [])) ∧
    jtdValidate (fun _ => true) 1 (.properties [] [] false [] [] false false)
        (.num (.posInt 5)) .default
      = some (.ok [⟨[], ["optionalProperties"]⟩]) ∧
    jtdValidate (fun _ => true) 1 (.empty [] []) (.num (.posInt 5)) .default
      = some (.ok []) :=
  ⟨rfl, rfl, rfl, rfl, rfl, rfl⟩

/-- C9 (amended): for every strict schema `s` produced by `from_serde_schema`
and passing `Schema::validate`, *provided that* every Properties-form
sub-schema of `s` either has the `properties` keyword present or a non-empty
`optionalProperties` map (`propsNonDegenerateF`), the round trip
strict → wire → strict succeeds and yields a schema with the same validation
outcomes on every instance (indeed the identical schema).  Without the
proviso the round trip can collapse a Properties form into the Empty form or
fail, see `c9_counterexample`. -/
theorem c9_roundtrip (fuel fuel2 : Nat) (w : SerdeSchema) (s : Schema)
    (hfrom : fromSerdeSchemaF fuel w = some (.ok s))
    (hvalid : schemaValidate fuel2 s = some (.ok ()))
    (hgood : propsNonDegenerateF fuel s = true) :
    ∃ w' s', intoSerdeSchemaF fuel s = some w' ∧ fromSerdeSchemaF fuel w' = some (.ok s') ∧
      ∀ (ts : String → Bool) (vfuel : Nat) (inst : Json) (opts : ValidateOptions),
        jtdValidate ts vfuel s' inst opts = jtdValidate ts vfuel s inst opts := by
  obtain ⟨w', h1, h2⟩ := roundtrip_main fuel w s hfrom hgood
  exact ⟨w', s, h1, h2, fun _ _ _ _ => rfl⟩

/-- Witness for C9 (amended) at the wire schema `{"type":"uint8"}`. -/
theorem c9_roundtrip_witness :
    ∃ w' s', intoSerdeSchemaF 1 (.type [] [] false .uint8) = some w' ∧
      fromSerdeSchemaF 1 w' = some (.ok s') ∧
      ∀ (ts : String → Bool) (vfuel : Nat) (inst : Json) (opts : ValidateOptions),
        jtdValidate ts vfuel s' inst opts
          = jtdValidate ts vfuel (.type [] [] false .uint8) inst opts :=
  c9_roundtrip 1 1
    (.mk none none none none (some "uint8") none none none none none none none none)
    (.type [] [] false .uint8) rfl rfl rfl

end Jtd

namespace Jtd

/-! ## Validator infrastructure: the per-call state discipline -/

theorem popTok_pushTok (t : String) (L : List (List String)) : popTok (pushTok t L) = L := by
  cases L with
  | nil => rfl
  | cons s rest => simp [pushTok, popTok]

theorem length_pushTok (t : String) (L : List (List String)) :
    (pushTok t L).length = L.length := by
  cases L <;> simp [pushTok]

theorem length_popTok (L : List (List String)) : (popTok L).length = L.length := by
  cases L <;> simp [popTok]

/-- The per-call contract of every validator step, relative to the entry state
`st`: errors are append-only and every appended error's instance path extends
the entry instance path; the high-water mark only grows; a normal return
restores both token stacks. -/
def Reg (st : VmState) (r : VmOut) : Prop :=
  (∃ Δ, r.stateOf.errors = st.errors ++ Δ ∧
    ∀ e ∈ Δ, ∃ t, e.instancePath = st.instanceTokens ++ t) ∧
  st.hw ≤ r.stateOf.hw ∧
  ∀ st', r = .ok st' → st'.instanceTokens = st.instanceTokens ∧
    st'.schemaTokens = st.schemaTokens

theorem reg_ok (st : VmState) : Reg st (.ok st) :=
  ⟨⟨[], by simp [VmOut.stateOf], by simp⟩, le_refl _,
    fun st' h => by cases h; exact ⟨rfl, rfl⟩⟩

theorem reg_nofuel (st : VmState) : Reg st (.nofuel st) :=
  ⟨⟨[], by simp [VmOut.stateOf], by simp⟩, le_refl _, fun _ h => by cases h⟩

theorem reg_pushError (opts : ValidateOptions) (st : VmState) :
    Reg st (pushError opts st) := by
  rw [pushError]
  refine ⟨⟨[⟨st.instanceTokens, st.schemaTokens.headD []⟩], ?_, ?_⟩, ?_, ?_⟩
  · split_ifs <;> rfl
  · intro e he
    simp only [List.mem_singleton] at he
    subst he
    exact ⟨[], by simp⟩
  · split_ifs <;> exact le_refl _
  · intro st' h
    split_ifs at h
    cases h
    exact ⟨rfl, rfl⟩

theorem reg_andThen {st : VmState} {r : VmOut} {g : VmState → VmOut}
    (h1 : Reg st r) (h2 : ∀ st1, r = .ok st1 → Reg st1 (g st1)) :
    Reg st (r.andThen g) := by
  cases r with
  | ok st1 =>
      obtain ⟨⟨Δ1, he1, hp1⟩, hw1, ht1⟩ := h1
      obtain ⟨⟨Δ2, he2, hp2⟩, hw2, ht2⟩ := h2 st1 rfl
      obtain ⟨hti, hts⟩ := ht1 st1 rfl
      rw [VmOut.andThen]
      refine ⟨⟨Δ1 ++ Δ2, ?_, ?_⟩, le_trans hw1 hw2, ?_⟩
      · rw [he2, VmOut.stateOf] at *
        rw [he1, List.append_assoc]
      · intro e he
        rcases List.mem_append.mp he with h | h
        · exact hp1 e h
        · obtain ⟨t, ht⟩ := hp2 e h
          exact ⟨t, by rw [ht, hti]⟩
      · intro st' hok
        obtain ⟨hti', hts'⟩ := ht2 st' hok
        exact ⟨hti'.trans hti, hts'.trans hts⟩
  | fail e st1 => simpa [VmOut.andThen] using h1
  | panicked st1 => simpa [VmOut.andThen] using h1
  | nofuel st1 => simpa [VmOut.andThen] using h1

/-- Errors/hw part of `Reg`, transferred across a base state with the same
instance tokens and an extended error list. -/
theorem reg_errsHw {st st0 : VmState} {r : VmOut} (h : Reg st0 r)
    (hi : st0.instanceTokens = st.instanceTokens)
    (he : ∃ Δ0, st0.errors = st.errors ++ Δ0 ∧
      ∀ e ∈ Δ0, ∃ t, e.instancePath = st.instanceTokens ++ t)
    (hhw : st.hw ≤ st0.hw) :
    (∃ Δ, r.stateOf.errors = st.errors ++ Δ ∧
      ∀ e ∈ Δ, ∃ t, e.instancePath = st.instanceTokens ++ t) ∧
    st.hw ≤ r.stateOf.hw := by
  obtain ⟨⟨Δ1, he1, hp1⟩, hw1, _⟩ := h
  obtain ⟨Δ0, he0, hp0⟩ := he
  refine ⟨⟨Δ0 ++ Δ1, ?_, ?_⟩, le_trans hhw hw1⟩
  · rw [he1, he0, List.append_assoc]
  · intro e hmem
    rcases List.mem_append.mp hmem with h | h
    · exact hp0 e h
    · obtain ⟨t, ht⟩ := hp1 e h
      exact ⟨t, by rw [ht, hi]⟩

theorem reg_schemaWrap {st : VmState} {r : VmOut} (t : String)
    (h : Reg (pushSchemaToken t st) r) :
    Reg st (r.andThen fun st' => .ok (popSchemaToken st')) := by
  have hEH := reg_errsHw h (by rfl) ⟨[], by simp, by simp⟩ (le_refl _)
  cases r with
  | ok st1 =>
      obtain ⟨hti, hts⟩ := h.2.2 st1 rfl
      rw [VmOut.andThen]
      refine ⟨hEH.1, hEH.2, ?_⟩
      intro st' hok
      cases hok
      refine ⟨hti, ?_⟩
      rw [popSchemaToken]
      dsimp only
      rw [hts]
      exact popTok_pushTok t st.schemaTokens
  | fail e st1 => exact ⟨hEH.1, hEH.2, fun _ h' => nomatch h'⟩
  | panicked st1 => exact ⟨hEH.1, hEH.2, fun _ h' => nomatch h'⟩
  | nofuel st1 => exact ⟨hEH.1, hEH.2, fun _ h' => nomatch h'⟩

theorem reg_instWrap {st : VmState} {r : VmOut} (t : String)
    (h : Reg (pushInstanceToken t st) r) :
    Reg st (r.andThen fun st' => .ok (popInstanceToken st')) := by
  obtain ⟨⟨Δ1, he1, hp1⟩, hw1, ht1⟩ := h
  have hEH : (∃ Δ, r.stateOf.errors = st.errors ++ Δ ∧
      ∀ e ∈ Δ, ∃ u, e.instancePath = st.instanceTokens ++ u) ∧ st.hw ≤ r.stateOf.hw := by
    refine ⟨⟨Δ1, he1, ?_⟩, hw1⟩
    intro e he
    obtain ⟨u, hu⟩ := hp1 e he
    exact ⟨[t] ++ u, by rw [hu]; simp [pushInstanceToken]⟩
  cases r with
  | ok st1 =>
      obtain ⟨hti, hts⟩ := ht1 st1 rfl
      rw [VmOut.andThen]
      refine ⟨hEH.1, hEH.2, ?_⟩
      intro st' hok
      cases hok
      refine ⟨?_, hts⟩
      rw [popInstanceToken]
      dsimp only
      rw [hti]
      simp [pushInstanceToken]
  | fail e st1 => exact ⟨hEH.1, hEH.2, fun _ h' => nomatch h'⟩
  | panicked st1 => exact ⟨hEH.1, hEH.2, fun _ h' => nomatch h'⟩
  | nofuel st1 => exact ⟨hEH.1, hEH.2, fun _ h' => nomatch h'⟩

theorem reg_schemaWrap2 {st : VmState} {r : VmOut} (t1 t2 : String)
    (h : Reg (pushSchemaToken t2 (pushSchemaToken t1 st)) r) :
    Reg st (r.andThen fun st' => .ok (popSchemaToken (popSchemaToken st'))) := by
  have hEH := reg_errsHw h (by rfl) ⟨[], by simp, by simp⟩ (le_refl _)
  cases r with
  | ok st1 =>
      obtain ⟨hti, hts⟩ := h.2.2 st1 rfl
      rw [VmOut.andThen]
      refine ⟨hEH.1, hEH.2, ?_⟩
      intro st' hok
      cases hok
      refine ⟨hti, ?_⟩
      simp only [popSchemaToken]
      rw [hts]
      simp only [pushSchemaToken]
      rw [popTok_pushTok, popTok_pushTok]
  | fail e st1 => exact ⟨hEH.1, hEH.2, fun _ h' => nomatch h'⟩
  | panicked st1 => exact ⟨hEH.1, hEH.2, fun _ h' => nomatch h'⟩
  | nofuel st1 => exact ⟨hEH.1, hEH.2, fun _ h' => nomatch h'⟩

theorem reg_instSchemaWrap {st : VmState} {r : VmOut} (tS tI : String)
    (h : Reg (pushInstanceToken tI (pushSchemaToken tS st)) r) :
    Reg st (r.andThen fun st' => .ok (popSchemaToken (popInstanceToken st'))) := by
  obtain ⟨⟨Δ1, he1, hp1⟩, hw1, ht1⟩ := h
  have hEH : (∃ Δ, r.stateOf.errors = st.errors ++ Δ ∧
      ∀ e ∈ Δ, ∃ u, e.instancePath = st.instanceTokens ++ u) ∧ st.hw ≤ r.stateOf.hw := by
    refine ⟨⟨Δ1, he1, ?_⟩, hw1⟩
    intro e he
    obtain ⟨u, hu⟩ := hp1 e he
    exact ⟨[tI] ++ u, by rw [hu]; simp [pushInstanceToken, pushSchemaToken]⟩
  cases r with
  | ok st1 =>
      obtain ⟨hti, hts⟩ := ht1 st1 rfl
      rw [VmOut.andThen]
      refine ⟨hEH.1, hEH.2, ?_⟩
      intro st' hok
      cases hok
      constructor
      · rw [popInstanceToken, popSchemaToken]
        dsimp only
        rw [hti]
        simp [pushInstanceToken, pushSchemaToken]
      · simp only [popSchemaToken, popInstanceToken]
        rw [hts]
        simp only [pushInstanceToken, pushSchemaToken]
        rw [popTok_pushTok]
  | fail e st1 => exact ⟨hEH.1, hEH.2, fun _ h' => nomatch h'⟩
  | panicked st1 => exact ⟨hEH.1, hEH.2, fun _ h' => nomatch h'⟩
  | nofuel st1 => exact ⟨hEH.1, hEH.2, fun _ h' => nomatch h'⟩

end Jtd

namespace Jtd

theorem VmOut.andThen_assoc (r : VmOut) (g h : VmState → VmOut) :
    (r.andThen g).andThen h = r.andThen fun st => (g st).andThen h := by
  cases r <;> rfl

theorem elementsLoop_cons_eq (f : Json → VmState → VmOut) (i : Nat) (x : Json)
    (xs : List Json) (st : VmState) :
    elementsLoop f i (x :: xs) st =
      ((f x (pushInstanceToken (Nat.repr i) st)).andThen fun st' =>
        .ok (popInstanceToken st')).andThen (elementsLoop f (i + 1) xs) := by
  cases h : f x (pushInstanceToken (Nat.repr i) st) <;>
    simp [elementsLoop, VmOut.andThen, h]

theorem reg_elementsLoop (f : Json → VmState → VmOut)
    (hf : ∀ x st0, Reg st0 (f x st0)) :
    ∀ (i : Nat) (xs : List Json) (st : VmState), Reg st (elementsLoop f i xs st)
  | _, [], st => reg_ok st
  | i, x :: xs, st => by
      rw [elementsLoop_cons_eq]
      exact reg_andThen (reg_instWrap _ (hf x _))
        (fun st1 _ => reg_elementsLoop f hf (i + 1) xs st1)

theorem valuesLoop_cons_eq (f : Json → VmState → VmOut) (name : String) (v : Json)
    (rest : List (String × Json)) (st : VmState) :
    valuesLoop f ((name, v) :: rest) st =
      ((f v (pushInstanceToken name st)).andThen fun st' =>
        .ok (popInstanceToken st')).andThen (valuesLoop f rest) := by
  cases h : f v (pushInstanceToken name st) <;>
    simp [valuesLoop, VmOut.andThen, h]

theorem reg_valuesLoop (f : Json → VmState → VmOut)
    (hf : ∀ x st0, Reg st0 (f x st0)) :
    ∀ (obj : List (String × Json)) (st : VmState), Reg st (valuesLoop f obj st)
  | [], st => reg_ok st
  | (name, v) :: rest, st => by
      rw [valuesLoop_cons_eq]
      exact reg_andThen (reg_instWrap _ (hf v _))
        (fun st1 _ => reg_valuesLoop f hf rest st1)

theorem requiredLoop_cons_eq (f : Schema → Json → VmState → VmOut)
    (opts : ValidateOptions) (obj : List (String × Json)) (name : String) (sub : Schema)
    (rest : List (String × Schema)) (st : VmState) :
    requiredLoop f opts obj ((name, sub) :: rest) st =
      (((match lookupKey obj name with
         | some subInst =>
             (f sub subInst (pushInstanceToken name (pushSchemaToken name st))).andThen
               fun st' => .ok (popInstanceToken st')
         | none => pushError opts (pushSchemaToken name st)).andThen fun st2 =>
        .ok (popSchemaToken st2)).andThen (requiredLoop f opts obj rest)) := by
  rw [requiredLoop]
  cases hl : lookupKey obj name with
  | none =>
      cases h : pushError opts (pushSchemaToken name st) <;>
        simp [VmOut.andThen, h]
  | some v =>
      cases h : f sub v (pushInstanceToken name (pushSchemaToken name st)) <;>
        simp [VmOut.andThen, h]

theorem reg_requiredLoop (f : Schema → Json → VmState → VmOut)
    (opts : ValidateOptions) (obj : List (String × Json))
    (hf : ∀ sub v st0, Reg st0 (f sub v st0)) :
    ∀ (props : List (String × Schema)) (st : VmState), Reg st (requiredLoop f opts obj props st)
  | [], st => reg_ok st
  | (name, sub) :: rest, st => by
      rw [requiredLoop_cons_eq]
      refine reg_andThen ?_ (fun st1 _ => reg_requiredLoop f opts obj hf rest st1)
      apply reg_schemaWrap
      cases lookupKey obj name with
      | none => exact reg_pushError opts _
      | some v => exact reg_instWrap _ (hf sub v _)

theorem optionalLoop_cons_eq (f : Schema → Json → VmState → VmOut)
    (obj : List (String × Json)) (name : String) (sub : Schema)
    (rest : List (String × Schema)) (st : VmState) :
    optionalLoop f obj ((name, sub) :: rest) st =
      (((match lookupKey obj name with
         | some subInst =>
             (f sub subInst (pushInstanceToken name (pushSchemaToken name st))).andThen
               fun st' => .ok (popInstanceToken st')
         | none => .ok (pushSchemaToken name st)).andThen fun st2 =>
        .ok (popSchemaToken st2)).andThen (optionalLoop f obj rest)) := by
  rw [optionalLoop]
  cases hl : lookupKey obj name with
  | none => simp [VmOut.andThen]
  | some v =>
      cases h : f sub v (pushInstanceToken name (pushSchemaToken name st)) <;>
        simp [VmOut.andThen, h]

theorem reg_optionalLoop (f : Schema → Json → VmState → VmOut)
    (obj : List (String × Json))
    (hf : ∀ sub v st0, Reg st0 (f sub v st0)) :
    ∀ (optProps : List (String × Schema)) (st : VmState), Reg st (optionalLoop f obj optProps st)
  | [], st => reg_ok st
  | (name, sub) :: rest, st => by
      rw [optionalLoop_cons_eq]
      refine reg_andThen ?_ (fun st1 _ => reg_optionalLoop f obj hf rest st1)
      apply reg_schemaWrap
      cases lookupKey obj name with
      | none => exact reg_ok _
      | some v => exact reg_instWrap _ (hf sub v _)

theorem additionalLoop_cons_eq (opts : ValidateOptions) (parentTag : Option String)
    (props optionalProps : List (String × Schema)) (name : String) (rest : List String)
    (st : VmState) :
    additionalLoop opts parentTag props optionalProps (name :: rest) st =
      if parentTag ≠ some name ∧ ¬hasKey props name ∧ ¬hasKey optionalProps name then
        ((pushError opts (pushInstanceToken name st)).andThen fun st' =>
          .ok (popInstanceToken st')).andThen
          (additionalLoop opts parentTag props optionalProps rest)
      else additionalLoop opts parentTag props optionalProps rest st := by
  rw [additionalLoop]
  split_ifs with hc
  · cases h : pushError opts (pushInstanceToken name st) <;>
      simp [VmOut.andThen, h]
  · rfl

theorem reg_additionalLoop (opts : ValidateOptions) (parentTag : Option String)
    (props optionalProps : List (String × Schema)) :
    ∀ (keys : List String) (st : VmState),
      Reg st (additionalLoop opts parentTag props optionalProps keys st)
  | [], st => reg_ok st
  | name :: rest, st => by
      rw [additionalLoop_cons_eq]
      split_ifs with hc
      · exact reg_andThen (reg_instWrap _ (reg_pushError opts _))
          (fun st1 _ => reg_additionalLoop opts parentTag props optionalProps rest st1)
      · exact reg_additionalLoop opts parentTag props optionalProps rest st

theorem reg_validateInt (opts : ValidateOptions) (inst : Json) (lo hi : ℚ) (st : VmState) :
    Reg st (validateInt opts inst lo hi st) := by
  rw [validateInt]
  cases inst.asF64 with
  | none => exact reg_pushError opts st
  | some v =>
      dsimp only
      split_ifs
      · exact reg_pushError opts st
      · exact reg_ok st

theorem reg_validateType (ts : String → Bool) (opts : ValidateOptions) (t : Ty)
    (inst : Json) (st : VmState) : Reg st (validateType ts opts t inst st) := by
  cases t <;> rw [validateType]
  case boolean => split_ifs; exacts [reg_ok st, reg_pushError opts st]
  case float32 => split_ifs; exacts [reg_pushError opts st, reg_ok st]
  case float64 => split_ifs; exacts [reg_pushError opts st, reg_ok st]
  case int8 => exact reg_validateInt opts inst _ _ st
  case uint8 => exact reg_validateInt opts inst _ _ st
  case int16 => exact reg_validateInt opts inst _ _ st
  case uint16 => exact reg_validateInt opts inst _ _ st
  case int32 => exact reg_validateInt opts inst _ _ st
  case uint32 => exact reg_validateInt opts inst _ _ st
  case string => split_ifs; exacts [reg_ok st, reg_pushError opts st]
  case timestamp =>
      cases inst.asStr with
      | none => exact reg_pushError opts st
      | some s => dsimp only; split_ifs; exacts [reg_ok st, reg_pushError opts st]

end Jtd

namespace Jtd

theorem reg_refWrap {st : VmState} {r : VmOut} (L : List String) (hwv : Nat)
    (h : Reg { st with schemaTokens := L :: st.schemaTokens, hw := max st.hw hwv } r) :
    Reg st (r.andThen fun st' => .ok { st' with schemaTokens := st'.schemaTokens.tail }) := by
  have hEH := reg_errsHw h (by rfl) ⟨[], by simp, by simp⟩ (le_max_left _ _)
  cases r with
  | ok st1 =>
      obtain ⟨hti, hts⟩ := h.2.2 st1 rfl
      rw [VmOut.andThen]
      refine ⟨hEH.1, hEH.2, ?_⟩
      intro st' hok
      cases hok
      exact ⟨hti, by simp [hts]⟩
  | fail e st1 => exact ⟨hEH.1, hEH.2, fun _ h' => nomatch h'⟩
  | panicked st1 => exact ⟨hEH.1, hEH.2, fun _ h' => nomatch h'⟩
  | nofuel st1 => exact ⟨hEH.1, hEH.2, fun _ h' => nomatch h'⟩

theorem reg_propsArm (f : Schema → Json → VmState → VmOut) (opts : ValidateOptions)
    (ptag : Option String) (obj : List (String × Json))
    (props optProps : List (String × Schema)) (addl : Bool) (st : VmState)
    (hf : ∀ sub v st0, Reg st0 (f sub v st0)) :
    Reg st ((requiredLoop f opts obj props (pushSchemaToken "properties" st)).andThen
      fun st1 =>
        (optionalLoop f obj optProps
            (pushSchemaToken "optionalProperties" (popSchemaToken st1))).andThen fun st2 =>
          (let st3 := popSchemaToken st2
           if ¬addl then additionalLoop opts ptag props optProps (obj.map Prod.fst) st3
           else .ok st3)) := by
  have hA := reg_requiredLoop f opts obj hf props (pushSchemaToken "properties" st)
  cases hAret : requiredLoop f opts obj props (pushSchemaToken "properties" st) with
  | fail e st1 =>
      rw [hAret] at hA
      rw [VmOut.andThen]
      have hEH := @reg_errsHw st (pushSchemaToken "properties" st) (VmOut.fail e st1) hA
        (by simp [pushSchemaToken]) ⟨[], by simp [pushSchemaToken], by simp⟩
        (by simp [pushSchemaToken])
      refine ⟨hEH.1, hEH.2, ?_⟩
      · intro st' h'
        cases h'
      · intro st0 h0
        cases h0
  | panicked st1 =>
      rw [hAret] at hA
      rw [VmOut.andThen]
      have hEH := @reg_errsHw st (pushSchemaToken "properties" st) (VmOut.panicked st1) hA
        (by simp [pushSchemaToken]) ⟨[], by simp [pushSchemaToken], by simp⟩
        (by simp [pushSchemaToken])
      refine ⟨hEH.1, hEH.2, ?_⟩
      · intro st' h'
        cases h'
      · intro st0 h0
        cases h0
  | nofuel st1 =>
      rw [hAret] at hA
      rw [VmOut.andThen]
      have hEH := @reg_errsHw st (pushSchemaToken "properties" st) (VmOut.nofuel st1) hA
        (by simp [pushSchemaToken]) ⟨[], by simp [pushSchemaToken], by simp⟩
        (by simp [pushSchemaToken])
      refine ⟨hEH.1, hEH.2, ?_⟩
      · intro st' h'
        cases h'
      · intro st0 h0
        cases h0
  | ok st1 =>
      rw [hAret] at hA
      rw [VmOut.andThen]
      obtain ⟨⟨Δ1, he1, hp1⟩, hw1, ht1⟩ := hA
      obtain ⟨hti1, hts1⟩ := ht1 st1 rfl
      simp only [pushSchemaToken, VmOut.stateOf] at he1 hp1 hw1 hti1 hts1
      have hB := reg_optionalLoop f obj hf optProps
        (pushSchemaToken "optionalProperties" (popSchemaToken st1))
      have hbase : (pushSchemaToken "optionalProperties" (popSchemaToken st1)).instanceTokens
          = st.instanceTokens := by
        simp [pushSchemaToken, popSchemaToken, hti1]
      have hberr : (pushSchemaToken "optionalProperties" (popSchemaToken st1)).errors
          = st.errors ++ Δ1 := by
        simp [pushSchemaToken, popSchemaToken, he1]
      have hbhw : st.hw ≤ (pushSchemaToken "optionalProperties" (popSchemaToken st1)).hw := by
        simpa [pushSchemaToken, popSchemaToken] using hw1
      cases hBret : optionalLoop f obj optProps
          (pushSchemaToken "optionalProperties" (popSchemaToken st1)) with
      | fail e st2 =>
          rw [hBret] at hB
          rw [VmOut.andThen]
          have hEH := reg_errsHw hB hbase ⟨Δ1, hberr, hp1⟩ hbhw
          refine ⟨hEH.1, hEH.2, ?_⟩
          · intro st' h'
            cases h'
          · intro st0 h0
            cases h0
      | panicked st2 =>
          rw [hBret] at hB
          rw [VmOut.andThen]
          have hEH := reg_errsHw hB hbase ⟨Δ1, hberr, hp1⟩ hbhw
          refine ⟨hEH.1, hEH.2, ?_⟩
          · intro st' h'
            cases h'
          · intro st0 h0
            cases h0
      | nofuel st2 =>
          rw [hBret] at hB
          rw [VmOut.andThen]
          have hEH := reg_errsHw hB hbase ⟨Δ1, hberr, hp1⟩ hbhw
          refine ⟨hEH.1, hEH.2, ?_⟩
          · intro st' h'
            cases h'
          · intro st0 h0
            cases h0
      | ok st2 =>
          rw [hBret] at hB
          rw [VmOut.andThen]
          obtain ⟨⟨Δ2, he2, hp2⟩, hw2, ht2⟩ := hB
          obtain ⟨hti2, hts2⟩ := ht2 st2 rfl
          rw [hbase] at hti2
          simp only [VmOut.stateOf] at he2 hw2
          rw [hberr, List.append_assoc] at he2
          have hst3i : (popSchemaToken st2).instanceTokens = st.instanceTokens := by
            simp [popSchemaToken, hti2]
          have hst3s : (popSchemaToken st2).schemaTokens = st.schemaTokens := by
            simp only [popSchemaToken]
            rw [hts2]
            simp only [pushSchemaToken, popSchemaToken]
            rw [hts1, popTok_pushTok, popTok_pushTok]
          have hst3e : (popSchemaToken st2).errors = st.errors ++ (Δ1 ++ Δ2) := by
            simp [popSchemaToken, he2]
          have hst3hw : st.hw ≤ (popSchemaToken st2).hw :=
            le_trans hbhw (by simpa [popSchemaToken] using hw2)
          have hΔ : ∀ e ∈ Δ1 ++ Δ2, ∃ t, e.instancePath = st.instanceTokens ++ t := by
            intro e he
            rcases List.mem_append.mp he with h | h
            · exact hp1 e h
            · obtain ⟨t, ht⟩ := hp2 e h
              exact ⟨t, by rw [ht, hbase]⟩
          dsimp only
          split_ifs with haddl
          · refine ⟨⟨Δ1 ++ Δ2, by simpa [VmOut.stateOf] using hst3e, hΔ⟩, ?_, ?_⟩
            · simpa [VmOut.stateOf] using hst3hw
            · intro st' hok
              cases hok
              exact ⟨hst3i, hst3s⟩
          · have hC := reg_additionalLoop opts ptag props optProps
              (obj.map Prod.fst) (popSchemaToken st2)
            refine ⟨(reg_errsHw hC hst3i ⟨Δ1 ++ Δ2, hst3e, hΔ⟩ hst3hw).1,
              (reg_errsHw hC hst3i ⟨Δ1 ++ Δ2, hst3e, hΔ⟩ hst3hw).2, ?_⟩
            intro st' hok
            obtain ⟨hi4, hs4⟩ := hC.2.2 st' hok
            exact ⟨hi4.trans hst3i, hs4.trans hst3s⟩

/-- The state discipline holds for every call of `Vm::validate`. -/
theorem reg_vmValidate (ts : String → Bool) (root : Schema) (opts : ValidateOptions) :
    ∀ (fuel : Nat) (s : Schema) (tag : Option String) (inst : Json) (st : VmState),
      Reg st (vmValidate ts root opts fuel s tag inst st) := by
  intro fuel
  induction fuel with
  | zero => intro s tag inst st; exact reg_nofuel st
  | succ n ih =>
      intro s tag inst st
      rw [vmValidate.eq_def]
      dsimp only
      split_ifs with hnull
      · exact reg_ok st
      · cases s with
        | empty d m => exact reg_ok st
        | ref d m nb r =>
            dsimp only
            split_ifs with hguard
            · refine ⟨⟨[], by simp [VmOut.stateOf], by simp⟩, ?_, fun _ h => by cases h⟩
              simp only [VmOut.stateOf]
              exact le_max_left _ _
            · cases hl : lookupKey root.definitionsL r with
              | none =>
                  refine ⟨⟨[], by simp [VmOut.stateOf], by simp⟩, ?_, fun _ h => by cases h⟩
                  simp only [VmOut.stateOf]
                  exact le_max_left _ _
              | some defSchema =>
                  exact reg_refWrap _ _ (ih defSchema none inst _)
        | type d m nb t =>
            dsimp only
            exact reg_schemaWrap "type" (reg_validateType ts opts t inst _)
        | enum d m nb es =>
            dsimp only
            refine reg_schemaWrap "enum" ?_
            cases inst.asStr with
            | none => exact reg_pushError opts _
            | some sv =>
                dsimp only
                split_ifs
                · exact reg_ok _
                · exact reg_pushError opts _
        | elements d m nb elemSchema =>
            dsimp only
            refine reg_schemaWrap "elements" ?_
            cases inst.asArray with
            | none => exact reg_pushError opts _
            | some xs =>
                exact reg_elementsLoop _ (fun x st0 => ih elemSchema none x st0) 0 xs _
        | properties d m nb props optProps pp addl =>
            dsimp only
            cases ho : inst.asObject with
            | none =>
                dsimp only
                exact reg_schemaWrap (if pp then "properties" else "optionalProperties")
                  (reg_pushError opts _)
            | some obj =>
                dsimp only
                exact reg_propsArm _ opts tag obj props optProps addl st
                  (fun sub v st0 => ih sub none v st0)
        | values d m nb valSchema =>
            dsimp only
            refine reg_schemaWrap "values" ?_
            cases inst.asObject with
            | none => exact reg_pushError opts _
            | some obj =>
                exact reg_valuesLoop _ (fun x st0 => ih valSchema none x st0) obj _
        | discriminator d m nb disc mapping =>
            dsimp only
            cases ho : inst.asObject with
            | none =>
                dsimp only
                exact reg_schemaWrap "discriminator" (reg_pushError opts _)
            | some obj =>
                dsimp only
                cases hl : lookupKey obj disc with
                | none =>
                    dsimp only
                    exact reg_schemaWrap "discriminator" (reg_pushError opts _)
                | some tagVal =>
                    dsimp only
                    cases hs : tagVal.asStr with
                    | none =>
                        dsimp only
                        exact reg_instSchemaWrap "discriminator" disc (reg_pushError opts _)
                    | some tagv =>
                        dsimp only
                        cases hm : lookupKey mapping tagv with
                        | none =>
                            dsimp only
                            exact reg_instSchemaWrap "mapping" disc (reg_pushError opts _)
                        | some sub =>
                            dsimp only
                            exact reg_schemaWrap2 "mapping" tagv (ih sub (some disc) inst _)

end Jtd

namespace Jtd

/-! ## Claim C10: schema-valid roots never reach the definitions-lookup panic -/

/-- Whether a run outcome is the model of the Rust panic (the `unwrap`-style
index `root.definitions()[ref]` missing its key). -/
def VmOut.isPanicked : VmOut → Bool
  | .panicked _ => true
  | _ => false

theorem isPanicked_andThen {r : VmOut} {f : VmState → VmOut}
    (hr : r.isPanicked = false) (hf : ∀ st, (f st).isPanicked = false) :
    (r.andThen f).isPanicked = false := by
  cases r with
  | ok st => exact hf st
  | fail e st => rfl
  | panicked st => exact absurd hr (by simp [VmOut.isPanicked])
  | nofuel st => rfl

theorem isPanicked_pushError (opts : ValidateOptions) (st : VmState) :
    (pushError opts st).isPanicked = false := by
  rw [pushError]
  dsimp only
  split_ifs <;> rfl

theorem isPanicked_validateInt (opts : ValidateOptions) (inst : Json) (lo hi : ℚ)
    (st : VmState) : (validateInt opts inst lo hi st).isPanicked = false := by
  rw [validateInt]
  cases inst.asF64 with
  | none => exact isPanicked_pushError opts st
  | some v => dsimp only; split_ifs <;> first | rfl | exact isPanicked_pushError opts st

theorem isPanicked_validateType (ts : String → Bool) (opts : ValidateOptions) (t : Ty)
    (inst : Json) (st : VmState) : (validateType ts opts t inst st).isPanicked = false := by
  cases t <;>
    simp only [validateType] <;>
    first
      | exact isPanicked_validateInt opts inst _ _ st
      | (split_ifs <;> first | rfl | exact isPanicked_pushError opts st)
      | (cases inst.asStr with
          | none => exact isPanicked_pushError opts st
          | some s => dsimp only; split_ifs <;> first | rfl | exact isPanicked_pushError opts st)

theorem isPanicked_elementsLoop (f : Json → VmState → VmOut)
    (hf : ∀ x st0, (f x st0).isPanicked = false) :
    ∀ (i : Nat) (xs : List Json) (st : VmState), (elementsLoop f i xs st).isPanicked = false
  | _, [], _ => rfl
  | i, x :: xs, st => by
      rw [elementsLoop]
      exact isPanicked_andThen (hf x _)
        (fun st' => isPanicked_elementsLoop f hf (i + 1) xs _)

theorem isPanicked_valuesLoop (f : Json → VmState → VmOut)
    (hf : ∀ x st0, (f x st0).isPanicked = false) :
    ∀ (obj : List (String × Json)) (st : VmState), (valuesLoop f obj st).isPanicked = false
  | [], _ => rfl
  | (name, subInst) :: rest, st => by
      rw [valuesLoop]
      exact isPanicked_andThen (hf subInst _)
        (fun st' => isPanicked_valuesLoop f hf rest _)

theorem isPanicked_requiredLoop (f : Schema → Json → VmState → VmOut)
    (opts : ValidateOptions) (obj : List (String × Json)) :
    ∀ (props : List (String × Schema)),
      (∀ kv ∈ props, ∀ v st0, (f kv.2 v st0).isPanicked = false) →
      ∀ st, (requiredLoop f opts obj props st).isPanicked = false
  | [], _, _ => rfl
  | (name, sub) :: rest, hf, st => by
      rw [requiredLoop]
      refine isPanicked_andThen ?_
        (fun st2 => isPanicked_requiredLoop f opts obj rest
          (fun kv hkv => hf kv (List.mem_cons_of_mem _ hkv)) _)
      cases lookupKey obj name with
      | some subInst =>
          exact isPanicked_andThen (hf (name, sub) (by simp) subInst _) (fun _ => rfl)
      | none => exact isPanicked_pushError opts _

theorem isPanicked_optionalLoop (f : Schema → Json → VmState → VmOut)
    (obj : List (String × Json)) :
    ∀ (optProps : List (String × Schema)),
      (∀ kv ∈ optProps, ∀ v st0, (f kv.2 v st0).isPanicked = false) →
      ∀ st, (optionalLoop f obj optProps st).isPanicked = false
  | [], _, _ => rfl
  | (name, sub) :: rest, hf, st => by
      rw [optionalLoop]
      refine isPanicked_andThen ?_
        (fun st2 => isPanicked_optionalLoop f obj rest
          (fun kv hkv => hf kv (List.mem_cons_of_mem _ hkv)) _)
      cases lookupKey obj name with
      | some subInst =>
          exact isPanicked_andThen (hf (name, sub) (by simp) subInst _) (fun _ => rfl)
      | none => rfl

theorem isPanicked_additionalLoop (opts : ValidateOptions) (ptag : Option String)
    (props optProps : List (String × Schema)) :
    ∀ (keys : List String) (st : VmState),
      (additionalLoop opts ptag props optProps keys st).isPanicked = false
  | [], _ => rfl
  | name :: rest, st => by
      rw [additionalLoop]
      split_ifs
      · exact isPanicked_andThen (isPanicked_pushError opts _)
          (fun st' => isPanicked_additionalLoop opts ptag props optProps rest _)
      · exact isPanicked_additionalLoop opts ptag props optProps rest st

end Jtd

namespace Jtd

theorem lookupKey_mem {α : Type} :
    ∀ {l : List (String × α)} {k : String} {v : α},
      lookupKey l k = some v → (k, v) ∈ l
  | [], _, _, h => by simp [lookupKey] at h
  | (k0, v0) :: rest, k, v, h => by
      rw [lookupKey] at h
      by_cases he : k0 = k
      · rw [if_pos he] at h
        subst he
        cases h
        exact List.mem_cons_self _ _
      · rw [if_neg he] at h
        exact List.mem_cons_of_mem _ (lookupKey_mem h)

theorem checkEntries_ok (f : Schema → Option (Except SchemaValidateError Unit)) :
    ∀ (l : List (String × Schema)), checkEntries f l = some (.ok ()) →
      ∀ kv ∈ l, f kv.2 = some (.ok ())
  | [], _, kv, hkv => absurd hkv (by simp)
  | (k, v) :: rest, h, kv, hkv => by
      rw [checkEntries] at h
      cases hf : f v with
      | none => rw [hf] at h; exact absurd h (by simp)
      | some r =>
          rw [hf] at h
          cases r with
          | error e => exact absurd h (by simp)
          | ok u =>
              rcases List.mem_cons.mp hkv with he | hm
              · subst he; cases u; exact hf
              · exact checkEntries_ok f rest h kv hm

theorem checkMapping_ok (f : Schema → Option (Except SchemaValidateError Unit))
    (disc : String) :
    ∀ (mapping : List (String × Schema)), checkMapping f disc mapping = some (.ok ()) →
      ∀ kv ∈ mapping, f kv.2 = some (.ok ())
  | [], _, kv, hkv => absurd hkv (by simp)
  | (k, sub) :: rest, h, kv, hkv => by
      cases sub with
      | properties d m nullb props optProps pp ad =>
          rw [checkMapping] at h
          by_cases hnb : nullb = true
          · rw [if_pos hnb] at h; exact absurd h (by simp)
          · rw [if_neg hnb] at h
            by_cases hdisc : hasKey props disc = true ∨ hasKey optProps disc = true
            · rw [if_pos hdisc] at h; exact absurd h (by simp)
            · rw [if_neg hdisc] at h
              cases hf : f (Schema.properties d m nullb props optProps pp ad) with
              | none => rw [hf] at h; exact absurd h (by simp)
              | some r =>
                  rw [hf] at h
                  cases r with
                  | error e => exact absurd h (by simp)
                  | ok u =>
                      rcases List.mem_cons.mp hkv with he | hm
                      · subst he; cases u; exact hf
                      · exact checkMapping_ok f disc rest h kv hm
      | empty d m => simp [checkMapping] at h
      | ref d m nb r => simp [checkMapping] at h
      | type d m nb t => simp [checkMapping] at h
      | enum d m nb es => simp [checkMapping] at h
      | elements d m nb sub2 => simp [checkMapping] at h
      | values d m nb sub2 => simp [checkMapping] at h
      | discriminator d m nb di mp => simp [checkMapping] at h

end Jtd

namespace Jtd

/-- `Schema::_validate` success implies every contained `Ref` resolves in the
effective root's definitions map (same fuel on both sides). -/
theorem svF_refs :
    ∀ (F : Nat) (rt : Option Schema) (s : Schema),
      schemaValidateF F rt s = some (.ok ()) →
      allRefsResolveF F (rt.getD s).definitionsL s = true
  | 0, _, _, h => by simp [schemaValidateF] at h
  | F + 1, rt, s, h => by
      rw [schemaValidateF.eq_def] at h
      dsimp only at h
      split_ifs at h with hroot
      · exact absurd h (by simp)
      · cases hce : checkEntries (schemaValidateF F (some (rt.getD s))) s.definitionsL with
        | none => rw [hce] at h; exact absurd h (by simp)
        | some r0 =>
            rw [hce] at h
            cases r0 with
            | error e => exact absurd h (by simp)
            | ok u =>
                cases u
                have hdefs := checkEntries_ok _ _ hce
                rw [allRefsResolveF.eq_def]
                dsimp only
                rw [Bool.and_eq_true]
                refine ⟨List.all_eq_true.mpr ?_, ?_⟩
                · intro kv hkv
                  exact svF_refs F (some (rt.getD s)) kv.2 (hdefs kv hkv)
                · cases s with
                  | empty d m => rfl
                  | ref d m nb r =>
                      dsimp only at h ⊢
                      split_ifs at h with hk
                      · exact hk
                      · exact absurd h (by simp)
                  | type d m nb t => rfl
                  | enum d m nb es => rfl
                  | elements d m nb sub =>
                      dsimp only at h ⊢
                      exact svF_refs F (some _) sub h
                  | properties d m nb props optProps pp ad =>
                      dsimp only at h ⊢
                      cases hfr : firstRepeatedKey props optProps with
                      | some k => rw [hfr] at h; exact absurd h (by simp)
                      | none =>
                          rw [hfr] at h
                          dsimp only at h
                          cases hcp : checkEntries
                              (schemaValidateF F
                                (some (rt.getD
                                  (Schema.properties d m nb props optProps pp ad))))
                              props with
                          | none => rw [hcp] at h; exact absurd h (by simp)
                          | some r1 =>
                              rw [hcp] at h
                              cases r1 with
                              | error e => exact absurd h (by simp)
                              | ok u1 =>
                                  cases u1
                                  rw [Bool.and_eq_true]
                                  refine ⟨List.all_eq_true.mpr ?_, List.all_eq_true.mpr ?_⟩
                                  · intro kv hkv
                                    exact svF_refs F (some _) kv.2
                                      (checkEntries_ok _ _ hcp kv hkv)
                                  · intro kv hkv
                                    exact svF_refs F (some _) kv.2
                                      (checkEntries_ok _ _ h kv hkv)
                  | values d m nb sub =>
                      dsimp only at h ⊢
                      exact svF_refs F (some _) sub h
                  | discriminator d m nb disc mapping =>
                      dsimp only at h ⊢
                      refine List.all_eq_true.mpr ?_
                      intro kv hkv
                      exact svF_refs F (some _) kv.2
                        (checkMapping_ok _ disc _ h kv hkv)

end Jtd

namespace Jtd

/-- If every sub-schema mentioned by the definitions map resolves its refs in
the root's definitions, and the schema at hand does too, `Vm::validate` never
reaches the lookup panic. -/
theorem vm_noPanic (ts : String → Bool) (root : Schema) (opts : ValidateOptions)
    (hdefs : ∀ kv ∈ root.definitionsL, ∃ F, allRefsResolveF F root.definitionsL kv.2 = true) :
    ∀ (fuel : Nat) (s : Schema) (tag : Option String) (inst : Json) (st : VmState),
      (∃ F, allRefsResolveF F root.definitionsL s = true) →
      (vmValidate ts root opts fuel s tag inst st).isPanicked = false := by
  intro fuel
  induction fuel with
  | zero => intro s tag inst st _; rfl
  | succ n ih =>
      intro s tag inst st hs
      obtain ⟨F, hF⟩ := hs
      cases F with
      | zero => simp [allRefsResolveF] at hF
      | succ F =>
          rw [allRefsResolveF.eq_def] at hF
          dsimp only at hF
          rw [Bool.and_eq_true] at hF
          obtain ⟨hFdefs, hFs⟩ := hF
          rw [vmValidate.eq_def]
          dsimp only
          split_ifs with hnull
          · rfl
          · cases s with
            | empty d m => rfl
            | ref d m nb r =>
                dsimp only at hFs ⊢
                split_ifs with hguard
                · rfl
                · cases hl : lookupKey root.definitionsL r with
                  | none =>
                      exfalso
                      rw [hasKey, hl] at hFs
                      exact absurd hFs (by simp)
                  | some defSchema =>
                      dsimp only
                      refine isPanicked_andThen ?_ (fun st' => rfl)
                      exact ih defSchema none inst _ (hdefs (r, defSchema) (lookupKey_mem hl))
            | type d m nb t =>
                dsimp only
                exact isPanicked_andThen (isPanicked_validateType ts opts t inst _)
                  (fun _ => rfl)
            | enum d m nb es =>
                dsimp only
                refine isPanicked_andThen ?_ (fun _ => rfl)
                cases inst.asStr with
                | none => exact isPanicked_pushError opts _
                | some sv =>
                    dsimp only
                    split_ifs
                    · rfl
                    · exact isPanicked_pushError opts _
            | elements d m nb elemSchema =>
                dsimp only at hFs ⊢
                refine isPanicked_andThen ?_ (fun _ => rfl)
                cases inst.asArray with
                | none => exact isPanicked_pushError opts _
                | some xs =>
                    exact isPanicked_elementsLoop _
                      (fun x st0 => ih elemSchema none x st0 ⟨F, hFs⟩) 0 xs _
            | properties d m nb props optProps pp addl =>
                dsimp only at hFs ⊢
                rw [Bool.and_eq_true] at hFs
                obtain ⟨hFp, hFo⟩ := hFs
                cases ho : inst.asObject with
                | none =>
                    dsimp only
                    exact isPanicked_andThen (isPanicked_pushError opts _) (fun _ => rfl)
                | some obj =>
                    dsimp only
                    refine isPanicked_andThen
                      (isPanicked_requiredLoop _ opts obj props
                        (fun kv hkv v st0 => ih kv.2 none v st0
                          ⟨F, List.all_eq_true.mp hFp kv hkv⟩) _)
                      (fun st1 => ?_)
                    refine isPanicked_andThen
                      (isPanicked_optionalLoop _ obj optProps
                        (fun kv hkv v st0 => ih kv.2 none v st0
                          ⟨F, List.all_eq_true.mp hFo kv hkv⟩) _)
                      (fun st2 => ?_)
                    dsimp only
                    split_ifs
                    · rfl
                    · exact isPanicked_additionalLoop opts tag props optProps _ _
            | values d m nb valSchema =>
                dsimp only at hFs ⊢
                refine isPanicked_andThen ?_ (fun _ => rfl)
                cases inst.asObject with
                | none => exact isPanicked_pushError opts _
                | some obj =>
                    exact isPanicked_valuesLoop _
                      (fun x st0 => ih valSchema none x st0 ⟨F, hFs⟩) obj _
            | discriminator d m nb disc mapping =>
                dsimp only at hFs ⊢
                cases ho : inst.asObject with
                | none =>
                    dsimp only
                    exact isPanicked_andThen (isPanicked_pushError opts _) (fun _ => rfl)
                | some obj =>
                    dsimp only
                    cases hl : lookupKey obj disc with
                    | none =>
                        dsimp only
                        exact isPanicked_andThen (isPanicked_pushError opts _) (fun _ => rfl)
                    | some tagVal =>
                        dsimp only
                        cases hts : tagVal.asStr with
                        | none =>
                            dsimp only
                            exact isPanicked_andThen (isPanicked_pushError opts _)
                              (fun _ => rfl)
                        | some tagv =>
                            dsimp only
                            cases hm : lookupKey mapping tagv with
                            | none =>
                                dsimp only
                                exact isPanicked_andThen (isPanicked_pushError opts _)
                                  (fun _ => rfl)
                            | some sub =>
                                dsimp only
                                refine isPanicked_andThen ?_ (fun _ => rfl)
                                exact ih sub (some disc) inst _
                                  ⟨F, List.all_eq_true.mp hFs (tagv, sub) (lookupKey_mem hm)⟩

end Jtd

namespace Jtd

/-- C10: for every root schema accepted by `Schema::validate` (at any fuel),
and for every instance, options and fuel, the instance validator never reaches
the panicking `root.definitions()[ref]` lookup: the run outcome is never
`panicked`, and the public `validate()` returns no value only on fuel
exhaustion (the model of non-termination), i.e. it otherwise returns
`Ok(errors)` or `Err(MaxDepthExceeded)`. -/
theorem c10_validate_no_panic (ts : String → Bool) (root : Schema)
    (opts : ValidateOptions) (inst : Json) (F fuel : Nat)
    (hvalid : schemaValidate F root = some (.ok ())) :
    (vmRun ts root inst opts fuel).isPanicked = false ∧
    (jtdValidate ts fuel root inst opts = none →
      ∃ st, vmRun ts root inst opts fuel = .nofuel st) := by
  have hroot : allRefsResolveF F root.definitionsL root = true :=
    svF_refs F none root hvalid
  have hdefs : ∀ kv ∈ root.definitionsL,
      ∃ F0, allRefsResolveF F0 root.definitionsL kv.2 = true := by
    intro kv hkv
    cases F with
    | zero => simp [allRefsResolveF] at hroot
    | succ F0 =>
        rw [allRefsResolveF.eq_def] at hroot
        dsimp only at hroot
        rw [Bool.and_eq_true] at hroot
        exact ⟨F0, List.all_eq_true.mp hroot.1 kv hkv⟩
  have hnp : (vmRun ts root inst opts fuel).isPanicked = false :=
    vm_noPanic ts root opts hdefs fuel root none inst initState ⟨F, hroot⟩
  refine ⟨hnp, ?_⟩
  intro hnone
  rw [jtdValidate] at hnone
  cases hvr : vmRun ts root inst opts fuel with
  | ok st => rw [hvr] at hnone; exact absurd hnone (by simp)
  | fail e st =>
      rw [hvr] at hnone
      cases e <;> exact absurd hnone (by simp)
  | panicked st => rw [hvr] at hnp; exact absurd hnp (by simp [VmOut.isPanicked])
  | nofuel st => exact ⟨st, rfl⟩

/-- Witness for C10 at a concrete schema-valid root (a `Ref` into a one-entry
definitions map), instance `5`, default options. -/
theorem c10_validate_no_panic_witness :
    schemaValidate 2 (Schema.ref [("a", Schema.empty [] [])] [] false "a")
        = some (.ok ()) ∧
    ((vmRun (fun _ => true) (Schema.ref [("a", Schema.empty [] [])] [] false "a")
        (.num (.posInt 5)) .default 3).isPanicked = false ∧
      (jtdValidate (fun _ => true) 3 (Schema.ref [("a", Schema.empty [] [])] [] false "a")
          (.num (.posInt 5)) .default = none →
        ∃ st, vmRun (fun _ => true) (Schema.ref [("a", Schema.empty [] [])] [] false "a")
            (.num (.posInt 5)) .default 3 = .nofuel st)) :=
  ⟨by rfl,
    c10_validate_no_panic (fun _ => true)
      (Schema.ref [("a", Schema.empty [] [])] [] false "a")
      .default (.num (.posInt 5)) 2 3 (by rfl)⟩

end Jtd

namespace Jtd

/-! ## Claim C7: `max_errors` truncation semantics -/

/-- Relation between the outcome of a run with `max_errors = 0` (left) and the
same run with `max_errors = m` (right), from the same start state: if the
unbounded run returns `Ok` with fewer than `m` recorded errors the bounded run
returns the very same state; otherwise the bounded run unwinds with
`MaxErrorsReached` carrying exactly the first `m` errors. -/
def MERel (m : Nat) (r0 rm : VmOut) : Prop :=
  ∀ stA, r0 = .ok stA →
    if stA.errors.length < m then rm = .ok stA
    else ∃ stB, rm = .fail .maxErrorsReached stB ∧ stB.errors = stA.errors.take m

theorem merel_ok {m : Nat} {st : VmState} (h : st.errors.length < m) :
    MERel m (.ok st) (.ok st) := by
  intro stA hok
  cases hok
  rw [if_pos h]

theorem merel_of_fail {m : Nat} {e : VmError} {st1 : VmState} {rm : VmOut} :
    MERel m (.fail e st1) rm :=
  fun _ hok => absurd hok (by simp)

theorem merel_of_nofuel {m : Nat} {st1 : VmState} {rm : VmOut} :
    MERel m (.nofuel st1) rm :=
  fun _ hok => absurd hok (by simp)

theorem merel_pushError {m : Nat} {D : Nat} {st : VmState}
    (hlt : st.errors.length < m) :
    MERel m (pushError ⟨D, 0⟩ st) (pushError ⟨D, m⟩ st) := by
  intro stA hok
  rw [pushError] at hok
  dsimp only at hok
  rw [if_neg (by simp)] at hok
  cases hok
  rw [pushError]
  dsimp only
  by_cases hm : (st.errors ++ [(⟨st.instanceTokens, st.schemaTokens.headD []⟩ : VErr)]).length < m
  · rw [if_pos hm, if_neg (by simp at hm ⊢; omega)]
  · rw [if_neg hm, if_pos (by simp at hm ⊢; omega)]
    refine ⟨_, rfl, ?_⟩
    rw [List.take_of_length_le (by simp at hm ⊢; omega)]

theorem merel_andThen {m : Nat} {A0 AM : VmOut} {f0 fM : VmState → VmOut}
    (hA : MERel m A0 AM)
    (hreg : ∀ st1 stA, A0 = .ok st1 → f0 st1 = .ok stA →
      ∃ Δ, stA.errors = st1.errors ++ Δ)
    (hf : ∀ st1, A0 = .ok st1 → st1.errors.length < m → MERel m (f0 st1) (fM st1)) :
    MERel m (A0.andThen f0) (AM.andThen fM) := by
  intro stA hok
  cases A0 with
  | ok st1 =>
      have h1 := hA st1 rfl
      by_cases h1lt : st1.errors.length < m
      · rw [if_pos h1lt] at h1
        rw [h1]
        exact hf st1 rfl h1lt stA hok
      · rw [if_neg h1lt] at h1
        obtain ⟨stB, hAM, hBerr⟩ := h1
        obtain ⟨Δ, hΔ⟩ := hreg st1 stA rfl hok
        have hge : ¬ stA.errors.length < m := by
          rw [hΔ]
          simp only [List.length_append]
          omega
        rw [if_neg hge, hAM]
        refine ⟨stB, rfl, ?_⟩
        rw [hBerr, hΔ, List.take_append_of_le_length (not_lt.mp h1lt)]
  | fail e st1 => exact absurd hok (by simp [VmOut.andThen])
  | panicked st1 => exact absurd hok (by simp [VmOut.andThen])
  | nofuel st1 => exact absurd hok (by simp [VmOut.andThen])

end Jtd

namespace Jtd

theorem merel_of_panicked {m : Nat} {st1 : VmState} {rm : VmOut} :
    MERel m (.panicked st1) rm :=
  fun _ hok => absurd hok (by simp)

theorem errsAppend_of_reg {st : VmState} {r : VmOut} (h : Reg st r) {stA : VmState}
    (hok : r = .ok stA) : ∃ Δ, stA.errors = st.errors ++ Δ := by
  obtain ⟨⟨Δ, hΔ, _⟩, _, _⟩ := h
  rw [hok] at hΔ
  exact ⟨Δ, by simpa [VmOut.stateOf] using hΔ⟩

theorem merel_validateInt {m D : Nat} (inst : Json) (lo hi : ℚ) {st : VmState}
    (hlt : st.errors.length < m) :
    MERel m (validateInt ⟨D, 0⟩ inst lo hi st) (validateInt ⟨D, m⟩ inst lo hi st) := by
  simp only [validateInt]
  cases inst.asF64 with
  | none => exact merel_pushError hlt
  | some v =>
      dsimp only
      split_ifs
      · exact merel_pushError hlt
      · exact merel_ok hlt

theorem merel_validateType {m D : Nat} (ts : String → Bool) (t : Ty) (inst : Json)
    {st : VmState} (hlt : st.errors.length < m) :
    MERel m (validateType ts ⟨D, 0⟩ t inst st) (validateType ts ⟨D, m⟩ t inst st) := by
  cases t <;> simp only [validateType] <;>
    first
      | exact merel_validateInt inst _ _ hlt
      | (split_ifs <;> first | exact merel_ok hlt | exact merel_pushError hlt)
      | (cases inst.asStr with
          | none => exact merel_pushError hlt
          | some s =>
              dsimp only
              split_ifs
              · exact merel_ok hlt
              · exact merel_pushError hlt)

theorem merel_elementsLoop {m : Nat} (f0 fM : Json → VmState → VmOut)
    (hreg : ∀ x st0, Reg st0 (f0 x st0))
    (hf : ∀ x st0, st0.errors.length < m → MERel m (f0 x st0) (fM x st0)) :
    ∀ (i : Nat) (xs : List Json) (st : VmState), st.errors.length < m →
      MERel m (elementsLoop f0 i xs st) (elementsLoop fM i xs st)
  | _, [], st, hlt => merel_ok hlt
  | i, x :: xs, st, hlt => by
      rw [elementsLoop, elementsLoop]
      refine merel_andThen (hf x _ hlt) ?_ ?_
      · intro st1 stA h1 hA
        exact errsAppend_of_reg (reg_elementsLoop f0 hreg (i + 1) xs (popInstanceToken st1)) hA
      · intro st1 h1 h1lt
        exact merel_elementsLoop f0 fM hreg hf (i + 1) xs (popInstanceToken st1) h1lt

theorem merel_valuesLoop {m : Nat} (f0 fM : Json → VmState → VmOut)
    (hreg : ∀ x st0, Reg st0 (f0 x st0))
    (hf : ∀ x st0, st0.errors.length < m → MERel m (f0 x st0) (fM x st0)) :
    ∀ (obj : List (String × Json)) (st : VmState), st.errors.length < m →
      MERel m (valuesLoop f0 obj st) (valuesLoop fM obj st)
  | [], st, hlt => merel_ok hlt
  | (name, v) :: rest, st, hlt => by
      rw [valuesLoop, valuesLoop]
      refine merel_andThen (hf v _ hlt) ?_ ?_
      · intro st1 stA h1 hA
        exact errsAppend_of_reg (reg_valuesLoop f0 hreg rest (popInstanceToken st1)) hA
      · intro st1 h1 h1lt
        exact merel_valuesLoop f0 fM hreg hf rest (popInstanceToken st1) h1lt

end Jtd

namespace Jtd

theorem merel_requiredLoop {m D : Nat} (f0 fM : Schema → Json → VmState → VmOut)
    (obj : List (String × Json))
    (hreg : ∀ s v st0, Reg st0 (f0 s v st0))
    (hf : ∀ s v st0, st0.errors.length < m → MERel m (f0 s v st0) (fM s v st0)) :
    ∀ (props : List (String × Schema)) (st : VmState), st.errors.length < m →
      MERel m (requiredLoop f0 ⟨D, 0⟩ obj props st) (requiredLoop fM ⟨D, m⟩ obj props st)
  | [], st, hlt => merel_ok hlt
  | (name, sub) :: rest, st, hlt => by
      rw [requiredLoop, requiredLoop]
      refine merel_andThen ?_ ?_ ?_
      · cases lookupKey obj name with
        | some subInst =>
            refine merel_andThen (hf sub subInst _ hlt) ?_ ?_
            · intro st1 stA h1 hA
              cases hA
              exact ⟨[], by simp [popInstanceToken]⟩
            · intro st1 h1 h1lt
              exact merel_ok h1lt
        | none => exact merel_pushError hlt
      · intro st2 stA h2 hA
        exact errsAppend_of_reg
          (reg_requiredLoop f0 ⟨D, 0⟩ obj hreg rest (popSchemaToken st2)) hA
      · intro st2 h2 h2lt
        exact merel_requiredLoop f0 fM obj hreg hf rest (popSchemaToken st2) h2lt

theorem merel_optionalLoop {m : Nat} (f0 fM : Schema → Json → VmState → VmOut)
    (obj : List (String × Json))
    (hreg : ∀ s v st0, Reg st0 (f0 s v st0))
    (hf : ∀ s v st0, st0.errors.length < m → MERel m (f0 s v st0) (fM s v st0)) :
    ∀ (optProps : List (String × Schema)) (st : VmState), st.errors.length < m →
      MERel m (optionalLoop f0 obj optProps st) (optionalLoop fM obj optProps st)
  | [], st, hlt => merel_ok hlt
  | (name, sub) :: rest, st, hlt => by
      rw [optionalLoop, optionalLoop]
      refine merel_andThen ?_ ?_ ?_
      · cases lookupKey obj name with
        | some subInst =>
            refine merel_andThen (hf sub subInst _ hlt) ?_ ?_
            · intro st1 stA h1 hA
              cases hA
              exact ⟨[], by simp [popInstanceToken]⟩
            · intro st1 h1 h1lt
              exact merel_ok h1lt
        | none => exact merel_ok hlt
      · intro st2 stA h2 hA
        exact errsAppend_of_reg
          (reg_optionalLoop f0 obj hreg rest (popSchemaToken st2)) hA
      · intro st2 h2 h2lt
        exact merel_optionalLoop f0 fM obj hreg hf rest (popSchemaToken st2) h2lt

theorem merel_additionalLoop {m D : Nat} (ptag : Option String)
    (props optProps : List (String × Schema)) :
    ∀ (keys : List String) (st : VmState), st.errors.length < m →
      MERel m (additionalLoop ⟨D, 0⟩ ptag props optProps keys st)
        (additionalLoop ⟨D, m⟩ ptag props optProps keys st)
  | [], st, hlt => merel_ok hlt
  | name :: rest, st, hlt => by
      rw [additionalLoop, additionalLoop]
      split_ifs
      · refine merel_andThen (merel_pushError hlt) ?_ ?_
        · intro st1 stA h1 hA
          exact errsAppend_of_reg
            (reg_additionalLoop ⟨D, 0⟩ ptag props optProps rest (popInstanceToken st1)) hA
        · intro st1 h1 h1lt
          exact merel_additionalLoop ptag props optProps rest (popInstanceToken st1) h1lt
      · exact merel_additionalLoop ptag props optProps rest st hlt

end Jtd

namespace Jtd

/-- The `max_errors = m` run simulates the `max_errors = 0` run (same
`max_depth`): identical until the `m`-th error indicator is recorded, at which
point the bounded run unwinds with `MaxErrorsReached` holding exactly the
first `m` indicators. -/
theorem simME_vmValidate (ts : String → Bool) (root : Schema) (D m : Nat) :
    ∀ (fuel : Nat) (s : Schema) (tag : Option String) (inst : Json) (st : VmState),
      st.errors.length < m →
      MERel m (vmValidate ts root ⟨D, 0⟩ fuel s tag inst st)
        (vmValidate ts root ⟨D, m⟩ fuel s tag inst st) := by
  intro fuel
  induction fuel with
  | zero => intro s tag inst st _; exact merel_of_nofuel
  | succ n ih =>
      intro s tag inst st hlt
      rw [vmValidate.eq_def ts root ⟨D, m⟩ (n + 1) s tag inst st,
        vmValidate.eq_def ts root ⟨D, 0⟩ (n + 1) s tag inst st]
      dsimp only
      split_ifs with hnull
      · exact merel_ok hlt
      · cases s with
        | empty d m' => exact merel_ok hlt
        | ref d m' nb r =>
            dsimp only
            split_ifs with hguard
            · exact merel_of_fail
            · cases hl : lookupKey root.definitionsL r with
              | none => exact merel_of_panicked
              | some defSchema =>
                  dsimp only
                  refine merel_andThen (ih defSchema none inst _ hlt) ?_ ?_
                  · intro st1 stA h1 hA
                    cases hA
                    exact ⟨[], by simp⟩
                  · intro st1 h1 h1lt
                    exact merel_ok h1lt
        | type d m' nb t =>
            dsimp only
            refine merel_andThen (merel_validateType ts t inst hlt) ?_ ?_
            · intro st1 stA h1 hA
              cases hA
              exact ⟨[], by simp [popSchemaToken]⟩
            · intro st1 h1 h1lt
              exact merel_ok h1lt
        | enum d m' nb es =>
            dsimp only
            refine merel_andThen ?_ ?_ ?_
            · cases inst.asStr with
              | none => exact merel_pushError hlt
              | some sv =>
                  dsimp only
                  split_ifs
                  · exact merel_ok hlt
                  · exact merel_pushError hlt
            · intro st1 stA h1 hA
              cases hA
              exact ⟨[], by simp [popSchemaToken]⟩
            · intro st1 h1 h1lt
              exact merel_ok h1lt
        | elements d m' nb elemSchema =>
            dsimp only
            refine merel_andThen ?_ ?_ ?_
            · cases inst.asArray with
              | none => exact merel_pushError hlt
              | some xs =>
                  exact merel_elementsLoop _ _
                    (fun x st0 => reg_vmValidate ts root ⟨D, 0⟩ n elemSchema none x st0)
                    (fun x st0 h0 => ih elemSchema none x st0 h0) 0 xs _ hlt
            · intro st1 stA h1 hA
              cases hA
              exact ⟨[], by simp [popSchemaToken]⟩
            · intro st1 h1 h1lt
              exact merel_ok h1lt
        | values d m' nb valSchema =>
            dsimp only
            refine merel_andThen ?_ ?_ ?_
            · cases inst.asObject with
              | none => exact merel_pushError hlt
              | some obj =>
                  exact merel_valuesLoop _ _
                    (fun x st0 => reg_vmValidate ts root ⟨D, 0⟩ n valSchema none x st0)
                    (fun x st0 h0 => ih valSchema none x st0 h0) obj _ hlt
            · intro st1 stA h1 hA
              cases hA
              exact ⟨[], by simp [popSchemaToken]⟩
            · intro st1 h1 h1lt
              exact merel_ok h1lt
        | properties d m' nb props optProps pp addl =>
            dsimp only
            cases ho : inst.asObject with
            | none =>
                dsimp only
                refine merel_andThen (merel_pushError hlt) ?_ ?_
                · intro st1 stA h1 hA
                  cases hA
                  exact ⟨[], by simp [popSchemaToken]⟩
                · intro st1 h1 h1lt
                  exact merel_ok h1lt
            | some obj =>
                dsimp only
                refine merel_andThen
                  (merel_requiredLoop _ _ obj
                    (fun s0 v st0 => reg_vmValidate ts root ⟨D, 0⟩ n s0 none v st0)
                    (fun s0 v st0 h0 => ih s0 none v st0 h0) props _ hlt) ?_ ?_
                · intro st1 stA h1 hA
                  cases hB : optionalLoop (fun sub => vmValidate ts root ⟨D, 0⟩ n sub none)
                      obj optProps
                      (pushSchemaToken "optionalProperties" (popSchemaToken st1)) with
                  | ok st2 =>
                      rw [hB] at hA
                      rw [VmOut.andThen] at hA
                      obtain ⟨Δ1, hΔ1⟩ := errsAppend_of_reg
                        (reg_optionalLoop _ obj
                          (fun s0 v st0 => reg_vmValidate ts root ⟨D, 0⟩ n s0 none v st0)
                          optProps _) hB
                      split_ifs at hA
                      · cases hA
                        exact ⟨Δ1, by simpa [popSchemaToken, pushSchemaToken] using hΔ1⟩
                      · obtain ⟨Δ2, hΔ2⟩ := errsAppend_of_reg
                          (reg_additionalLoop ⟨D, 0⟩ tag props optProps
                            (obj.map Prod.fst) (popSchemaToken st2)) hA
                        refine ⟨Δ1 ++ Δ2, ?_⟩
                        rw [hΔ2]
                        simp only [popSchemaToken]
                        rw [hΔ1]
                        simp [pushSchemaToken, popSchemaToken, List.append_assoc]
                  | fail e st2 => rw [hB] at hA; exact absurd hA (by simp [VmOut.andThen])
                  | panicked st2 => rw [hB] at hA; exact absurd hA (by simp [VmOut.andThen])
                  | nofuel st2 => rw [hB] at hA; exact absurd hA (by simp [VmOut.andThen])
                · intro st1 h1 h1lt
                  refine merel_andThen
                    (merel_optionalLoop _ _ obj
                      (fun s0 v st0 => reg_vmValidate ts root ⟨D, 0⟩ n s0 none v st0)
                      (fun s0 v st0 h0 => ih s0 none v st0 h0) optProps _ h1lt) ?_ ?_
                  · intro st2 stA h2 hA
                    split_ifs at hA
                    · cases hA
                      exact ⟨[], by simp [popSchemaToken]⟩
                    · exact errsAppend_of_reg
                        (reg_additionalLoop ⟨D, 0⟩ tag props optProps
                          (obj.map Prod.fst) (popSchemaToken st2)) hA
                  · intro st2 h2 h2lt
                    dsimp only
                    split_ifs
                    · exact merel_ok h2lt
                    · exact merel_additionalLoop tag props optProps _ _ h2lt
        | discriminator d m' nb disc mapping =>
            dsimp only
            cases ho : inst.asObject with
            | none =>
                dsimp only
                refine merel_andThen (merel_pushError hlt) ?_ ?_
                · intro st1 stA h1 hA
                  cases hA
                  exact ⟨[], by simp [popSchemaToken]⟩
                · intro st1 h1 h1lt
                  exact merel_ok h1lt
            | some obj =>
                dsimp only
                cases hl : lookupKey obj disc with
                | none =>
                    dsimp only
                    refine merel_andThen (merel_pushError hlt) ?_ ?_
                    · intro st1 stA h1 hA
                      cases hA
                      exact ⟨[], by simp [popSchemaToken]⟩
                    · intro st1 h1 h1lt
                      exact merel_ok h1lt
                | some tagVal =>
                    dsimp only
                    cases hts : tagVal.asStr with
                    | none =>
                        dsimp only
                        refine merel_andThen (merel_pushError hlt) ?_ ?_
                        · intro st1 stA h1 hA
                          cases hA
                          exact ⟨[], by simp [popSchemaToken, popInstanceToken]⟩
                        · intro st1 h1 h1lt
                          exact merel_ok h1lt
                    | some tagv =>
                        dsimp only
                        cases hm : lookupKey mapping tagv with
                        | none =>
                            dsimp only
                            refine merel_andThen (merel_pushError hlt) ?_ ?_
                            · intro st1 stA h1 hA
                              cases hA
                              exact ⟨[], by simp [popSchemaToken, popInstanceToken]⟩
                            · intro st1 h1 h1lt
                              exact merel_ok h1lt
                        | some sub =>
                            dsimp only
                            refine merel_andThen (ih sub (some disc) inst _ hlt) ?_ ?_
                            · intro st1 stA h1 hA
                              cases hA
                              exact ⟨[], by simp [popSchemaToken]⟩
                            · intro st1 h1 h1lt
                              exact merel_ok h1lt

end Jtd

namespace Jtd

/-- C7: with `max_errors = 0` validate returns the complete indicator list; with
`max_errors = m > 0` it returns `Ok` of exactly the first `min m N` indicators
(a prefix of the full list), stopping as soon as the `m`-th is recorded. -/
theorem c7_max_errors (ts : String → Bool) (root : Schema) (inst : Json)
    (D m fuel : Nat) (stA : VmState)
    (h0 : vmRun ts root inst ⟨D, 0⟩ fuel = .ok stA) (hm : 0 < m) :
    jtdValidate ts fuel root inst ⟨D, 0⟩ = some (.ok stA.errors) ∧
    jtdValidate ts fuel root inst ⟨D, m⟩ = some (.ok (stA.errors.take m)) ∧
    (stA.errors.take m).length = min m stA.errors.length ∧
    stA.errors.take m <+: stA.errors := by
  have hfull : jtdValidate ts fuel root inst ⟨D, 0⟩ = some (.ok stA.errors) := by
    rw [jtdValidate, h0]
  have hsim := simME_vmValidate ts root D m fuel root none inst initState
    (by simpa [initState] using hm)
  have happ := hsim stA h0
  refine ⟨hfull, ?_, List.length_take _ _, List.take_prefix _ _⟩
  by_cases hcase : stA.errors.length < m
  · rw [if_pos hcase] at happ
    have happ' : vmRun ts root inst ⟨D, m⟩ fuel = .ok stA := happ
    rw [jtdValidate, happ', List.take_of_length_le (le_of_lt hcase)]
  · rw [if_neg hcase] at happ
    obtain ⟨stB, hrunM, hBerr⟩ := happ
    have hrunM' : vmRun ts root inst ⟨D, m⟩ fuel = .fail .maxErrorsReached stB := hrunM
    rw [jtdValidate, hrunM']
    simp [hBerr]

/-- Witness for C7: enum schema `["a"]`, instance `"b"`, one indicator; with
`max_errors = 1` the run returns the same single indicator truncated at 1. -/
theorem c7_max_errors_witness :
    vmRun (fun _ => true) (Schema.enum [] [] false ["a"]) (.str "b") ⟨0, 0⟩ 1
        = .ok (⟨[], [[]], [⟨[], ["enum"]⟩], 1⟩ : VmState) ∧ 0 < 1 ∧
    (jtdValidate (fun _ => true) 1 (Schema.enum [] [] false ["a"]) (.str "b") ⟨0, 0⟩
        = some (.ok (⟨[], [[]], [⟨[], ["enum"]⟩], 1⟩ : VmState).errors) ∧
      jtdValidate (fun _ => true) 1 (Schema.enum [] [] false ["a"]) (.str "b") ⟨0, 1⟩
        = some (.ok ((⟨[], [[]], [⟨[], ["enum"]⟩], 1⟩ : VmState).errors.take 1)) ∧
      ((⟨[], [[]], [⟨[], ["enum"]⟩], 1⟩ : VmState).errors.take 1).length
        = min 1 (⟨[], [[]], [⟨[], ["enum"]⟩], 1⟩ : VmState).errors.length ∧
      (⟨[], [[]], [⟨[], ["enum"]⟩], 1⟩ : VmState).errors.take 1
        <+: (⟨[], [[]], [⟨[], ["enum"]⟩], 1⟩ : VmState).errors) :=
  ⟨by rfl, by decide,
    c7_max_errors (fun _ => true) (Schema.enum [] [] false ["a"]) (.str "b") 0 1 1
      (⟨[], [[]], [⟨[], ["enum"]⟩], 1⟩ : VmState) (by rfl) (by decide)⟩

end Jtd

namespace Jtd

/-! ## Claim C6: `max_depth` semantics -/

/-- Whether a run outcome is the `MaxDepthExceeded` failure. -/
def VmOut.isMDE : VmOut → Bool
  | .fail .maxDepthExceeded _ => true
  | _ => false

theorem isMDE_andThen {r : VmOut} {f : VmState → VmOut}
    (hr : r.isMDE = false) (hf : ∀ st, (f st).isMDE = false) :
    (r.andThen f).isMDE = false := by
  cases r with
  | ok st => exact hf st
  | fail e st => exact hr
  | panicked st => rfl
  | nofuel st => rfl

theorem isMDE_pushError (opts : ValidateOptions) (st : VmState) :
    (pushError opts st).isMDE = false := by
  rw [pushError]
  dsimp only
  split_ifs <;> rfl

theorem isMDE_validateInt (opts : ValidateOptions) (inst : Json) (lo hi : ℚ)
    (st : VmState) : (validateInt opts inst lo hi st).isMDE = false := by
  rw [validateInt]
  cases inst.asF64 with
  | none => exact isMDE_pushError opts st
  | some v => dsimp only; split_ifs <;> first | rfl | exact isMDE_pushError opts st

theorem isMDE_validateType (ts : String → Bool) (opts : ValidateOptions) (t : Ty)
    (inst : Json) (st : VmState) : (validateType ts opts t inst st).isMDE = false := by
  cases t <;>
    simp only [validateType] <;>
    first
      | exact isMDE_validateInt opts inst _ _ st
      | (split_ifs <;> first | rfl | exact isMDE_pushError opts st)
      | (cases inst.asStr with
          | none => exact isMDE_pushError opts st
          | some s => dsimp only; split_ifs <;> first | rfl | exact isMDE_pushError opts st)

theorem isMDE_elementsLoop (f : Json → VmState → VmOut)
    (hf : ∀ x st0, (f x st0).isMDE = false) :
    ∀ (i : Nat) (xs : List Json) (st : VmState), (elementsLoop f i xs st).isMDE = false
  | _, [], _ => rfl
  | i, x :: xs, st => by
      rw [elementsLoop]
      exact isMDE_andThen (hf x _) (fun st' => isMDE_elementsLoop f hf (i + 1) xs _)

theorem isMDE_valuesLoop (f : Json → VmState → VmOut)
    (hf : ∀ x st0, (f x st0).isMDE = false) :
    ∀ (obj : List (String × Json)) (st : VmState), (valuesLoop f obj st).isMDE = false
  | [], _ => rfl
  | (name, subInst) :: rest, st => by
      rw [valuesLoop]
      exact isMDE_andThen (hf subInst _) (fun st' => isMDE_valuesLoop f hf rest _)

theorem isMDE_requiredLoop (f : Schema → Json → VmState → VmOut)
    (opts : ValidateOptions) (obj : List (String × Json)) :
    ∀ (props : List (String × Schema)),
      (∀ kv ∈ props, ∀ v st0, (f kv.2 v st0).isMDE = false) →
      ∀ st, (requiredLoop f opts obj props st).isMDE = false
  | [], _, _ => rfl
  | (name, sub) :: rest, hf, st => by
      rw [requiredLoop]
      refine isMDE_andThen ?_
        (fun st2 => isMDE_requiredLoop f opts obj rest
          (fun kv hkv => hf kv (List.mem_cons_of_mem _ hkv)) _)
      cases lookupKey obj name with
      | some subInst =>
          exact isMDE_andThen (hf (name, sub) (by simp) subInst _) (fun _ => rfl)
      | none => exact isMDE_pushError opts _

theorem isMDE_optionalLoop (f : Schema → Json → VmState → VmOut)
    (obj : List (String × Json)) :
    ∀ (optProps : List (String × Schema)),
      (∀ kv ∈ optProps, ∀ v st0, (f kv.2 v st0).isMDE = false) →
      ∀ st, (optionalLoop f obj optProps st).isMDE = false
  | [], _, _ => rfl
  | (name, sub) :: rest, hf, st => by
      rw [optionalLoop]
      refine isMDE_andThen ?_
        (fun st2 => isMDE_optionalLoop f obj rest
          (fun kv hkv => hf kv (List.mem_cons_of_mem _ hkv)) _)
      cases lookupKey obj name with
      | some subInst =>
          exact isMDE_andThen (hf (name, sub) (by simp) subInst _) (fun _ => rfl)
      | none => rfl

theorem isMDE_additionalLoop (opts : ValidateOptions) (ptag : Option String)
    (props optProps : List (String × Schema)) :
    ∀ (keys : List String) (st : VmState),
      (additionalLoop opts ptag props optProps keys st).isMDE = false
  | [], _ => rfl
  | name :: rest, st => by
      rw [additionalLoop]
      split_ifs
      · exact isMDE_andThen (isMDE_pushError opts _)
          (fun st' => isMDE_additionalLoop opts ptag props optProps rest _)
      · exact isMDE_additionalLoop opts ptag props optProps rest st

/-- With `max_depth = 0` the depth guard can never fire (the schema-path stack
count is a successor at every `Ref` push), so `MaxDepthExceeded` is never
returned, for every `max_errors`. -/
theorem vm_d0_noMDE (ts : String → Bool) (root : Schema) (m : Nat) :
    ∀ (fuel : Nat) (s : Schema) (tag : Option String) (inst : Json) (st : VmState),
      (vmValidate ts root ⟨0, m⟩ fuel s tag inst st).isMDE = false := by
  intro fuel
  induction fuel with
  | zero => intro s tag inst st; rfl
  | succ n ih =>
      intro s tag inst st
      rw [vmValidate.eq_def]
      dsimp only
      split_ifs with hnull
      · rfl
      · cases s with
        | empty d m' => rfl
        | ref d m' nb r =>
            dsimp only
            split_ifs with hguard
            · exact absurd hguard (by simp)
            · cases hl : lookupKey root.definitionsL r with
              | none => rfl
              | some defSchema =>
                  dsimp only
                  exact isMDE_andThen (ih defSchema none inst _) (fun st' => rfl)
        | type d m' nb t =>
            dsimp only
            exact isMDE_andThen (isMDE_validateType ts _ t inst _) (fun _ => rfl)
        | enum d m' nb es =>
            dsimp only
            refine isMDE_andThen ?_ (fun _ => rfl)
            cases inst.asStr with
            | none => exact isMDE_pushError _ _
            | some sv =>
                dsimp only
                split_ifs
                · rfl
                · exact isMDE_pushError _ _
        | elements d m' nb elemSchema =>
            dsimp only
            refine isMDE_andThen ?_ (fun _ => rfl)
            cases inst.asArray with
            | none => exact isMDE_pushError _ _
            | some xs =>
                exact isMDE_elementsLoop _ (fun x st0 => ih elemSchema none x st0) 0 xs _
        | properties d m' nb props optProps pp addl =>
            dsimp only
            cases ho : inst.asObject with
            | none =>
                dsimp only
                exact isMDE_andThen (isMDE_pushError _ _) (fun _ => rfl)
            | some obj =>
                dsimp only
                refine isMDE_andThen
                  (isMDE_requiredLoop _ _ obj props
                    (fun kv hkv v st0 => ih kv.2 none v st0) _) (fun st1 => ?_)
                refine isMDE_andThen
                  (isMDE_optionalLoop _ obj optProps
                    (fun kv hkv v st0 => ih kv.2 none v st0) _) (fun st2 => ?_)
                dsimp only
                split_ifs
                · rfl
                · exact isMDE_additionalLoop _ tag props optProps _ _
        | values d m' nb valSchema =>
            dsimp only
            refine isMDE_andThen ?_ (fun _ => rfl)
            cases inst.asObject with
            | none => exact isMDE_pushError _ _
            | some obj =>
                exact isMDE_valuesLoop _ (fun x st0 => ih valSchema none x st0) obj _
        | discriminator d m' nb disc mapping =>
            dsimp only
            cases ho : inst.asObject with
            | none =>
                dsimp only
                exact isMDE_andThen (isMDE_pushError _ _) (fun _ => rfl)
            | some obj =>
                dsimp only
                cases hl : lookupKey obj disc with
                | none =>
                    dsimp only
                    exact isMDE_andThen (isMDE_pushError _ _) (fun _ => rfl)
                | some tagVal =>
                    dsimp only
                    cases hts : tagVal.asStr with
                    | none =>
                        dsimp only
                        exact isMDE_andThen (isMDE_pushError _ _) (fun _ => rfl)
                    | some tagv =>
                        dsimp only
                        cases hm : lookupKey mapping tagv with
                        | none =>
                            dsimp only
                            exact isMDE_andThen (isMDE_pushError _ _) (fun _ => rfl)
                        | some sub =>
                            dsimp only
                            exact isMDE_andThen (ih sub (some disc) inst _) (fun _ => rfl)

end Jtd

namespace Jtd

/-- Relation between the outcome of a run with `max_depth = 0` (left) and the
same run with `max_depth = d` (right) from the same start state: if no `Ref`
push in the sub-run makes the schema-path stack count reach `d` (tracked by
the high-water instrumentation `hw`) the bounded run returns the identical
state, otherwise it fails with `MaxDepthExceeded`. -/
def MDRel (d : Nat) (r0 rd : VmOut) : Prop :=
  ∀ stA, r0 = .ok stA →
    if 2 ≤ d ∧ d ≤ stA.hw then ∃ stB, rd = .fail .maxDepthExceeded stB
    else rd = .ok stA

theorem mdrel_ok {d : Nat} {st : VmState} (h : ¬(2 ≤ d ∧ d ≤ st.hw)) :
    MDRel d (.ok st) (.ok st) := by
  intro stA hok
  cases hok
  rw [if_neg h]

theorem mdrel_of_fail {d : Nat} {e : VmError} {st1 : VmState} {rd : VmOut} :
    MDRel d (.fail e st1) rd :=
  fun _ hok => absurd hok (by simp)

theorem mdrel_of_panicked {d : Nat} {st1 : VmState} {rd : VmOut} :
    MDRel d (.panicked st1) rd :=
  fun _ hok => absurd hok (by simp)

theorem mdrel_of_nofuel {d : Nat} {st1 : VmState} {rd : VmOut} :
    MDRel d (.nofuel st1) rd :=
  fun _ hok => absurd hok (by simp)

theorem mdrel_pushError {d m0 : Nat} {st : VmState} (h : ¬(2 ≤ d ∧ d ≤ st.hw)) :
    MDRel d (pushError ⟨0, m0⟩ st) (pushError ⟨d, m0⟩ st) := by
  intro stA hok
  rw [pushError] at hok
  dsimp only at hok
  by_cases hc : m0
      = (st.errors ++ [(⟨st.instanceTokens, st.schemaTokens.headD []⟩ : VErr)]).length
  · rw [if_pos hc] at hok
    cases hok
  · rw [if_neg hc] at hok
    cases hok
    rw [if_neg (by simpa using h), pushError]
    dsimp only
    rw [if_neg hc]

theorem mdrel_andThen {d : Nat} {A0 AD : VmOut} {f0 fD : VmState → VmOut}
    (hA : MDRel d A0 AD)
    (hhw : ∀ st1 stA, A0 = .ok st1 → f0 st1 = .ok stA → st1.hw ≤ stA.hw)
    (hf : ∀ st1, A0 = .ok st1 → ¬(2 ≤ d ∧ d ≤ st1.hw) → MDRel d (f0 st1) (fD st1)) :
    MDRel d (A0.andThen f0) (AD.andThen fD) := by
  intro stA hok
  cases A0 with
  | ok st1 =>
      have h1 := hA st1 rfl
      by_cases hc1 : 2 ≤ d ∧ d ≤ st1.hw
      · rw [if_pos hc1] at h1
        obtain ⟨stB, hAD⟩ := h1
        have hcond : 2 ≤ d ∧ d ≤ stA.hw :=
          ⟨hc1.1, le_trans hc1.2 (hhw st1 stA rfl hok)⟩
        rw [if_pos hcond, hAD]
        exact ⟨stB, rfl⟩
      · rw [if_neg hc1] at h1
        rw [h1]
        exact hf st1 rfl hc1 stA hok
  | fail e st1 => exact absurd hok (by simp [VmOut.andThen])
  | panicked st1 => exact absurd hok (by simp [VmOut.andThen])
  | nofuel st1 => exact absurd hok (by simp [VmOut.andThen])

theorem hwMono_of_reg {st : VmState} {r : VmOut} (h : Reg st r) {stA : VmState}
    (hok : r = .ok stA) : st.hw ≤ stA.hw := by
  have := h.2.1
  rw [hok] at this
  simpa [VmOut.stateOf] using this

end Jtd

namespace Jtd

theorem mdrel_validateInt {d m0 : Nat} (inst : Json) (lo hi : ℚ) {st : VmState}
    (h : ¬(2 ≤ d ∧ d ≤ st.hw)) :
    MDRel d (validateInt ⟨0, m0⟩ inst lo hi st) (validateInt ⟨d, m0⟩ inst lo hi st) := by
  simp only [validateInt]
  cases inst.asF64 with
  | none => exact mdrel_pushError h
  | some v =>
      dsimp only
      split_ifs
      · exact mdrel_pushError h
      · exact mdrel_ok h

theorem mdrel_validateType {d m0 : Nat} (ts : String → Bool) (t : Ty) (inst : Json)
    {st : VmState} (h : ¬(2 ≤ d ∧ d ≤ st.hw)) :
    MDRel d (validateType ts ⟨0, m0⟩ t inst st) (validateType ts ⟨d, m0⟩ t inst st) := by
  cases t <;> simp only [validateType] <;>
    first
      | exact mdrel_validateInt inst _ _ h
      | (split_ifs <;> first | exact mdrel_ok h | exact mdrel_pushError h)
      | (cases inst.asStr with
          | none => exact mdrel_pushError h
          | some s =>
              dsimp only
              split_ifs
              · exact mdrel_ok h
              · exact mdrel_pushError h)

/-- The reachability precondition for the depth simulation: the schema-path
stack is non-empty, and when the limit is active (`2 ≤ d`) both the stack
count and the high-water mark are still below `d`. -/
def MDOk (d : Nat) (st : VmState) : Prop :=
  1 ≤ st.schemaTokens.length ∧ (2 ≤ d → st.schemaTokens.length < d ∧ st.hw < d)

theorem mdok_not_and {d : Nat} {st : VmState} (h : MDOk d st) :
    ¬(2 ≤ d ∧ d ≤ st.hw) :=
  fun hc => absurd hc.2 (not_le.mpr (h.2 hc.1).2)

theorem mdok_pushSchema {d : Nat} {st : VmState} (t : String) (h : MDOk d st) :
    MDOk d (pushSchemaToken t st) := by
  obtain ⟨h1, h2⟩ := h
  constructor
  · simpa [pushSchemaToken, length_pushTok] using h1
  · intro hd
    refine ⟨?_, (h2 hd).2⟩
    simpa [pushSchemaToken, length_pushTok] using (h2 hd).1

theorem mdok_pushInstance {d : Nat} {st : VmState} (t : String) (h : MDOk d st) :
    MDOk d (pushInstanceToken t st) := h

theorem mdok_of_eq {d : Nat} {st st' : VmState} (h : MDOk d st)
    (htok : st'.schemaTokens = st.schemaTokens)
    (hhw : ¬(2 ≤ d ∧ d ≤ st'.hw)) : MDOk d st' := by
  obtain ⟨h1, h2⟩ := h
  refine ⟨by rw [htok]; exact h1, fun hd => ⟨by rw [htok]; exact (h2 hd).1, ?_⟩⟩
  rcases not_and_or.mp hhw with hc | hc
  · exact absurd hd hc
  · exact not_le.mp hc

theorem mdrel_elementsLoop {d : Nat} (f0 fD : Json → VmState → VmOut)
    (hreg : ∀ x st0, Reg st0 (f0 x st0))
    (hf : ∀ x st0, MDOk d st0 → MDRel d (f0 x st0) (fD x st0)) :
    ∀ (i : Nat) (xs : List Json) (st : VmState), MDOk d st →
      MDRel d (elementsLoop f0 i xs st) (elementsLoop fD i xs st)
  | _, [], st, hpre => mdrel_ok (mdok_not_and hpre)
  | i, x :: xs, st, hpre => by
      rw [elementsLoop, elementsLoop]
      refine mdrel_andThen (hf x _ (mdok_pushInstance _ hpre)) ?_ ?_
      · intro st1 stA h1 hA
        exact hwMono_of_reg (reg_elementsLoop f0 hreg (i + 1) xs (popInstanceToken st1)) hA
      · intro st1 h1 h1pre
        refine mdrel_elementsLoop f0 fD hreg hf (i + 1) xs (popInstanceToken st1) ?_
        have htok := ((hreg x (pushInstanceToken (Nat.repr i) st)).2.2 st1 h1).2
        exact mdok_of_eq hpre
          (by simp [popInstanceToken, pushInstanceToken, htok]) h1pre

theorem mdrel_valuesLoop {d : Nat} (f0 fD : Json → VmState → VmOut)
    (hreg : ∀ x st0, Reg st0 (f0 x st0))
    (hf : ∀ x st0, MDOk d st0 → MDRel d (f0 x st0) (fD x st0)) :
    ∀ (obj : List (String × Json)) (st : VmState), MDOk d st →
      MDRel d (valuesLoop f0 obj st) (valuesLoop fD obj st)
  | [], st, hpre => mdrel_ok (mdok_not_and hpre)
  | (name, v) :: rest, st, hpre => by
      rw [valuesLoop, valuesLoop]
      refine mdrel_andThen (hf v _ (mdok_pushInstance _ hpre)) ?_ ?_
      · intro st1 stA h1 hA
        exact hwMono_of_reg (reg_valuesLoop f0 hreg rest (popInstanceToken st1)) hA
      · intro st1 h1 h1pre
        refine mdrel_valuesLoop f0 fD hreg hf rest (popInstanceToken st1) ?_
        have htok := ((hreg v (pushInstanceToken name st)).2.2 st1 h1).2
        exact mdok_of_eq hpre
          (by simp [popInstanceToken, pushInstanceToken, htok]) h1pre

theorem mdrel_requiredLoop {d m0 : Nat} (f0 fD : Schema → Json → VmState → VmOut)
    (obj : List (String × Json))
    (hreg : ∀ s v st0, Reg st0 (f0 s v st0))
    (hf : ∀ s v st0, MDOk d st0 → MDRel d (f0 s v st0) (fD s v st0)) :
    ∀ (props : List (String × Schema)) (st : VmState), MDOk d st →
      MDRel d (requiredLoop f0 ⟨0, m0⟩ obj props st) (requiredLoop fD ⟨d, m0⟩ obj props st)
  | [], st, hpre => mdrel_ok (mdok_not_and hpre)
  | (name, sub) :: rest, st, hpre => by
      rw [requiredLoop, requiredLoop]
      have hstage : Reg (pushSchemaToken name st)
          (match lookupKey obj name with
           | some subInst =>
               (f0 sub subInst (pushInstanceToken name (pushSchemaToken name st))).andThen
                 fun st' => .ok (popInstanceToken st')
           | none => pushError ⟨0, m0⟩ (pushSchemaToken name st)) := by
        cases lookupKey obj name with
        | some subInst => exact reg_instWrap name (hreg sub subInst _)
        | none => exact reg_pushError ⟨0, m0⟩ _
      refine mdrel_andThen ?_ ?_ ?_
      · cases lookupKey obj name with
        | some subInst =>
            refine mdrel_andThen
              (hf sub subInst _ (mdok_pushInstance _ (mdok_pushSchema _ hpre))) ?_ ?_
            · intro st1 stA h1 hA
              cases hA
              exact le_refl _
            · intro st1 h1 h1pre
              exact mdrel_ok h1pre
        | none => exact mdrel_pushError (mdok_not_and (mdok_pushSchema _ hpre))
      · intro st2 stA h2 hA
        exact hwMono_of_reg
          (reg_requiredLoop f0 ⟨0, m0⟩ obj hreg rest (popSchemaToken st2)) hA
      · intro st2 h2 h2pre
        refine mdrel_requiredLoop f0 fD obj hreg hf rest (popSchemaToken st2) ?_
        have htok := (hstage.2.2 st2 h2).2
        refine mdok_of_eq hpre ?_ h2pre
        simp [popSchemaToken, pushSchemaToken, htok, popTok_pushTok]

theorem mdrel_optionalLoop {d : Nat} (f0 fD : Schema → Json → VmState → VmOut)
    (obj : List (String × Json))
    (hreg : ∀ s v st0, Reg st0 (f0 s v st0))
    (hf : ∀ s v st0, MDOk d st0 → MDRel d (f0 s v st0) (fD s v st0)) :
    ∀ (optProps : List (String × Schema)) (st : VmState), MDOk d st →
      MDRel d (optionalLoop f0 obj optProps st) (optionalLoop fD obj optProps st)
  | [], st, hpre => mdrel_ok (mdok_not_and hpre)
  | (name, sub) :: rest, st, hpre => by
      rw [optionalLoop, optionalLoop]
      have hstage : Reg (pushSchemaToken name st)
          (match lookupKey obj name with
           | some subInst =>
               (f0 sub subInst (pushInstanceToken name (pushSchemaToken name st))).andThen
                 fun st' => .ok (popInstanceToken st')
           | none => .ok (pushSchemaToken name st)) := by
        cases lookupKey obj name with
        | some subInst => exact reg_instWrap name (hreg sub subInst _)
        | none => exact reg_ok _
      refine mdrel_andThen ?_ ?_ ?_
      · cases lookupKey obj name with
        | some subInst =>
            refine mdrel_andThen
              (hf sub subInst _ (mdok_pushInstance _ (mdok_pushSchema _ hpre))) ?_ ?_
            · intro st1 stA h1 hA
              cases hA
              exact le_refl _
            · intro st1 h1 h1pre
              exact mdrel_ok h1pre
        | none => exact mdrel_ok (mdok_not_and (mdok_pushSchema _ hpre))
      · intro st2 stA h2 hA
        exact hwMono_of_reg (reg_optionalLoop f0 obj hreg rest (popSchemaToken st2)) hA
      · intro st2 h2 h2pre
        refine mdrel_optionalLoop f0 fD obj hreg hf rest (popSchemaToken st2) ?_
        have htok := (hstage.2.2 st2 h2).2
        refine mdok_of_eq hpre ?_ h2pre
        simp [popSchemaToken, pushSchemaToken, htok, popTok_pushTok]

theorem mdrel_additionalLoop {d m0 : Nat} (ptag : Option String)
    (props optProps : List (String × Schema)) :
    ∀ (keys : List String) (st : VmState), MDOk d st →
      MDRel d (additionalLoop ⟨0, m0⟩ ptag props optProps keys st)
        (additionalLoop ⟨d, m0⟩ ptag props optProps keys st)
  | [], st, hpre => mdrel_ok (mdok_not_and hpre)
  | name :: rest, st, hpre => by
      rw [additionalLoop, additionalLoop]
      split_ifs
      · refine mdrel_andThen (mdrel_pushError (mdok_not_and hpre)) ?_ ?_
        · intro st1 stA h1 hA
          exact hwMono_of_reg
            (reg_additionalLoop ⟨0, m0⟩ ptag props optProps rest (popInstanceToken st1)) hA
        · intro st1 h1 h1pre
          refine mdrel_additionalLoop ptag props optProps rest (popInstanceToken st1) ?_
          have htok := ((reg_pushError (⟨0, m0⟩ : ValidateOptions)
            (pushInstanceToken name st)).2.2 st1 h1).2
          exact mdok_of_eq hpre
            (by simp [popInstanceToken, pushInstanceToken, htok]) h1pre
      · exact mdrel_additionalLoop ptag props optProps rest st hpre

end Jtd

namespace Jtd

theorem mdok_of_len {d : Nat} {st st' : VmState} (h : MDOk d st)
    (hlen : st'.schemaTokens.length = st.schemaTokens.length)
    (hhw : ¬(2 ≤ d ∧ d ≤ st'.hw)) : MDOk d st' := by
  obtain ⟨h1, h2⟩ := h
  refine ⟨by rw [hlen]; exact h1, fun hd => ⟨by rw [hlen]; exact (h2 hd).1, ?_⟩⟩
  rcases not_and_or.mp hhw with hc | hc
  · exact absurd hd hc
  · exact not_le.mp hc

theorem mdok_popSchema {d : Nat} {st : VmState} (h : MDOk d st) :
    MDOk d (popSchemaToken st) := by
  obtain ⟨h1, h2⟩ := h
  constructor
  · simpa [popSchemaToken, length_popTok] using h1
  · intro hd
    refine ⟨?_, (h2 hd).2⟩
    simpa [popSchemaToken, length_popTok] using (h2 hd).1

/-- The `max_depth = d` run simulates the `max_depth = 0` run (same
`max_errors`): from any reachable state, either no `Ref` push in the sub-run
makes the schema-path stack count reach `d` and the two runs return the
identical state, or the bounded run fails with `MaxDepthExceeded`. -/
theorem simMD_vmValidate (ts : String → Bool) (root : Schema) (d m0 : Nat) :
    ∀ (fuel : Nat) (s : Schema) (tag : Option String) (inst : Json) (st : VmState),
      MDOk d st →
      MDRel d (vmValidate ts root ⟨0, m0⟩ fuel s tag inst st)
        (vmValidate ts root ⟨d, m0⟩ fuel s tag inst st) := by
  intro fuel
  induction fuel with
  | zero => intro s tag inst st _; exact mdrel_of_nofuel
  | succ n ih =>
      intro s tag inst st hpre
      rw [vmValidate.eq_def ts root ⟨d, m0⟩ (n + 1) s tag inst st,
        vmValidate.eq_def ts root ⟨0, m0⟩ (n + 1) s tag inst st]
      dsimp only
      split_ifs with hnull
      · exact mdrel_ok (mdok_not_and hpre)
      · cases s with
        | empty d0 mm => exact mdrel_ok (mdok_not_and hpre)
        | ref d0 mm nb r =>
            dsimp only
            rw [if_neg (show ¬((["definitions", r] :: st.schemaTokens).length = 0)
              by simp)]
            by_cases hguard : (["definitions", r] :: st.schemaTokens).length = d
            · rw [if_pos hguard]
              intro stA hok
              have hlen1 : st.schemaTokens.length + 1 = d := by simpa using hguard
              have h2d : 2 ≤ d := by
                have := hpre.1
                omega
              cases hl : lookupKey root.definitionsL r with
              | none =>
                  rw [hl] at hok
                  exact absurd hok (by simp)
              | some defSchema =>
                  rw [hl] at hok
                  dsimp only at hok
                  cases hin : (vmValidate ts root ⟨0, m0⟩ n defSchema none inst
                      ({ st with
                          schemaTokens := ["definitions", r] :: st.schemaTokens
                          hw := st.hw ⊔ (st.schemaTokens.length + 1) } : VmState)) with
                  | ok st' =>
                      rw [hin] at hok
                      rw [VmOut.andThen] at hok
                      cases hok
                      have hmon : st.hw ⊔ (st.schemaTokens.length + 1) ≤ st'.hw :=
                        hwMono_of_reg
                          (reg_vmValidate ts root ⟨0, m0⟩ n defSchema none inst _) hin
                      split_ifs with hcond
                      · exact ⟨_, rfl⟩
                      · exact absurd ⟨h2d, by
                          show d ≤ st'.hw
                          omega⟩ hcond
                  | fail e st' =>
                      rw [hin] at hok
                      exact absurd hok (by simp [VmOut.andThen])
                  | panicked st' =>
                      rw [hin] at hok
                      exact absurd hok (by simp [VmOut.andThen])
                  | nofuel st' =>
                      rw [hin] at hok
                      exact absurd hok (by simp [VmOut.andThen])
            · rw [if_neg hguard]
              cases hl : lookupKey root.definitionsL r with
              | none => exact mdrel_of_panicked
              | some defSchema =>
                  dsimp only
                  refine mdrel_andThen (ih defSchema none inst _ ?_) ?_ ?_
                  · constructor
                    · simp
                    · intro hd
                      have hg : st.schemaTokens.length + 1 ≠ d := by simpa using hguard
                      have hlt := (hpre.2 hd).1
                      have hhw := (hpre.2 hd).2
                      constructor
                      · simp only [List.length_cons]
                        omega
                      · show st.hw ⊔ (st.schemaTokens.length + 1) < d
                        omega
                  · intro st1 stA h1 hA
                    cases hA
                    exact le_refl _
                  · intro st1 h1 h1pre
                    exact mdrel_ok h1pre
        | type d0 mm nb t =>
            dsimp only
            refine mdrel_andThen
              (mdrel_validateType ts t inst (mdok_not_and (mdok_pushSchema _ hpre))) ?_ ?_
            · intro st1 stA h1 hA
              cases hA
              exact le_refl _
            · intro st1 h1 h1pre
              exact mdrel_ok h1pre
        | enum d0 mm nb es =>
            dsimp only
            refine mdrel_andThen ?_ ?_ ?_
            · cases inst.asStr with
              | none => exact mdrel_pushError (mdok_not_and (mdok_pushSchema _ hpre))
              | some sv =>
                  dsimp only
                  split_ifs
                  · exact mdrel_ok (mdok_not_and (mdok_pushSchema _ hpre))
                  · exact mdrel_pushError (mdok_not_and (mdok_pushSchema _ hpre))
            · intro st1 stA h1 hA
              cases hA
              exact le_refl _
            · intro st1 h1 h1pre
              exact mdrel_ok h1pre
        | elements d0 mm nb elemSchema =>
            dsimp only
            refine mdrel_andThen ?_ ?_ ?_
            · cases inst.asArray with
              | none => exact mdrel_pushError (mdok_not_and (mdok_pushSchema _ hpre))
              | some xs =>
                  exact mdrel_elementsLoop _ _
                    (fun x st0 => reg_vmValidate ts root ⟨0, m0⟩ n elemSchema none x st0)
                    (fun x st0 h0 => ih elemSchema none x st0 h0) 0 xs _
                    (mdok_pushSchema _ hpre)
            · intro st1 stA h1 hA
              cases hA
              exact le_refl _
            · intro st1 h1 h1pre
              exact mdrel_ok h1pre
        | values d0 mm nb valSchema =>
            dsimp only
            refine mdrel_andThen ?_ ?_ ?_
            · cases inst.asObject with
              | none => exact mdrel_pushError (mdok_not_and (mdok_pushSchema _ hpre))
              | some obj =>
                  exact mdrel_valuesLoop _ _
                    (fun x st0 => reg_vmValidate ts root ⟨0, m0⟩ n valSchema none x st0)
                    (fun x st0 h0 => ih valSchema none x st0 h0) obj _
                    (mdok_pushSchema _ hpre)
            · intro st1 stA h1 hA
              cases hA
              exact le_refl _
            · intro st1 h1 h1pre
              exact mdrel_ok h1pre
        | properties d0 mm nb props optProps pp addl =>
            dsimp only
            cases ho : inst.asObject with
            | none =>
                dsimp only
                refine mdrel_andThen
                  (mdrel_pushError (mdok_not_and (mdok_pushSchema _ hpre))) ?_ ?_
                · intro st1 stA h1 hA
                  cases hA
                  exact le_refl _
                · intro st1 h1 h1pre
                  exact mdrel_ok h1pre
            | some obj =>
                dsimp only
                refine mdrel_andThen
                  (mdrel_requiredLoop _ _ obj
                    (fun s0 v st0 => reg_vmValidate ts root ⟨0, m0⟩ n s0 none v st0)
                    (fun s0 v st0 h0 => ih s0 none v st0 h0) props _
                    (mdok_pushSchema _ hpre)) ?_ ?_
                · intro st1 stA h1 hA
                  cases hB : optionalLoop (fun sub => vmValidate ts root ⟨0, m0⟩ n sub none)
                      obj optProps
                      (pushSchemaToken "optionalProperties" (popSchemaToken st1)) with
                  | ok st2 =>
                      rw [hB] at hA
                      rw [VmOut.andThen] at hA
                      have m1 : st1.hw ≤ st2.hw :=
                        hwMono_of_reg
                          (reg_optionalLoop _ obj
                            (fun s0 v st0 =>
                              reg_vmValidate ts root ⟨0, m0⟩ n s0 none v st0) optProps
                            (pushSchemaToken "optionalProperties" (popSchemaToken st1))) hB
                      split_ifs at hA
                      · cases hA
                        exact m1
                      · have m2 : st2.hw ≤ stA.hw :=
                          hwMono_of_reg
                            (reg_additionalLoop ⟨0, m0⟩ tag props optProps
                              (obj.map Prod.fst) (popSchemaToken st2)) hA
                        exact le_trans m1 m2
                  | fail e st2 => rw [hB] at hA; exact absurd hA (by simp [VmOut.andThen])
                  | panicked st2 => rw [hB] at hA; exact absurd hA (by simp [VmOut.andThen])
                  | nofuel st2 => rw [hB] at hA; exact absurd hA (by simp [VmOut.andThen])
                · intro st1 h1 h1pre
                  have htok1 := ((reg_requiredLoop _ ⟨0, m0⟩ obj
                    (fun s0 v st0 => reg_vmValidate ts root ⟨0, m0⟩ n s0 none v st0)
                    props (pushSchemaToken "properties" st)).2.2 st1 h1).2
                  have hok1 : MDOk d st1 :=
                    mdok_of_len (mdok_pushSchema "properties" hpre)
                      (by rw [htok1]) h1pre
                  refine mdrel_andThen
                    (mdrel_optionalLoop _ _ obj
                      (fun s0 v st0 => reg_vmValidate ts root ⟨0, m0⟩ n s0 none v st0)
                      (fun s0 v st0 h0 => ih s0 none v st0 h0) optProps _
                      (mdok_pushSchema _ (mdok_popSchema hok1))) ?_ ?_
                  · intro st2 stA h2 hA
                    split_ifs at hA
                    · cases hA
                      exact le_refl _
                    · exact hwMono_of_reg
                        (reg_additionalLoop ⟨0, m0⟩ tag props optProps
                          (obj.map Prod.fst) (popSchemaToken st2)) hA
                  · intro st2 h2 h2pre
                    have htok2 := ((reg_optionalLoop _ obj
                      (fun s0 v st0 => reg_vmValidate ts root ⟨0, m0⟩ n s0 none v st0)
                      optProps
                      (pushSchemaToken "optionalProperties" (popSchemaToken st1))).2.2
                        st2 h2).2
                    have hok2 : MDOk d (popSchemaToken st2) :=
                      mdok_of_len hok1
                        (by simp [popSchemaToken, htok2, pushSchemaToken,
                          length_popTok, length_pushTok]) h2pre
                    split_ifs
                    · exact mdrel_ok h2pre
                    · exact mdrel_additionalLoop tag props optProps _ _ hok2
        | discriminator d0 mm nb disc mapping =>
            dsimp only
            cases ho : inst.asObject with
            | none =>
                dsimp only
                refine mdrel_andThen
                  (mdrel_pushError (mdok_not_and (mdok_pushSchema _ hpre))) ?_ ?_
                · intro st1 stA h1 hA
                  cases hA
                  exact le_refl _
                · intro st1 h1 h1pre
                  exact mdrel_ok h1pre
            | some obj =>
                dsimp only
                cases hl : lookupKey obj disc with
                | none =>
                    dsimp only
                    refine mdrel_andThen
                      (mdrel_pushError (mdok_not_and (mdok_pushSchema _ hpre))) ?_ ?_
                    · intro st1 stA h1 hA
                      cases hA
                      exact le_refl _
                    · intro st1 h1 h1pre
                      exact mdrel_ok h1pre
                | some tagVal =>
                    dsimp only
                    cases hts : tagVal.asStr with
                    | none =>
                        dsimp only
                        refine mdrel_andThen
                          (mdrel_pushError
                            (mdok_not_and (mdok_pushSchema _ hpre))) ?_ ?_
                        · intro st1 stA h1 hA
                          cases hA
                          exact le_refl _
                        · intro st1 h1 h1pre
                          exact mdrel_ok h1pre
                    | some tagv =>
                        dsimp only
                        cases hm : lookupKey mapping tagv with
                        | none =>
                            dsimp only
                            refine mdrel_andThen
                              (mdrel_pushError
                                (mdok_not_and (mdok_pushSchema _ hpre))) ?_ ?_
                            · intro st1 stA h1 hA
                              cases hA
                              exact le_refl _
                            · intro st1 h1 h1pre
                              exact mdrel_ok h1pre
                        | some sub =>
                            dsimp only
                            refine mdrel_andThen
                              (ih sub (some disc) inst _
                                (mdok_pushSchema _ (mdok_pushSchema _ hpre))) ?_ ?_
                            · intro st1 stA h1 hA
                              cases hA
                              exact le_refl _
                            · intro st1 h1 h1pre
                              exact mdrel_ok h1pre

end Jtd

namespace Jtd

/-- C6 counterexample to the claim as stated: the schema-valid root
`{"definitions":{"a":{}},"ref":"a"}` on instance `5` with `max_depth = 1`
returns `Ok([])`, although the `Ref` push during evaluation makes the number
of simultaneously stacked `Ref` evaluations equal `1 = max_depth` (the final
high-water mark `2` of the unlimited run records a push that made the
schema-path stack count `2`, i.e. one stacked `Ref` evaluation).  The guard
compares the stack count — which includes the root's initial stack — with
`max_depth`, not the number of stacked `Ref` evaluations. -/
theorem c6_counterexample :
    schemaValidate 2 (Schema.ref [("a", Schema.empty [] [])] [] false "a")
        = some (.ok ()) ∧
    vmRun (fun _ => true) (Schema.ref [("a", Schema.empty [] [])] [] false "a")
        (.num (.posInt 5)) ⟨0, 0⟩ 2 = .ok ⟨[], [[]], [], 2⟩ ∧
    jtdValidate (fun _ => true) 2 (Schema.ref [("a", Schema.empty [] [])] [] false "a")
        (.num (.posInt 5)) ⟨1, 0⟩ = some (.ok []) :=
  ⟨rfl, rfl, rfl⟩

/-- C6 (amended): with `max_depth = 0` (any `max_errors`) the validator never
returns `MaxDepthExceeded`; with `max_depth = d ≥ 1`, whenever the unlimited
run returns `Ok`, the bounded run fails with `MaxDepthExceeded` exactly when
some `Ref` push during evaluation makes the schema-path stack count (the
root's initial stack plus the simultaneously stacked `Ref` evaluations, i.e.
the final high-water mark bound) reach `d`, and otherwise returns the very
same error list. -/
theorem c6_max_depth (ts : String → Bool) (root : Schema) (inst : Json)
    (d m0 fuel : Nat) (stA : VmState)
    (h0 : vmRun ts root inst ⟨0, m0⟩ fuel = .ok stA) (hd : 1 ≤ d) :
    (∀ mm : Nat, (vmRun ts root inst ⟨0, mm⟩ fuel).isMDE = false) ∧
    (if 2 ≤ d ∧ d ≤ stA.hw
     then jtdValidate ts fuel root inst ⟨d, m0⟩ = some (.error .maxDepthExceeded)
     else jtdValidate ts fuel root inst ⟨d, m0⟩ = some (.ok stA.errors)) := by
  refine ⟨fun mm => vm_d0_noMDE ts root mm fuel root none inst initState, ?_⟩
  have hinit : MDOk d initState := by
    refine ⟨by simp [initState], fun h2 => ⟨?_, ?_⟩⟩ <;> simp [initState] <;> omega
  have happ := simMD_vmValidate ts root d m0 fuel root none inst initState hinit stA h0
  split_ifs with hcond
  · rw [if_pos hcond] at happ
    obtain ⟨stB, hfail⟩ := happ
    have hfail' : vmRun ts root inst ⟨d, m0⟩ fuel = .fail .maxDepthExceeded stB := hfail
    rw [jtdValidate, hfail']
  · rw [if_neg hcond] at happ
    have hok' : vmRun ts root inst ⟨d, m0⟩ fuel = .ok stA := happ
    rw [jtdValidate, hok']

/-- Witness for C6 at the schema-valid root `{"definitions":{"a":{}},"ref":"a"}`,
instance `5`, `max_depth = 2`: the unlimited run ends with high-water mark 2,
so the bounded run fails with `MaxDepthExceeded`. -/
theorem c6_max_depth_witness :
    vmRun (fun _ => true) (Schema.ref [("a", Schema.empty [] [])] [] false "a")
        (.num (.posInt 5)) ⟨0, 0⟩ 2 = .ok (⟨[], [[]], [], 2⟩ : VmState) ∧ 1 ≤ 2 ∧
    ((∀ mm : Nat, (vmRun (fun _ => true)
        (Schema.ref [("a", Schema.empty [] [])] [] false "a")
        (.num (.posInt 5)) ⟨0, mm⟩ 2).isMDE = false) ∧
      (if 2 ≤ 2 ∧ 2 ≤ (⟨[], [[]], [], 2⟩ : VmState).hw
       then jtdValidate (fun _ => true) 2
          (Schema.ref [("a", Schema.empty [] [])] [] false "a")
          (.num (.posInt 5)) ⟨2, 0⟩ = some (.error .maxDepthExceeded)
       else jtdValidate (fun _ => true) 2
          (Schema.ref [("a", Schema.empty [] [])] [] false "a")
          (.num (.posInt 5)) ⟨2, 0⟩
            = some (.ok (⟨[], [[]], [], 2⟩ : VmState).errors))) :=
  ⟨by rfl, by decide,
    c6_max_depth (fun _ => true) (Schema.ref [("a", Schema.empty [] [])] [] false "a")
      (.num (.posInt 5)) 2 0 2 (⟨[], [[]], [], 2⟩ : VmState) (by rfl) (by decide)⟩

end Jtd

namespace Jtd

/-! ## Claim C5: additional-properties errors -/

/-- The Boolean form of the additional-properties condition: the key is not
the parent tag, not a required property and not an optional property. -/
def isExtraKey (ptag : Option String) (props optProps : List (String × Schema))
    (k : String) : Bool :=
  decide (ptag ≠ some k) && !(hasKey props k) && !(hasKey optProps k)

/-- With `max_errors = 0`, the additional-properties loop always returns `Ok`
and appends exactly one indicator per extra key, in object iteration order,
with instance path `current ++ [key]` and schema path the current head stack
with no trailing token. -/
theorem additionalLoop_maxZero (D : Nat) (ptag : Option String)
    (props optProps : List (String × Schema)) :
    ∀ (keys : List String) (st : VmState),
      additionalLoop ⟨D, 0⟩ ptag props optProps keys st =
        .ok { st with errors := st.errors ++ (keys.filter (isExtraKey ptag props optProps)).map (fun k => ⟨st.instanceTokens ++ [k], st.schemaTokens.headD []⟩) }
  | [], st => by simp [additionalLoop]
  | name :: rest, st => by
      rw [additionalLoop]
      by_cases hc : ptag ≠ some name ∧ ¬hasKey props name = true ∧
          ¬hasKey optProps name = true
      · rw [if_pos hc]
        rw [pushError]
        dsimp only
        rw [if_neg (by simp)]
        rw [VmOut.andThen]
        rw [additionalLoop_maxZero D ptag props optProps rest]
        have hfilter : (name :: rest).filter (isExtraKey ptag props optProps)
            = name :: rest.filter (isExtraKey ptag props optProps) := by
          simp only [List.filter_cons]
          rw [if_pos]
          simp only [isExtraKey, Bool.and_eq_true, Bool.not_eq_true',
            decide_eq_true_iff]
          exact ⟨⟨hc.1, Bool.not_eq_true _ ▸ hc.2.1⟩, Bool.not_eq_true _ ▸ hc.2.2⟩
        rw [hfilter]
        simp [popInstanceToken, pushInstanceToken, List.append_assoc]
      · rw [if_neg hc]
        rw [additionalLoop_maxZero D ptag props optProps rest]
        have hfilter : (name :: rest).filter (isExtraKey ptag props optProps)
            = rest.filter (isExtraKey ptag props optProps) := by
          simp only [List.filter_cons]
          rw [if_neg]
          simp only [isExtraKey, Bool.and_eq_true, Bool.not_eq_true',
            decide_eq_true_iff]
          intro hcon
          exact hc ⟨hcon.1.1, by simp [hcon.1.2], by simp [hcon.2]⟩
        rw [hfilter]

end Jtd

namespace Jtd

theorem hasKey_head {α : Type} (name : String) (v : α) (rest : List (String × α)) :
    hasKey ((name, v) :: rest) name = true := by
  simp [hasKey, lookupKey]

theorem hasKey_cons_of {α : Type} {k : String} {rest : List (String × α)}
    (name : String) (v : α) (h : hasKey rest k = true) :
    hasKey ((name, v) :: rest) k = true := by
  simp only [hasKey, lookupKey]
  split_ifs
  · simp
  · exact h

/-- Every indicator appended by the `properties` loop has the instance path of
the object itself (a missing required property) or descends into an object
member named by a required property. -/
theorem requiredLoop_errPaths (f : Schema → Json → VmState → VmOut)
    (opts : ValidateOptions) (obj : List (String × Json))
    (hreg : ∀ s v st0, Reg st0 (f s v st0)) :
    ∀ (props : List (String × Schema)) (st st' : VmState),
      requiredLoop f opts obj props st = .ok st' →
      ∃ Δ, st'.errors = st.errors ++ Δ ∧ ∀ e ∈ Δ,
        e.instancePath = st.instanceTokens ∨
        ∃ p t, hasKey props p = true ∧ e.instancePath = st.instanceTokens ++ p :: t
  | [], st, st', h => by
      rw [requiredLoop] at h
      cases h
      exact ⟨[], by simp, by simp⟩
  | (name, sub) :: rest, st, st', h => by
      rw [requiredLoop] at h
      cases hL : lookupKey obj name with
      | some subInst =>
          rw [hL] at h
          dsimp only at h
          cases hF : f sub subInst (pushInstanceToken name (pushSchemaToken name st)) with
          | ok stf =>
              rw [hF] at h
              rw [VmOut.andThen, VmOut.andThen] at h
              obtain ⟨Δ2, h2, hp2⟩ := requiredLoop_errPaths f opts obj hreg rest
                (popSchemaToken (popInstanceToken stf)) st' h
              obtain ⟨⟨Δ1, h1, hp1⟩, hhw1, ht1⟩ :=
                hreg sub subInst (pushInstanceToken name (pushSchemaToken name st))
              rw [hF] at h1
              have h1' : stf.errors = st.errors ++ Δ1 := by
                simpa [VmOut.stateOf, pushInstanceToken, pushSchemaToken] using h1
              have hstf : stf.instanceTokens = st.instanceTokens ++ [name] := by
                have := (ht1 stf hF).1
                simpa [pushInstanceToken, pushSchemaToken] using this
              have hpopi : (popSchemaToken (popInstanceToken stf)).instanceTokens
                  = st.instanceTokens := by
                simp [popSchemaToken, popInstanceToken, hstf]
              have h2' : st'.errors = st.errors ++ (Δ1 ++ Δ2) := by
                rw [h2]
                have : (popSchemaToken (popInstanceToken stf)).errors = stf.errors := rfl
                rw [this, h1', List.append_assoc]
              refine ⟨Δ1 ++ Δ2, h2', ?_⟩
              intro e he
              rcases List.mem_append.mp he with h1e | h2e
              · obtain ⟨t, ht⟩ := hp1 e h1e
                right
                refine ⟨name, t, hasKey_head name sub rest, ?_⟩
                simpa [pushInstanceToken, pushSchemaToken, List.append_assoc] using ht
              · rcases hp2 e h2e with hl | ⟨p, t, hk, hpath⟩
                · left
                  rw [hl, hpopi]
                · right
                  exact ⟨p, t, hasKey_cons_of name sub hk, by rw [hpath, hpopi]⟩
          | fail e1 st1 => rw [hF] at h; exact absurd h (by simp [VmOut.andThen])
          | panicked st1 => rw [hF] at h; exact absurd h (by simp [VmOut.andThen])
          | nofuel st1 => rw [hF] at h; exact absurd h (by simp [VmOut.andThen])
      | none =>
          rw [hL] at h
          dsimp only at h
          rw [pushError] at h
          dsimp only at h
          split_ifs at h with hm
          · exact absurd h (by simp [VmOut.andThen])
          · rw [VmOut.andThen] at h
            obtain ⟨Δ2, h2, hp2⟩ := requiredLoop_errPaths f opts obj hreg rest _ st' h
            refine ⟨(⟨st.instanceTokens,
              (pushTok name st.schemaTokens).headD []⟩ : VErr) :: Δ2, ?_, ?_⟩
            · rw [h2]
              simp [popSchemaToken, pushSchemaToken]
            · intro e he
              rcases List.mem_cons.mp he with he0 | heΔ
              · left
                rw [he0]
              · rcases hp2 e heΔ with hl | ⟨p, t, hk, hpath⟩
                · left
                  exact hl
                · right
                  exact ⟨p, t, hasKey_cons_of name sub hk, hpath⟩

/-- Every indicator appended by the `optionalProperties` loop descends into an
object member named by an optional property. -/
theorem optionalLoop_errPaths (f : Schema → Json → VmState → VmOut)
    (obj : List (String × Json))
    (hreg : ∀ s v st0, Reg st0 (f s v st0)) :
    ∀ (optProps : List (String × Schema)) (st st' : VmState),
      optionalLoop f obj optProps st = .ok st' →
      ∃ Δ, st'.errors = st.errors ++ Δ ∧ ∀ e ∈ Δ,
        ∃ p t, hasKey optProps p = true ∧ e.instancePath = st.instanceTokens ++ p :: t
  | [], st, st', h => by
      rw [optionalLoop] at h
      cases h
      exact ⟨[], by simp, by simp⟩
  | (name, sub) :: rest, st, st', h => by
      rw [optionalLoop] at h
      cases hL : lookupKey obj name with
      | some subInst =>
          rw [hL] at h
          dsimp only at h
          cases hF : f sub subInst (pushInstanceToken name (pushSchemaToken name st)) with
          | ok stf =>
              rw [hF] at h
              rw [VmOut.andThen, VmOut.andThen] at h
              obtain ⟨Δ2, h2, hp2⟩ := optionalLoop_errPaths f obj hreg rest
                (popSchemaToken (popInstanceToken stf)) st' h
              obtain ⟨⟨Δ1, h1, hp1⟩, hhw1, ht1⟩ :=
                hreg sub subInst (pushInstanceToken name (pushSchemaToken name st))
              rw [hF] at h1
              have h1' : stf.errors = st.errors ++ Δ1 := by
                simpa [VmOut.stateOf, pushInstanceToken, pushSchemaToken] using h1
              have hstf : stf.instanceTokens = st.instanceTokens ++ [name] := by
                have := (ht1 stf hF).1
                simpa [pushInstanceToken, pushSchemaToken] using this
              have hpopi : (popSchemaToken (popInstanceToken stf)).instanceTokens
                  = st.instanceTokens := by
                simp [popSchemaToken, popInstanceToken, hstf]
              have h2' : st'.errors = st.errors ++ (Δ1 ++ Δ2) := by
                rw [h2]
                have : (popSchemaToken (popInstanceToken stf)).errors = stf.errors := rfl
                rw [this, h1', List.append_assoc]
              refine ⟨Δ1 ++ Δ2, h2', ?_⟩
              intro e he
              rcases List.mem_append.mp he with h1e | h2e
              · obtain ⟨t, ht⟩ := hp1 e h1e
                refine ⟨name, t, hasKey_head name sub rest, ?_⟩
                simpa [pushInstanceToken, pushSchemaToken, List.append_assoc] using ht
              · obtain ⟨p, t, hk, hpath⟩ := hp2 e h2e
                exact ⟨p, t, hasKey_cons_of name sub hk, by rw [hpath, hpopi]⟩
          | fail e1 st1 => rw [hF] at h; exact absurd h (by simp [VmOut.andThen])
          | panicked st1 => rw [hF] at h; exact absurd h (by simp [VmOut.andThen])
          | nofuel st1 => rw [hF] at h; exact absurd h (by simp [VmOut.andThen])
      | none =>
          rw [hL] at h
          dsimp only at h
          rw [VmOut.andThen] at h
          obtain ⟨Δ2, h2, hp2⟩ := optionalLoop_errPaths f obj hreg rest _ st' h
          refine ⟨Δ2, ?_, ?_⟩
          · rw [h2]
            simp [popSchemaToken, pushSchemaToken]
          · intro e he
            obtain ⟨p, t, hk, hpath⟩ := hp2 e he
            exact ⟨p, t, hasKey_cons_of name sub hk, hpath⟩

end Jtd

namespace Jtd

/-- C5: validating a JSON object against a Properties schema with
`additional_properties = false` (options `max_depth = 0`, `max_errors = 0`)
appends, for each object key that is not the parent tag, not required and not
optional, exactly one indicator whose instance path is the current path
extended with that key and whose schema path is the current schema path with
no trailing token; and a key equal to the parent tag (while itself neither
required nor optional, as discriminator-mapping schema validity guarantees)
never yields such an indicator. -/
theorem c5_additional_properties (ts : String → Bool) (root : Schema)
    (d0 : List (String × Schema)) (mm : List (String × Json)) (nb : Bool)
    (props optProps : List (String × Schema)) (pp : Bool)
    (obj : List (String × Json)) (tag : Option String) (st st' : VmState) (fuel : Nat)
    (hnodup : (obj.map Prod.fst).Nodup)
    (hok : vmValidate ts root ⟨0, 0⟩ (fuel + 1)
      (.properties d0 mm nb props optProps pp false) tag (.obj obj) st = .ok st') :
    ∃ Δ, st'.errors = st.errors ++ Δ ∧
      (∀ k, k ∈ obj.map Prod.fst → tag ≠ some k →
        hasKey props k = false → hasKey optProps k = false →
        Δ.count ⟨st.instanceTokens ++ [k], st.schemaTokens.headD []⟩ = 1) ∧
      (∀ k, tag = some k → hasKey props k = false → hasKey optProps k = false →
        Δ.count ⟨st.instanceTokens ++ [k], st.schemaTokens.headD []⟩ = 0) := by
  rw [vmValidate.eq_def ts root ⟨0, 0⟩ (fuel + 1)
    (.properties d0 mm nb props optProps pp false) tag (.obj obj) st] at hok
  dsimp only at hok
  rw [if_neg (by simp [Json.isNull])] at hok
  simp only [Json.asObject] at hok
  have hregv : ∀ s v st0, Reg st0 (vmValidate ts root ⟨0, 0⟩ fuel s none v st0) :=
    fun s v st0 => reg_vmValidate ts root ⟨0, 0⟩ fuel s none v st0
  cases hA : requiredLoop (fun sub => vmValidate ts root ⟨0, 0⟩ fuel sub none) ⟨0, 0⟩
      obj props (pushSchemaToken "properties" st) with
  | fail e1 st1 => rw [hA] at hok; exact absurd hok (by simp [VmOut.andThen])
  | panicked st1 => rw [hA] at hok; exact absurd hok (by simp [VmOut.andThen])
  | nofuel st1 => rw [hA] at hok; exact absurd hok (by simp [VmOut.andThen])
  | ok st1 =>
      rw [hA] at hok
      rw [VmOut.andThen] at hok
      cases hB : optionalLoop (fun sub => vmValidate ts root ⟨0, 0⟩ fuel sub none) obj
          optProps (pushSchemaToken "optionalProperties" (popSchemaToken st1)) with
      | fail e1 st2 => rw [hB] at hok; exact absurd hok (by simp [VmOut.andThen])
      | panicked st2 => rw [hB] at hok; exact absurd hok (by simp [VmOut.andThen])
      | nofuel st2 => rw [hB] at hok; exact absurd hok (by simp [VmOut.andThen])
      | ok st2 =>
          rw [hB] at hok
          rw [VmOut.andThen] at hok
          rw [if_pos (by simp)] at hok
          rw [additionalLoop_maxZero] at hok
          cases hok
          obtain ⟨Δr, hre, hrp⟩ := requiredLoop_errPaths _ ⟨0, 0⟩ obj hregv props
            (pushSchemaToken "properties" st) st1 hA
          obtain ⟨Δo, hoe, hop⟩ := optionalLoop_errPaths _ obj hregv optProps
            (pushSchemaToken "optionalProperties" (popSchemaToken st1)) st2 hB
          have ht1 := ((reg_requiredLoop _ ⟨0, 0⟩ obj hregv props
            (pushSchemaToken "properties" st)).2.2 st1 hA)
          have ht2 := ((reg_optionalLoop _ obj hregv optProps
            (pushSchemaToken "optionalProperties" (popSchemaToken st1))).2.2 st2 hB)
          have hi1 : st1.instanceTokens = st.instanceTokens := ht1.1
          have hs1 : st1.schemaTokens = pushTok "properties" st.schemaTokens := ht1.2
          have hi2 : st2.instanceTokens = st.instanceTokens := by
            rw [ht2.1]
            exact hi1
          have hs2 : (popSchemaToken st2).schemaTokens = st.schemaTokens := by
            simp only [popSchemaToken]
            rw [ht2.2]
            simp only [pushSchemaToken, popSchemaToken]
            rw [popTok_pushTok, hs1, popTok_pushTok]
          have hre' : st1.errors = st.errors ++ Δr := hre
          have hoe' : st2.errors = st1.errors ++ Δo := hoe
          set gen : String → VErr :=
            fun k => ⟨st.instanceTokens ++ [k], st.schemaTokens.headD []⟩ with hgen
          have hgeninj : Function.Injective gen := by
            intro a b hab
            rw [hgen] at hab
            simpa using hab
          have hΔa : ((obj.map Prod.fst).filter (isExtraKey tag props optProps)).map
              (fun k => ⟨(popSchemaToken st2).instanceTokens ++ [k],
                (popSchemaToken st2).schemaTokens.headD []⟩)
              = ((obj.map Prod.fst).filter (isExtraKey tag props optProps)).map gen := by
            apply List.map_congr_left
            intro k hk
            have hpi : (popSchemaToken st2).instanceTokens = st.instanceTokens := hi2
            rw [hgen, hpi, hs2]
          refine ⟨Δr ++ (Δo ++ ((obj.map Prod.fst).filter
            (isExtraKey tag props optProps)).map gen), ?_, ?_, ?_⟩
          · dsimp only
            rw [hΔa]
            have hpe : (popSchemaToken st2).errors = st2.errors := rfl
            rw [hpe, hoe', hre']
            simp [List.append_assoc]
          · intro k hkmem hktag hkp hko
            have hcountr : Δr.count (gen k) = 0 := by
              rw [List.count_eq_zero]
              intro hmem
              rcases hrp (gen k) hmem with hl | ⟨p, t, hkey, hpath⟩
              · rw [hgen] at hl
                simp only [pushSchemaToken] at hl
                simp at hl
              · rw [hgen] at hpath
                simp only [pushSchemaToken] at hpath
                have heq : st.instanceTokens ++ [k] = st.instanceTokens ++ p :: t := hpath
                have := List.append_cancel_left heq
                cases this
                rw [hkey] at hkp
                cases hkp
            have hcounto : Δo.count (gen k) = 0 := by
              rw [List.count_eq_zero]
              intro hmem
              obtain ⟨p, t, hkey, hpath⟩ := hop (gen k) hmem
              rw [hgen] at hpath
              simp only [pushSchemaToken, popSchemaToken] at hpath
              rw [hi1] at hpath
              have heq : st.instanceTokens ++ [k] = st.instanceTokens ++ p :: t := hpath
              have := List.append_cancel_left heq
              cases this
              rw [hkey] at hko
              cases hko
            have hcounta : (((obj.map Prod.fst).filter
                (isExtraKey tag props optProps)).map gen).count (gen k) = 1 := by
              rw [List.count_map_of_injective _ gen hgeninj]
              rw [List.count_filter (by simp [isExtraKey, hkp, hko, hktag])]
              exact List.count_eq_one_of_mem hnodup hkmem
            have hgoal : (⟨st.instanceTokens ++ [k], st.schemaTokens.headD []⟩ : VErr)
                = gen k := by rw [hgen]
            rw [hgoal, List.count_append, List.count_append, hcountr, hcounto, hcounta]
          · intro k hktag hkp hko
            have hcountr : Δr.count (gen k) = 0 := by
              rw [List.count_eq_zero]
              intro hmem
              rcases hrp (gen k) hmem with hl | ⟨p, t, hkey, hpath⟩
              · rw [hgen] at hl
                simp only [pushSchemaToken] at hl
                simp at hl
              · rw [hgen] at hpath
                simp only [pushSchemaToken] at hpath
                have heq : st.instanceTokens ++ [k] = st.instanceTokens ++ p :: t := hpath
                have := List.append_cancel_left heq
                cases this
                rw [hkey] at hkp
                cases hkp
            have hcounto : Δo.count (gen k) = 0 := by
              rw [List.count_eq_zero]
              intro hmem
              obtain ⟨p, t, hkey, hpath⟩ := hop (gen k) hmem
              rw [hgen] at hpath
              simp only [pushSchemaToken, popSchemaToken] at hpath
              rw [hi1] at hpath
              have heq : st.instanceTokens ++ [k] = st.instanceTokens ++ p :: t := hpath
              have := List.append_cancel_left heq
              cases this
              rw [hkey] at hko
              cases hko
            have hcounta : (((obj.map Prod.fst).filter
                (isExtraKey tag props optProps)).map gen).count (gen k) = 0 := by
              rw [List.count_map_of_injective _ gen hgeninj]
              rw [List.count_eq_zero]
              intro hmem
              have := (List.mem_filter.mp hmem).2
              simp [isExtraKey, hktag] at this
            have hgoal : (⟨st.instanceTokens ++ [k], st.schemaTokens.headD []⟩ : VErr)
                = gen k := by rw [hgen]
            rw [hgoal, List.count_append, List.count_append, hcountr, hcounto, hcounta]

end Jtd

namespace Jtd

/-- Witness for C5: object `{"a":5,"b":true}` against a Properties schema
requiring `"a"` with no optional properties and `additionalProperties` absent:
exactly one indicator for the extra key `"b"`, at instance path `["b"]` and
schema path `[]`. -/
theorem c5_additional_properties_witness :
    ((([("a", Json.num (.posInt 5)), ("b", Json.bool true)] :
        List (String × Json)).map Prod.fst).Nodup) ∧
    vmValidate (fun _ => true) (Schema.empty [] []) ⟨0, 0⟩ 2
      (.properties [] [] false [("a", Schema.empty [] [])] [] true false) none
      (.obj [("a", .num (.posInt 5)), ("b", .bool true)]) initState
      = .ok (⟨[], [[]], [⟨["b"], []⟩], 1⟩ : VmState) ∧
    ∃ Δ, (⟨[], [[]], [⟨["b"], []⟩], 1⟩ : VmState).errors = initState.errors ++ Δ ∧
      (∀ k, k ∈ ([("a", Json.num (.posInt 5)), ("b", Json.bool true)] :
          List (String × Json)).map Prod.fst → (none : Option String) ≠ some k →
        hasKey [("a", Schema.empty [] [])] k = false →
        hasKey ([] : List (String × Schema)) k = false →
        Δ.count ⟨initState.instanceTokens ++ [k], initState.schemaTokens.headD []⟩ = 1) ∧
      (∀ k, (none : Option String) = some k →
        hasKey [("a", Schema.empty [] [])] k = false →
        hasKey ([] : List (String × Schema)) k = false →
        Δ.count ⟨initState.instanceTokens ++ [k], initState.schemaTokens.headD []⟩ = 0) :=
  ⟨by decide, by rfl,
    c5_additional_properties (fun _ => true) (Schema.empty [] []) [] [] false
      [("a", Schema.empty [] [])] [] true
      [("a", .num (.posInt 5)), ("b", .bool true)] none initState
      (⟨[], [[]], [⟨["b"], []⟩], 1⟩ : VmState) 1 (by decide) (by rfl)⟩

end Jtd
